import Mathlib

/-! Verification of the Vecchia / full-scale-approximation (FSA) covariance
engine of GPBoost, file src/include/GPBoost/Vecchia_utils.h.

The covariance-function module (CalcSigmaAndSigmaGradVecchia and friends) and
the dense/sparse linear-algebra backends are external collaborators of the
file under analysis; they enter the embedding as abstract parameters (an
abstract kernel value function, an abstract local solve).  Machine doubles
are modelled by exact arithmetic: rational numbers wherever only field
operations and order comparisons occur, real numbers where square roots and
real powers are required (the distance kernel).

Neighbor-search code is modelled for the single-thread configuration
(omp_get_max_threads() == 1), which the source handles by a dedicated branch
building one cover tree over the whole candidate set. -/

namespace GPBoost

/-! Part A: the bounded k-smallest selection used throughout the neighbor
search.  The source keeps an array nn_dist of length k initialized to
infinity together with the neighbor array, and on a candidate with distance
smaller than the current maximum overwrites the last slot and re-sorts both
arrays in tandem (SortVectorsDecreasing, GPBoost/utils.h; that file is not
under src/, so the sorting routine is modelled from the spec: the arrays are
kept sorted by ascending distance, the inserted element bubbling from the
end past strictly larger entries, which keeps equal distances in arrival
order).  Infinity is modelled by the top element of WithTop. -/

/-- Insertion of a pair into a distance-sorted list: the new pair is placed
before the first entry whose distance is strictly larger, hence after all
entries with equal distance (stable bubble from the end). -/
def insertHeapPair (p : WithTop ℚ × ℕ) : List (WithTop ℚ × ℕ) → List (WithTop ℚ × ℕ)
  | [] => [p]
  | q :: rest => if p.1 < q.1 then p :: q :: rest else q :: insertHeapPair p rest

/-- One candidate step of the bounded selection (the body of the scan loops,
for example lines 808-817 of Vecchia_utils.h): if the candidate distance is
strictly below the last (= largest) stored distance, the last slot is
replaced by the candidate and the arrays are re-sorted. -/
def knnStep (st : List (WithTop ℚ × ℕ)) (dj : ℚ) (j : ℕ) : List (WithTop ℚ × ℕ) :=
  match st.getLast? with
  | none => st
  | some lastp =>
    if (dj : WithTop ℚ) < lastp.1 then insertHeapPair ((dj : WithTop ℚ), j) st.dropLast else st

/-- Initial selection state: k slots holding distance infinity; the neighbor
slots of a freshly resized std vector of int hold zero. -/
def knnInit (k : ℕ) : List (WithTop ℚ × ℕ) := List.replicate k ((⊤ : WithTop ℚ), 0)

/-- Scan of a list of (distance, index) candidate pairs through the bounded
selection. -/
def knnScanPairs (k : ℕ) (ps : List (ℚ × ℕ)) : List (WithTop ℚ × ℕ) :=
  ps.foldl (fun st p => knnStep st p.1 p.2) (knnInit k)

/-- Brute-force k-nearest-neighbor scan over candidate indices 0..m-1 under
the distance function dq (the loop at lines 800-817, and identically the
fall-back loop at lines 662-677, of Vecchia_utils.h). -/
def bruteForceKNN (dq : ℕ → ℚ) (m k : ℕ) : List (WithTop ℚ × ℕ) :=
  knnScanPairs k ((List.range m).map (fun j => (dq j, j)))

/-- Neighbor indices stored in a selection state. -/
def knnIndices (st : List (WithTop ℚ × ℕ)) : List ℕ := st.map Prod.snd

/-! Part B: the distance kernel distances_funct (lines 20-61).  The
correlation value corr i j stands for the entry of corr_mat computed by the
external collaborator CalcSigmaAndSigmaGradVecchia from the coordinates of
points i and j (the distances_saved flag only decides whether that
collaborator receives precomputed Euclidean distances, so it does not appear
here); chol_ip_cross_cov r j is entry (r, j) of the m-row matrix
Sigma_ip^(-1/2) Sigma_cross_cov.  Only the branch for the dist_function
string "residual_correlation_FSA" assigns the output vector, and it is the
only value the source ever passes. -/

/-- Distance kernel: residual-correlation distances from query point i to
the candidate list coords_ind_j (lines 31-59 of Vecchia_utils.h). -/
noncomputable def distances_funct (m : ℕ) (corr : ℕ → ℕ → ℝ)
    (chol_ip_cross_cov : ℕ → ℕ → ℝ) (corr_diag : ℕ → ℝ)
    (coord_ind_i : ℕ) (coords_ind_j : List ℕ) : List ℝ :=
  let pp_node : List ℝ := coords_ind_j.map (fun j =>
    ∑ r ∈ Finset.range m, chol_ip_cross_cov r j * chol_ip_cross_cov r coord_ind_i)
  let corr_diag_sample : ℝ := corr_diag coord_ind_i
  (List.range coords_ind_j.length).map (fun t =>
    Real.sqrt (1 - |(corr coord_ind_i (coords_ind_j.getD t 0) - pp_node.getD t 0) /
      Real.sqrt (corr_diag_sample * corr_diag (coords_ind_j.getD t 0))| ^ (0.1 : ℝ)))

/-! Part C: the error report at the end of CalcCovFactorVecchia
(lines 1798-1811).  At line 1798 each diagonal entry of D_inv is replaced by
its reciprocal, computed in double arithmetic, where 1. / 0. is plus
infinity (modelled by ⊤ in WithTop ℚ); the check then looks at the minimum
of the stored reciprocals. -/

/-- Error reporting channels of the logger. -/
inductive ErrorLevel where
  | silent
  | warning
  | fatal
deriving DecidableEq

/-- Final inversion of the diagonal (line 1798): the stored value for point
i becomes the double quotient 1. / D i, which is plus infinity (⊤) when
D i = 0 and the exact reciprocal 1 / D i otherwise. -/
def D_inv_final (D : ℕ → ℚ) : ℕ → WithTop ℚ := fun i =>
  if D i = 0 then ⊤ else ((1 / D i : ℚ) : WithTop ℚ)

/-- Minimum over the first n stored diagonal entries (minCoeff at
line 1801); n is at least 1 in every call. -/
def min_D_inv (n : ℕ) (Dinv : ℕ → WithTop ℚ) : WithTop ℚ :=
  ((List.range n).map Dinv).foldl min (Dinv 0)

/-- Error report of CalcCovFactorVecchia (lines 1800-1811): a nonpositive
minimum of the stored reciprocals is a warning under a Gaussian likelihood
and fatal otherwise. -/
def checkDPositive (n : ℕ) (gauss_likelihood : Bool) (D : ℕ → ℚ) : ErrorLevel :=
  if min_D_inv n (D_inv_final D) ≤ (0 : WithTop ℚ) then
    (if gauss_likelihood then ErrorLevel.warning else ErrorLevel.fatal)
  else ErrorLevel.silent

/-! Part D: the predicted-first prediction path
CalcPredVecchiaPredictedFirstOrder (lines 2248-2454).  The factor blocks
Bp, Bop, Bo and the inverted diagonals Dp_inv, Do_inv are taken as inputs;
the claim under scrutiny concerns how the precision matrix and the mean are
assembled from them (lines 2434-2438).  The sparse Cholesky solve is exact
in real arithmetic; it is modelled by the adjugate formula. -/

/-- Prediction-side precision matrix cond_prec (line 2434). -/
def cond_prec (np no : ℕ) (Bp : Matrix (Fin np) (Fin np) ℚ)
    (Bop : Matrix (Fin no) (Fin np) ℚ) (Dp_inv : Fin np → ℚ) (Do_inv : Fin no → ℚ) :
    Matrix (Fin np) (Fin np) ℚ :=
  Bp.transpose * Matrix.diagonal Dp_inv * Bp + Bop.transpose * Matrix.diagonal Do_inv * Bop

/-- Right-hand side vector y_aux (line 2437). -/
def y_aux (np no : ℕ) (Bop : Matrix (Fin no) (Fin np) ℚ) (Do_inv : Fin no → ℚ)
    (Bo : Matrix (Fin no) (Fin no) ℚ) (y : Fin no → ℚ) : Fin np → ℚ :=
  Bop.transpose.mulVec ((Matrix.diagonal Do_inv).mulVec (Bo.mulVec y))

/-- Exact linear solve standing for CholFact.solve, by the adjugate
formula (on an invertible matrix this is the unique solution). -/
def cholSolve (np : ℕ) (A : Matrix (Fin np) (Fin np) ℚ) (v : Fin np → ℚ) : Fin np → ℚ :=
  (((A.det)⁻¹ • A.adjugate) : Matrix (Fin np) (Fin np) ℚ).mulVec v

/-- Predictive mean pred_mean (line 2438): the negated solve of the
precision system against y_aux. -/
def pred_mean_predicted_first (np no : ℕ) (Bp : Matrix (Fin np) (Fin np) ℚ)
    (Bop : Matrix (Fin no) (Fin np) ℚ) (Bo : Matrix (Fin no) (Fin no) ℚ)
    (Dp_inv : Fin np → ℚ) (Do_inv : Fin no → ℚ) (y : Fin no → ℚ) : Fin np → ℚ :=
  - cholSolve np (cond_prec np no Bp Bop Dp_inv Do_inv) (y_aux np no Bop Do_inv Bo y)

/-! Part E: the fatal-error sequencing in the tail of
CreateREComponentsVecchia (lines 1302-1358), after the neighbor containers
are set up and before the random-coefficient components are constructed. -/

/-- Outcomes of the tail of CreateREComponentsVecchia: fatal abort with a
message, or normal continuation into the random-coefficient construction. -/
def CreateREComponentsVecchia_checks (vecchia_ordering : String)
    (is_space_time_model : Bool) (check_has_duplicates has_duplicates_coords : Bool)
    (gauss_likelihood : Bool) (num_gp_rand_coef : ℕ)
    (should_save_distances : Bool) : Except String Unit :=
  if (vecchia_ordering = "time" ∨ vecchia_ordering = "time_random_space") ∧
      ¬is_space_time_model then
    Except.error "vecchia_ordering needs a space-time covariance function"
  else if check_has_duplicates ∧ ¬gauss_likelihood ∧ has_duplicates_coords then
    Except.error "duplicates in the coordinates are not supported for non-Gaussian likelihoods"
  else if 0 < num_gp_rand_coef ∧ ¬should_save_distances then
    Except.error "random coefficient processes need saved distances"
  else Except.ok ()

/-- Pre-permutation at the top of CreateREComponentsVecchia
(lines 1210-1213); shuffle stands for std shuffle with the given generator
state. -/
def vecchiaPrePermutation (vecchia_ordering gp_approx : String)
    (shuffle : List ℕ → List ℕ) (data_indices : List ℕ) : List ℕ :=
  if (vecchia_ordering = "random" ∨ vecchia_ordering = "time_random_space") ∧
      gp_approx ≠ "full_scale_vecchia" then
    shuffle data_indices
  else data_indices

/-! Part F: the prologue of find_nearest_neighbors_Vecchia_FSA_fast
(lines 726-801): the effective end of the candidate range, the clamping of
the number of neighbors, and the regime thresholds. -/

/-- Effective end_search_at (lines 733-735): a negative input means
num_data - 2. -/
def effective_end_search_at (num_data : ℕ) (end_search_at : ℤ) : ℤ :=
  if end_search_at < 0 then (num_data : ℤ) - 2 else end_search_at

/-- Clamping of num_neighbors (lines 736-739); the Boolean records whether
the informational log message was emitted. -/
def clamp_num_neighbors (num_data num_neighbors : ℕ) (end_search_at : ℤ) : ℕ × Bool :=
  let e := effective_end_search_at num_data end_search_at
  if (num_neighbors : ℤ) > e + 1 then ((e + 1).toNat, true) else (num_neighbors, false)

/-- First index for which a search is performed (line 790). -/
def first_i_search (start_at num_neighbors : ℕ) : ℕ :=
  if start_at ≤ num_neighbors then num_neighbors + 1 else start_at

/-- Brute-force threshold (lines 792-795): below it points use the
brute-force scan, at or above it the cover tree. -/
def brute_force_threshold (num_data num_neighbors start_at : ℕ) (prediction : Bool) : ℕ :=
  if prediction then
    min num_data (max (first_i_search start_at num_neighbors + 500) num_neighbors)
  else min num_data (max 1000 num_neighbors)

/-- Upper bound of the candidate range in the brute-force scan
(lines 796-799 and 808). -/
def max_ind_nn (num_data num_data_obs : ℕ) (cond_on_all : Bool) : ℕ :=
  if cond_on_all then num_data else num_data_obs

/-- Search regimes of find_nearest_neighbors_Vecchia_FSA_fast for one point. -/
inductive Regime where
  | initSmall
  | brute
  | cover
deriving DecidableEq

/-- Regime dispatch for point i (lines 761-801 and 898-899): points with at
most num_neighbors candidates get the full initial set, points below the
brute-force threshold get the brute-force scan, the rest query the cover
tree. -/
def regimeOf (num_data num_neighbors start_at : ℕ) (prediction : Bool) (i : ℕ) : Regime :=
  if i ≤ num_neighbors then Regime.initSmall
  else if i < brute_force_threshold num_data num_neighbors start_at prediction then Regime.brute
  else Regime.cover

/-! Part G: the cover-tree construction CoverTree_kNN (lines 63-155).  The
tree is an association list from integer keys (-1 marks the root entry) to
child lists.  Distances between candidate points come from an abstract
rational-valued oracle d; in the source they are produced by
distances_funct from the external covariance kernel, whose values on the
candidate pairs are free parameters of the analysis. -/

/-- Cover tree: association list from parent key to child-index list. -/
abbrev CoverTree := List (Int × List ℕ)

/-- Keys present in the tree. -/
def treeKeys (t : CoverTree) : List Int := t.map Prod.fst

/-- Child-list lookup (std map access; absent key gives an empty list). -/
def treeGet (t : CoverTree) (key : Int) : List ℕ :=
  match t.find? (fun e => e.1 == key) with
  | some e => e.2
  | none => []

/-- std map insert: no effect when the key is already present. -/
def treeInsert (t : CoverTree) (key : Int) (vals : List ℕ) : CoverTree :=
  if (treeKeys t).contains key then t else t ++ [(key, vals)]

/-- push_back of a child on the entry of the given key. -/
def treeAppend (t : CoverTree) (key : Int) (v : ℕ) : CoverTree :=
  t.map (fun e => if e.1 == key then (e.1, e.2 ++ [v]) else e)

/-- A group of the level loop: a parent key together with the points it
covered at the previous level (one covert_points_old entry); indices are
local to the segment. -/
abbrev CoverGroup := ℕ × List ℕ

/-- Inner while loop of CoverTree_kNN (lines 107-139) on one group: the
first remaining uncovered point is sampled as a child of the group key, the
remaining points behind it within radius R_l of the sample become the
points it covers, and the loop continues on the rest minus the covered
points (std set_difference of sorted lists).  Returns the tree after the
appends together with the covert_points entries (sample, covered) created
for this group, in creation order.  The uncovered list shrinks strictly, so
fuel = length suffices. -/
def coverTreeGroupLoop (d : ℕ → ℕ → ℚ) (R_l : ℚ) (start key : ℕ) :
    ℕ → List ℕ → CoverTree → CoverTree × List (ℕ × List ℕ)
  | 0, _, t => (t, [])
  | _ + 1, [], t => (t, [])
  | fuel + 1, sample :: rest, t =>
    let t1 := treeAppend t (key + start) (sample + start)
    let up := rest.filter (fun j => sample < j)
    let dist_vect := up.map (fun j => d (sample + start) (j + start))
    let covered := ((up.zip dist_vect).filter (fun p => p.2 ≤ R_l)).map Prod.fst
    let rest1 := rest.filter (fun j => ¬ covered.contains j)
    let res := coverTreeGroupLoop d R_l start key fuel rest1 t1
    (res.1, (sample, covered) :: res.2)

/-- One level of CoverTree_kNN (lines 100-142): every group key is inserted
into the tree with a self link, then its uncovered set is drained. -/
def coverTreeLevel (d : ℕ → ℕ → ℚ) (R_l : ℚ) (start : ℕ) :
    List CoverGroup → CoverTree → CoverTree × List (ℕ × List ℕ)
  | [], t => (t, [])
  | (key, pts) :: gs, t =>
    let t1 := treeInsert t (key + start) [key + start]
    let res := coverTreeGroupLoop d R_l start key pts.length pts t1
    let res2 := coverTreeLevel d R_l start gs res.1
    (res2.1, res.2 ++ res2.2)

/-- Association entries in increasing key order (std map iteration
order). -/
def sortEntriesByKey (l : List (ℕ × List ℕ)) : List (ℕ × List ℕ) :=
  List.insertionSort (fun a b => a.1 ≤ b.1) l

/-- Outer while loop of CoverTree_kNN (lines 97-143): it stops as soon as
the number of keys other than -1 equals the number of candidates.  Fuel
makes the recursion structural; claim C6 shows that fuel 2 n + 2 always
reaches the stop condition. -/
def coverTreeLoop (d : ℕ → ℕ → ℚ) (base : ℚ) (n start : ℕ) :
    ℕ → ℕ → CoverTree → List CoverGroup → Option (CoverTree × ℕ)
  | 0, _, _, _ => none
  | fuel + 1, level, t, groups =>
    if t.length - 1 = n then some (t, level)
    else
      let R_l := 1 / base ^ (level + 1)
      let res := coverTreeLevel d R_l start groups t
      coverTreeLoop d base n start fuel (level + 1) res.1 (sortEntriesByKey res.2)

/-- CoverTree_kNN (lines 63-155) on a segment of n candidate points with
global indices start..start+n-1: the root is the first point of the
segment, the remaining points form the uncovered set of the root
(all_indices, line 91).  Returns the tree together with the level count. -/
def CoverTree_kNN (d : ℕ → ℕ → ℚ) (base : ℚ) (n start : ℕ) : Option (CoverTree × ℕ) :=
  coverTreeLoop d base n start (2 * n + 2) 0 [(-1, [start])] [(0, List.range' 1 (n - 1))]

/-! Part H: the k-nearest-neighbor query find_kNN_CoverTree
(lines 530-688).  dq j is the residual-correlation distance between the
query point i and candidate j. -/

/-- State of the query level loop. -/
structure KNNQueryState where
  Q : List ℕ
  Q_dist : List ℚ
  diff_rev : List ℕ
  Q_before_size : ℕ

/-- Children of node j visible to query i (lines 568-580): the child list
is scanned in order, the scan breaks at the first child not below i, and
the self link is skipped. -/
def visibleChildren (tree : CoverTree) (i j : ℕ) : List ℕ :=
  ((treeGet tree (Int.ofNat j)).takeWhile (fun jj => jj < i)).filter (fun jj => jj ≠ j)

/-- maxCoeff of a vector (line 595; the vector is nonempty whenever the
source evaluates it). -/
def maxListQ : List ℚ → ℚ
  | [] => 1
  | x :: xs => xs.foldl max x

/-- nth_element selection (lines 598-600): the k-th smallest entry of the
list, i.e. entry k-1 of the ascending sort. -/
def nthSmallest (l : List ℚ) (k : ℕ) : ℚ :=
  (List.insertionSort (fun a b => a ≤ b) l).getD (k - 1) 0

/-- One level of the query loop of find_kNN_CoverTree (lines 561-640):
expansion of the scheduled nodes to their visible children, distance
computation for the new candidates, threshold update (from the second
level on), and pruning when the threshold is below the maximal distance.
Returns the updated state and the early-stop flag. -/
def findKNNLevel (dq : ℕ → ℚ) (base : ℚ) (k i levels root : ℕ) (tree : CoverTree)
    (ii : ℕ) (st : KNNQueryState) : KNNQueryState × Bool :=
  let QStart := if ii = 1 then st.Q ++ [root] else st.Q
  let interimStart : List ℕ := if ii = 1 then [root] else []
  let newChildren := st.diff_rev.flatMap (fun j => visibleChildren tree i j)
  let Q1 := QStart ++ newChildren
  let interim := interimStart ++ newChildren
  let early_stop := interim.length = 0 ∨ ii = levels - 1
  let Q_dist1 := st.Q_dist ++ interim.map dq
  let dist_k_Q_cor : ℚ :=
    if 1 < ii then
      (if Q_dist1.length < k then maxListQ Q_dist1 else nthSmallest Q_dist1 k) +
        1 / base ^ (ii - 1)
    else 1
  if 1 ≤ dist_k_Q_cor then
    let diff_rev1 := if early_stop then [] else (if ii = 1 then interim.drop 1 else interim)
    (⟨Q1, Q_dist1, diff_rev1, Q1.length⟩, early_stop)
  else
    let kept := ((Q1.zip Q_dist1).enum).filter (fun p => p.2.2 ≤ dist_k_Q_cor)
    let Q2 := kept.map (fun p => p.2.1)
    let Qd2 := kept.map (fun p => p.2.2)
    let diff_rev1 := (kept.filter (fun p => st.Q_before_size ≤ p.1)).map (fun p => p.2.1)
    (⟨Q2, Qd2, diff_rev1, Q2.length⟩, early_stop)

/-- The query level loop (for ii = 1 .. levels-1 with early stop). -/
def findKNNLoop (dq : ℕ → ℚ) (base : ℚ) (k i levels root : ℕ) (tree : CoverTree) :
    ℕ → ℕ → KNNQueryState → KNNQueryState
  | 0, _, st => st
  | fuel + 1, ii, st =>
    let res := findKNNLevel dq base k i levels root tree ii st
    if res.2 then res.1 else findKNNLoop dq base k i levels root tree fuel (ii + 1) res.1

/-- Final state of the query traversal of find_kNN_CoverTree. -/
def findKNNFinalState (dq : ℕ → ℚ) (base : ℚ) (k i levels : ℕ) (tree : CoverTree) :
    KNNQueryState :=
  let root := (treeGet tree (-1)).headD 0
  findKNNLoop dq base k i levels root tree (levels - 1) 1 ⟨[], [], [root], 1⟩

/-- find_kNN_CoverTree (lines 530-688): the level traversal followed by
selection of the k smallest among the surviving candidates (lines 642-661),
or the brute-force fall-back over candidates 0..i-1 when fewer than k
candidates survive (lines 662-686). -/
def find_kNN_CoverTree (dq : ℕ → ℚ) (base : ℚ) (k i levels : ℕ) (tree : CoverTree) :
    List (WithTop ℚ × ℕ) :=
  let final := findKNNFinalState dq base k i levels tree
  if k ≤ final.Q_before_size then knnScanPairs k (final.Q_dist.zip final.Q)
  else bruteForceKNN dq i k

/-! Part I: the neighbor-search orchestrator
find_nearest_neighbors_Vecchia_FSA_fast (lines 708-1085), single-thread
configuration.  Points with index at most num_neighbors receive the full
candidate prefix (lines 761-787); points below the brute-force threshold
are scanned directly (lines 800-836); the remaining points query the cover
tree (lines 898-990).  The oracle d a b is the residual-correlation
distance between points a and b. -/

/-- Neighbor lists produced by find_nearest_neighbors_Vecchia_FSA_fast as a
function of the point index (meaningful for start_at le i lt num_data). -/
def find_nearest_neighbors_Vecchia_FSA_fast (d : ℕ → ℕ → ℚ) (base : ℚ)
    (num_data num_neighbors_in : ℕ) (end_search_at : ℤ) (start_at num_data_obs : ℕ)
    (prediction cond_on_all : Bool) : ℕ → List ℕ :=
  let num_neighbors := (clamp_num_neighbors num_data num_neighbors_in end_search_at).1
  let maxind := max_ind_nn num_data num_data_obs cond_on_all
  let tree_n := if prediction ∧ ¬cond_on_all then num_data_obs else num_data
  let tl := (CoverTree_kNN d base tree_n 0).getD ([], 0)
  fun i =>
    match regimeOf num_data num_neighbors start_at prediction i with
    | Regime.initSmall => List.range i
    | Regime.brute =>
      knnIndices (bruteForceKNN (fun j => d i j) (min i maxind) num_neighbors)
    | Regime.cover =>
      knnIndices (find_kNN_CoverTree (fun j => d i j) base num_neighbors i tl.2 tl.1)

/-! Part J: orders on selection entries and the specification predicate of
a brute-force k-nearest-neighbor selection (this one follows the words of
the claim, to be compared with the source-derived scan). -/

/-- Weak order on selection entries by distance only. -/
def fstLe (a b : WithTop ℚ × ℕ) : Prop := a.1 ≤ b.1

/-- Lexicographic order on selection entries: by distance, ties by index. -/
def lexLe (a b : WithTop ℚ × ℕ) : Prop := a.1 < b.1 ∨ (a.1 = b.1 ∧ a.2 ≤ b.2)

/-- Specification (from the words of claim C1): S is the set of the k
smallest candidates among 0..i-1 under the distance dq, ties broken by the
smaller global index. -/
def isBruteForceKNNSelection (dq : ℕ → ℚ) (i k : ℕ) (S : List ℕ) : Prop :=
  S.length = k ∧ S.Nodup ∧ (∀ s ∈ S, s < i) ∧
  ∀ s ∈ S, ∀ j, j < i → j ∉ S → (dq s < dq j ∨ (dq s = dq j ∧ s < j))

/-- Entries of a selection state that hold a real candidate (distance not
infinity). -/
def realEntries (st : List (WithTop ℚ × ℕ)) : List (WithTop ℚ × ℕ) :=
  st.filter (fun p => decide (p.1 ≠ ⊤))

/-- Concrete distance oracle for the counterexample to claim C1. It is
symmetric by construction (values are indexed by the unordered pair
(min a b, max a b)), as the residual-correlation distance of
distances_funct is symmetric in its two points, and all values lie in
[0, 1], the range of that distance; the unordered pair (a, b) gives the
distance between points a and b of a candidate set of size 6, query
point 5. -/
def dEx : ℕ → ℕ → ℚ := fun a b =>
  match min a b, max a b with
  | 0, 5 => 3/10
  | 1, 2 => 1/2
  | 1, 3 => 1/2
  | 1, 4 => 9/10
  | 1, 5 => 99/100
  | 2, 3 => 1/4
  | 2, 5 => 99/100
  | 3, 5 => 1/100
  | 4, 5 => 9/10
  | _, _ => 1

/-- Invariant of the brute-force scan after the first j candidates, lex
version: the state is k entries sorted by (distance, index); every real
entry is a scanned candidate with its distance; real entries are distinct
and number min j k; and every kept entry is lexicographically at most every
scanned-and-dropped candidate. -/
structure HeapInvLex (dq : ℕ → ℚ) (k j : ℕ) (st : List (WithTop ℚ × ℕ)) : Prop where
  len : st.length = k
  sorted : st.Pairwise lexLe
  entries : ∀ p ∈ st, p.1 = ⊤ ∨ (p = ((dq p.2 : WithTop ℚ), p.2) ∧ p.2 < j)
  nodup_reals : ((realEntries st).map Prod.snd).Nodup
  real_count : (realEntries st).length = min j k
  dropped : ∀ j0, j0 < j → ((dq j0 : WithTop ℚ), j0) ∉ st →
    ∀ p ∈ st, lexLe p ((dq j0 : WithTop ℚ), j0)

/-! Part K: specification structures for the cover-tree construction
proofs. -/

/-- A point of the segment is done when its key is present in the tree. -/
def isDone (start : ℕ) (t : CoverTree) (c : ℕ) : Prop :=
  ((c : ℤ) + start) ∈ treeKeys t

instance (start : ℕ) (t : CoverTree) (c : ℕ) : Decidable (isDone start t c) := by
  unfold isDone
  infer_instance

/-- Keys of the pending groups (nodes sampled at the previous level). -/
def pendList (groups : List CoverGroup) : List ℕ := groups.map Prod.fst

/-- Members of the pending groups (points still waiting to be sampled). -/
def waitList (groups : List CoverGroup) : List ℕ := groups.flatMap Prod.snd

/-- Effect of the inner while loop of CoverTree_kNN on one group. -/
structure GroupResult (start key : ℕ) (pts : List ℕ) (t : CoverTree)
    (out : CoverTree × List (ℕ × List ℕ)) : Prop where
  keys_eq : treeKeys out.1 = treeKeys t
  get_ne : ∀ k2, k2 ≠ ((key : ℤ) + start) → treeGet out.1 k2 = treeGet t k2
  get_self : treeGet out.1 ((key : ℤ) + start) =
      treeGet t ((key : ℤ) + start) ++ (out.2.map Prod.fst).map (· + start)
  samples_pairwise : (out.2.map Prod.fst).Pairwise (· < ·)
  cov_prop : ∀ e ∈ out.2, (∀ x ∈ e.2, e.1 < x) ∧ e.2.Pairwise (· < ·)
  partition : List.Perm (out.2.map Prod.fst ++ out.2.flatMap Prod.snd) pts

/-- Invariant of the outer while loop of CoverTree_kNN at the start of an
iteration: the candidates of the segment split into done points (keys of
the tree), pending points (group keys, sampled at the previous level) and
waiting points (group members); tree entries of done points list the point
itself followed by its sampled children; par and lv are the parent and
level assignment fixed so far. -/
structure BuildInv (n start level : ℕ) (t : CoverTree) (groups : List CoverGroup)
    (par lv : ℕ → ℕ) : Prop where
  root_entry : treeGet t (-1) = [start]
  keys_nodup : (treeKeys t).Nodup
  key_char : ∀ key ∈ treeKeys t, key = -1 ∨ ∃ c, c < n ∧ key = ((c : ℤ) + start)
  pend_nodup : (pendList groups).Nodup
  wait_nodup : (waitList groups).Nodup
  pend_wait_disj : ∀ c ∈ pendList groups, c ∉ waitList groups
  pend_not_done : ∀ c ∈ pendList groups, ¬ isDone start t c
  wait_not_done : ∀ c ∈ waitList groups, ¬ isDone start t c
  class_total : ∀ c, c < n → isDone start t c ∨ c ∈ pendList groups ∨ c ∈ waitList groups
  pend_lt : ∀ c ∈ pendList groups, c < n
  wait_lt : ∀ c ∈ waitList groups, c < n
  grp_mem : ∀ g ∈ groups, (∀ x ∈ g.2, g.1 < x) ∧ g.2.Pairwise (· < ·)
  entry_spec : ∀ c, c < n → isDone start t c →
    ∃ ts, treeGet t ((c : ℤ) + start) = (c + start) :: ts ∧ ts.Pairwise (· < ·) ∧
      (∀ x, x ∈ ts ↔ ∃ c2, c2 < n ∧ 1 ≤ c2 ∧ par c2 = c ∧ x = c2 + start ∧
        (isDone start t c2 ∨ c2 ∈ pendList groups))
  par_dom : ∀ c, c < n → 1 ≤ c → (isDone start t c ∨ c ∈ pendList groups) →
    par c < c ∧ isDone start t (par c) ∧ lv c = lv (par c) + 1
  root_class : isDone start t 0 ∨ 0 ∈ pendList groups
  lv_zero : lv 0 = 0
  lv_pend : ∀ c ∈ pendList groups, lv c = level
  lv_done : ∀ c, c < n → isDone start t c → lv c < level

/-- Facts about the finished cover tree used by the query proofs. -/
structure FinalTreeFacts (n start levels : ℕ) (t : CoverTree) (par lv : ℕ → ℕ) : Prop where
  root_entry : treeGet t (-1) = [start]
  keys_nodup : (treeKeys t).Nodup
  key_char : ∀ key ∈ treeKeys t, key = -1 ∨ ∃ c, c < n ∧ key = ((c : ℤ) + start)
  key_mem : ∀ c, c < n → ((c : ℤ) + start) ∈ treeKeys t
  entry_spec : ∀ c, c < n →
    ∃ ts, treeGet t ((c : ℤ) + start) = (c + start) :: ts ∧ ts.Pairwise (· < ·) ∧
      (∀ x, x ∈ ts ↔ ∃ c2, c2 < n ∧ 1 ≤ c2 ∧ par c2 = c ∧ x = c2 + start)
  par_dom : ∀ c, c < n → 1 ≤ c → par c < c ∧ lv c = lv (par c) + 1
  lv_zero : lv 0 = 0
  lv_le : ∀ c, c < n → lv c + 1 ≤ levels

/-- The covert_points entries produced by the inner while loop on one group,
as a function of the member list alone (the tree only receives the appends
and does not influence which points are sampled). -/
def groupEntries (d : ℕ → ℕ → ℚ) (R_l : ℚ) (start : ℕ) : ℕ → List ℕ → List (ℕ × List ℕ)
  | 0, _ => []
  | _ + 1, [] => []
  | fuel + 1, sample :: rest =>
    let up := rest.filter (fun j => sample < j)
    let dist_vect := up.map (fun j => d (sample + start) (j + start))
    let covered := ((up.zip dist_vect).filter (fun p => p.2 ≤ R_l)).map Prod.fst
    let rest1 := rest.filter (fun j => ¬ covered.contains j)
    (sample, covered) :: groupEntries d R_l start fuel rest1

/-- The points a group samples as children of its key during one level. -/
def groupSamples (d : ℕ → ℕ → ℚ) (R_l : ℚ) (start : ℕ) (g : CoverGroup) : List ℕ :=
  (groupEntries d R_l start g.2.length g.2).map Prod.fst

/-- Ghost parent assignment after one level: a point sampled during the
level gets its group key as parent, every other point keeps its parent. -/
def parUpd (d : ℕ → ℕ → ℚ) (R_l : ℚ) (start : ℕ) (groups : List CoverGroup)
    (par : ℕ → ℕ) (c : ℕ) : ℕ :=
  match groups.find? (fun g => (groupSamples d R_l start g).contains c) with
  | some g => g.1
  | none => par c

/-- Ghost level assignment after one level: a point sampled during the
level gets the new level, every other point keeps its level. -/
def lvUpd (d : ℕ → ℕ → ℚ) (R_l : ℚ) (start : ℕ) (groups : List CoverGroup)
    (newlv : ℕ) (lv : ℕ → ℕ) (c : ℕ) : ℕ :=
  if (groups.flatMap (fun g => groupSamples d R_l start g)).contains c then newlv else lv c

/-- Effect of one level of the construction on the tree and the produced
covert_points entries. -/
structure LevelResult (d : ℕ → ℕ → ℚ) (R_l : ℚ) (start : ℕ) (gs : List CoverGroup)
    (t : CoverTree) (out : CoverTree × List (ℕ × List ℕ)) : Prop where
  keys_eq : treeKeys out.1 = treeKeys t ++ gs.map (fun g => ((g.1 : ℤ) + start))
  get_old : ∀ k2, (∀ g ∈ gs, k2 ≠ ((g.1 : ℤ) + start)) → treeGet out.1 k2 = treeGet t k2
  get_new : ∀ g ∈ gs, treeGet out.1 ((g.1 : ℤ) + start) =
    (g.1 + start) :: (groupSamples d R_l start g).map (· + start)
  entries_eq : out.2 = gs.flatMap (fun g => groupEntries d R_l start g.2.length g.2)

/-- The pruning threshold dist_k_Q_cor computed by one level of the query
loop (lines 590-604), as a function of the incoming state. -/
def levelThreshold (dq : ℕ → ℚ) (base : ℚ) (k i levels root : ℕ) (tree : CoverTree)
    (ii : ℕ) (st : KNNQueryState) : ℚ :=
  let interimStart : List ℕ := if ii = 1 then [root] else []
  let newChildren := st.diff_rev.flatMap (fun j => visibleChildren tree i j)
  let interim := interimStart ++ newChildren
  let Q_dist1 := st.Q_dist ++ interim.map dq
  if 1 < ii then
    (if Q_dist1.length < k then maxListQ Q_dist1 else nthSmallest Q_dist1 k) +
      1 / base ^ (ii - 1)
  else 1

/-- Trace checker: true when no level of the query loop takes the pruning
branch (the threshold reaches 1 at every executed level). -/
def noPruneLoop (dq : ℕ → ℚ) (base : ℚ) (k i levels root : ℕ) (tree : CoverTree) :
    ℕ → ℕ → KNNQueryState → Bool
  | 0, _, _ => true
  | fuel + 1, ii, st =>
    decide (1 ≤ levelThreshold dq base k i levels root tree ii st) &&
      (let res := findKNNLevel dq base k i levels root tree ii st
       if res.2 then true else noPruneLoop dq base k i levels root tree fuel (ii + 1) res.1)

/-- No pruning anywhere in the traversal of find_kNN_CoverTree. -/
def noPruneQuery (dq : ℕ → ℚ) (base : ℚ) (k i levels : ℕ) (tree : CoverTree) : Bool :=
  noPruneLoop dq base k i levels ((treeGet tree (-1)).headD 0) tree (levels - 1) 1
    ⟨[], [], [(treeGet tree (-1)).headD 0], 1⟩

/-- Invariant of the selection scan over an arbitrary already-scanned
candidate list P (same fields as HeapInvLex with the scanned prefix a list
instead of an initial segment). -/
structure HeapInvSet (dq : ℕ → ℚ) (k : ℕ) (P : List ℕ) (st : List (WithTop ℚ × ℕ)) :
    Prop where
  len : st.length = k
  sorted : st.Pairwise lexLe
  entries : ∀ p ∈ st, p.1 = ⊤ ∨ (p = ((dq p.2 : WithTop ℚ), p.2) ∧ p.2 ∈ P)
  nodup_reals : ((realEntries st).map Prod.snd).Nodup
  real_count : (realEntries st).length = min P.length k
  dropped : ∀ j0 ∈ P, ((dq j0 : WithTop ℚ), j0) ∉ st →
    ∀ p ∈ st, lexLe p ((dq j0 : WithTop ℚ), j0)

/-- setFromTriplets of Eigen (line 1312 feeds entries_init_B into the
sparse matrix B): duplicate triplets are summed, absent positions are
structural zeros. -/
def setFromTriplets (ts : List (ℕ × ℕ × ℚ)) : ℕ → ℕ → ℚ :=
  fun i j => ((ts.filter (fun t => t.1 = i ∧ t.2.1 = j)).map (fun t => t.2.2)).sum

/-- The initial triplet list of CreateREComponentsVecchia (lines 1312-1318):
for every point a zero entry per neighbor and a one on the diagonal. -/
def initTriplets (N : ℕ → List ℕ) (n : ℕ) : List (ℕ × ℕ × ℚ) :=
  (List.range n).flatMap (fun i => (N i).map (fun j => (i, j, (0 : ℚ))) ++ [(i, i, 1)])

/-- Sequence of coeffRef writes of CalcCovFactorVecchia (lines 1742-1744):
for every i > 0 position inn of the neighbor list receives -A_i(0, inn);
the kernel-dependent values A_i are an abstract oracle A. -/
def vecchiaWrites (N : ℕ → List ℕ) (A : ℕ → ℕ → ℚ) (n : ℕ) : List (ℕ × ℕ × ℚ) :=
  (List.range n).flatMap (fun i =>
    if i = 0 then []
    else (List.range (N i).length).map (fun inn => (i, (N i).getD inn 0, -(A i inn))))

/-- coeffRef assignment semantics: later writes overwrite. -/
def applyWrites (B : ℕ → ℕ → ℚ) (ws : List (ℕ × ℕ × ℚ)) : ℕ → ℕ → ℚ :=
  ws.foldl (fun B2 w => fun i j => if i = w.1 ∧ j = w.2.1 then w.2.2 else B2 i j) B

/-- The factor B after CreateREComponentsVecchia initialization and the
CalcCovFactorVecchia per-point writes. -/
def B_final (N : ℕ → List ℕ) (A : ℕ → ℕ → ℚ) (n : ℕ) : ℕ → ℕ → ℚ :=
  applyWrites (setFromTriplets (initTriplets N n)) (vecchiaWrites N A n)

/-- Weak invariant of the selection scan (no order on ties): the state is
sorted by distance, holds k entries whose real part lists min P.length k
distinct scanned candidates. -/
structure HeapInvWeak (dq : ℕ → ℚ) (k : ℕ) (P : List ℕ) (st : List (WithTop ℚ × ℕ)) :
    Prop where
  len : st.length = k
  sorted : st.Pairwise fstLe
  entries : ∀ p ∈ st, p.1 = ⊤ ∨ (p = ((dq p.2 : WithTop ℚ), p.2) ∧ p.2 ∈ P)
  nodup_reals : ((realEntries st).map Prod.snd).Nodup
  real_count : (realEntries st).length = min P.length k

-- ===================== THEOREMS =====================

/-! Helper lemmas about the folded minimum. -/

theorem foldl_min_le_init {α : Type} [LinearOrder α] (l : List α) (a : α) :
    l.foldl min a ≤ a := by
  induction l generalizing a with
  | nil => exact le_refl a
  | cons x xs ih => exact le_trans (ih (min a x)) (min_le_left a x)

theorem foldl_min_le_mem {α : Type} [LinearOrder α] {x : α} (l : List α) (a : α)
    (hx : x ∈ l) : l.foldl min a ≤ x := by
  induction l generalizing a with
  | nil => cases hx
  | cons y ys ih =>
    rcases List.mem_cons.mp hx with h | h
    · subst h
      exact le_trans (foldl_min_le_init ys (min a x)) (min_le_right a x)
    · exact ih (min a y) h

theorem foldl_min_mem {α : Type} [LinearOrder α] (l : List α) (a : α) :
    l.foldl min a = a ∨ l.foldl min a ∈ l := by
  induction l generalizing a with
  | nil => exact Or.inl rfl
  | cons x xs ih =>
    rcases ih (min a x) with h | h
    · rcases min_cases a x with ⟨hm, _⟩ | ⟨hm, _⟩
      · exact Or.inl (by rw [List.foldl_cons, h, hm])
      · exact Or.inr (by rw [List.foldl_cons, h, hm]; exact List.mem_cons_self x xs)
    · exact Or.inr (List.mem_cons_of_mem x h)

/-- Claim C5's zero case is false: with the single diagonal entry D 0 = 0
the stored reciprocal 1. / 0. is plus infinity (⊤), so the minimum of the
stored values stays positive and no error is raised under either
likelihood, although the claim demands a report for a zero entry. -/
theorem C5_zero_D_silent_counterexample :
    (fun _ : ℕ => (0 : ℚ)) 0 = 0 ∧
    checkDPositive 1 true (fun _ => (0 : ℚ)) = ErrorLevel.silent ∧
    checkDPositive 1 false (fun _ => (0 : ℚ)) = ErrorLevel.silent := by
  with_unfolding_all decide

/-- Claim C5 corrected: after the per-point loop of CalcCovFactorVecchia
the stored diagonal entries are the double reciprocals 1. / D i, which are
plus infinity (⊤) for a zero entry; hence a strictly negative diagonal
entry is reported, as a warning for a Gaussian likelihood and fatally
otherwise, while a nonnegative diagonal — zero entries included — raises
no error. -/
theorem C5_D_negative_check (n : ℕ) (gauss_likelihood : Bool) (D : ℕ → ℚ)
    (hn : 0 < n) :
    ((∃ i < n, D i < 0) →
      checkDPositive n gauss_likelihood D =
        (if gauss_likelihood then ErrorLevel.warning else ErrorLevel.fatal)) ∧
    ((∀ i < n, 0 ≤ D i) → checkDPositive n gauss_likelihood D = ErrorLevel.silent) := by
  constructor
  · rintro ⟨i, hi, hDi⟩
    have hne : D i ≠ 0 := ne_of_lt hDi
    have hinv : D_inv_final D i ≤ (0 : WithTop ℚ) := by
      unfold D_inv_final
      rw [if_neg hne]
      have h1 : (1 / D i : ℚ) ≤ 0 := le_of_lt (one_div_neg.mpr hDi)
      exact_mod_cast h1
    have hmem : D_inv_final D i ∈ (List.range n).map (D_inv_final D) :=
      List.mem_map.mpr ⟨i, List.mem_range.mpr hi, rfl⟩
    have hle : min_D_inv n (D_inv_final D) ≤ (0 : WithTop ℚ) :=
      le_trans (foldl_min_le_mem _ _ hmem) hinv
    unfold checkDPositive
    rw [if_pos hle]
  · intro hpos
    have hall : ∀ i, i < n → (0 : WithTop ℚ) < D_inv_final D i := by
      intro i hi
      unfold D_inv_final
      by_cases h : D i = 0
      · rw [if_pos h]
        exact_mod_cast WithTop.coe_lt_top (0 : ℚ)
      · rw [if_neg h]
        have hDi : 0 < D i := lt_of_le_of_ne (hpos i hi) (Ne.symm h)
        have h1 : (0 : ℚ) < 1 / D i := one_div_pos.mpr hDi
        exact_mod_cast h1
    have h0 : (0 : WithTop ℚ) < D_inv_final D 0 := hall 0 hn
    have hgt : (0 : WithTop ℚ) < min_D_inv n (D_inv_final D) := by
      rcases foldl_min_mem ((List.range n).map (D_inv_final D)) (D_inv_final D 0) with h | h
      · unfold min_D_inv; rw [h]; exact h0
      · rcases List.mem_map.mp h with ⟨i, hi, hvi⟩
        unfold min_D_inv
        rw [← hvi]
        exact hall i (List.mem_range.mp hi)
    unfold checkDPositive
    rw [if_neg (not_le.mpr hgt)]

/-- Witness for C5 at a concrete input. -/
theorem C5_D_negative_check_witness :
    checkDPositive 2 true (fun i => if i = 0 then (-1 : ℚ) else 1) = ErrorLevel.warning := by
  have h := (C5_D_negative_check 2 true (fun i => if i = 0 then (-1 : ℚ) else 1)
    (by norm_num)).1 ⟨0, by norm_num, by norm_num⟩
  simpa using h

/-- Helper: getD through a map at an index inside the list. -/
theorem getD_map_lt {α β : Type} (f : α → β) (l : List α) (t : ℕ) (dα : α) (dβ : β)
    (ht : t < l.length) : (l.map f).getD t dβ = f (l.getD t dα) := by
  induction l generalizing t with
  | nil => simp at ht
  | cons x xs ih =>
    cases t with
    | zero => simp [List.getD]
    | succ t =>
      simp only [List.map_cons, List.getD_cons_succ]
      exact ih t (by simpa using ht)

/-- Helper: getD on a range at an index inside the range. -/
theorem getD_range_lt (m t d : ℕ) (ht : t < m) : (List.range m).getD t d = t := by
  rw [List.getD_eq_getElem?_getD, List.getElem?_range ht]
  rfl

/-- Claim C2: distances_funct with dist_function "residual_correlation_FSA"
returns, for each candidate position t, the value
sqrt(1 - |(k(x_i,x_j) - Q(:,i)^T Q(:,j)) / sqrt(corr_diag i * corr_diag j)|^0.1)
with j the t-th candidate.  The embedding is purely functional, so the
inputs are left untouched by construction. -/
theorem C2_distances_funct_formula (m : ℕ) (corr chol_ip_cross_cov : ℕ → ℕ → ℝ)
    (corr_diag : ℕ → ℝ) (i : ℕ) (J : List ℕ)
    (hposi : 0 < corr_diag i) (hpos : ∀ j ∈ J, 0 < corr_diag j) :
    (distances_funct m corr chol_ip_cross_cov corr_diag i J).length = J.length ∧
    ∀ t, t < J.length →
      (distances_funct m corr chol_ip_cross_cov corr_diag i J).getD t 0 =
        Real.sqrt (1 - |(corr i (J.getD t 0) -
            ∑ r ∈ Finset.range m, chol_ip_cross_cov r (J.getD t 0) * chol_ip_cross_cov r i) /
          Real.sqrt (corr_diag i * corr_diag (J.getD t 0))| ^ (0.1 : ℝ)) := by
  constructor
  · unfold distances_funct
    simp
  · intro t ht
    unfold distances_funct
    rw [getD_map_lt _ (List.range J.length) t 0 0 (by simpa using ht)]
    rw [getD_range_lt _ _ _ ht]
    rw [getD_map_lt _ J t 0 0 ht]

/-- Witness for C2 at a concrete input. -/
theorem C2_distances_funct_formula_witness :
    (distances_funct 0 (fun _ _ => 1) (fun _ _ => 0) (fun _ => 1) 0 [0]).getD 0 0 = 0 := by
  have h := (C2_distances_funct_formula 0 (fun _ _ => 1) (fun _ _ => 0) (fun _ => 1) 0 [0]
    (by norm_num) (by intro j _; norm_num)).2 0 (by norm_num)
  rw [h]
  norm_num [Real.sqrt_one, Real.one_rpow]

/-- Claim C7: in the predicted-first prediction path, the assembled
precision P = Bp^T Dp^(-1) Bp + Bop^T Do^(-1) Bop applied to the computed
predictive mean gives -Bop^T Do^(-1) Bo y, i.e. the mean solves the stated
linear system (the inverted diagonals Dp_inv, Do_inv are the stored
reciprocal diagonals, as in the source). -/
theorem C7_predicted_first_mean (np no : ℕ) (Bp : Matrix (Fin np) (Fin np) ℚ)
    (Bop : Matrix (Fin no) (Fin np) ℚ) (Bo : Matrix (Fin no) (Fin no) ℚ)
    (Dp_inv : Fin np → ℚ) (Do_inv : Fin no → ℚ) (y : Fin no → ℚ)
    (h : IsUnit (cond_prec np no Bp Bop Dp_inv Do_inv).det) :
    (cond_prec np no Bp Bop Dp_inv Do_inv).mulVec
      (pred_mean_predicted_first np no Bp Bop Bo Dp_inv Do_inv y) =
    - y_aux np no Bop Do_inv Bo y := by
  unfold pred_mean_predicted_first cholSolve
  rw [Matrix.mulVec_neg, Matrix.mulVec_mulVec]
  have hdet : (cond_prec np no Bp Bop Dp_inv Do_inv).det ≠ 0 := h.ne_zero
  have hone : cond_prec np no Bp Bop Dp_inv Do_inv *
      (((cond_prec np no Bp Bop Dp_inv Do_inv).det)⁻¹ •
        (cond_prec np no Bp Bop Dp_inv Do_inv).adjugate) = 1 := by
    rw [Matrix.mul_smul, Matrix.mul_adjugate, smul_smul, inv_mul_cancel₀ hdet, one_smul]
  rw [hone, Matrix.one_mulVec]

/-- Witness for C7 at a concrete input. -/
theorem C7_predicted_first_mean_witness :
    (cond_prec 1 1 1 0 (fun _ => 1) (fun _ => 1)).mulVec
      (pred_mean_predicted_first 1 1 1 0 1 (fun _ => 1) (fun _ => 1) (fun _ => 1)) =
    - y_aux 1 1 0 (fun _ => 1) 1 (fun _ => 1) := by
  refine C7_predicted_first_mean 1 1 1 0 1 (fun _ => 1) (fun _ => 1) (fun _ => 1) ?_
  have hcp : cond_prec 1 1 1 0 (fun _ => (1 : ℚ)) (fun _ => (1 : ℚ)) = 1 := by
    unfold cond_prec
    ext a b
    fin_cases a
    fin_cases b
    simp [Matrix.mul_apply, Matrix.diagonal, Matrix.one_apply]
  rw [hcp]
  simp

/-- Claim C9: with at least one random-coefficient GP and a covariance
module that does not save distances (neighbors dynamically determined from
correlations), CreateREComponentsVecchia aborts fatally before constructing
the random-coefficient components, whichever earlier checks apply. -/
theorem C9_rand_coef_requires_saved_distances (vecchia_ordering : String)
    (is_space_time_model check_has_duplicates has_duplicates_coords gauss_likelihood : Bool)
    (num_gp_rand_coef : ℕ) (hcoef : 0 < num_gp_rand_coef) :
    ∃ msg, CreateREComponentsVecchia_checks vecchia_ordering is_space_time_model
      check_has_duplicates has_duplicates_coords gauss_likelihood num_gp_rand_coef false =
      Except.error msg := by
  unfold CreateREComponentsVecchia_checks
  split_ifs with h1 h2 h3
  · exact ⟨_, rfl⟩
  · exact ⟨_, rfl⟩
  · exact ⟨_, rfl⟩
  · exact absurd ⟨hcoef, by simp⟩ h3

/-- Witness for C9 at a concrete input. -/
theorem C9_rand_coef_requires_saved_distances_witness :
    ∃ msg, CreateREComponentsVecchia_checks "none" true false false true 1 false =
      Except.error msg :=
  C9_rand_coef_requires_saved_distances "none" true false false true 1 (by norm_num)

/-- Claim C10: the random pre-permutation of the data indices is applied
exactly when the ordering is random or time_random_space and the GP
approximation is not full_scale_vecchia; under the full-scale approximation
the order is left unshuffled regardless of the ordering setting. -/
theorem C10_no_shuffle_under_fsa (vecchia_ordering gp_approx : String)
    (shuffle : List ℕ → List ℕ) (data_indices : List ℕ) :
    (gp_approx = "full_scale_vecchia" →
      vecchiaPrePermutation vecchia_ordering gp_approx shuffle data_indices = data_indices) ∧
    ((vecchia_ordering = "random" ∨ vecchia_ordering = "time_random_space") →
      gp_approx ≠ "full_scale_vecchia" →
      vecchiaPrePermutation vecchia_ordering gp_approx shuffle data_indices =
        shuffle data_indices) := by
  constructor
  · intro h
    unfold vecchiaPrePermutation
    rw [if_neg]
    rintro ⟨-, hne⟩
    exact hne h
  · intro h1 h2
    unfold vecchiaPrePermutation
    rw [if_pos ⟨h1, h2⟩]

/-- Witness for C10 at a concrete input. -/
theorem C10_no_shuffle_under_fsa_witness :
    vecchiaPrePermutation "random" "full_scale_vecchia" (fun l => l.reverse) [0, 1] = [0, 1] :=
  (C10_no_shuffle_under_fsa "random" "full_scale_vecchia" (fun l => l.reverse) [0, 1]).1 rfl

/-! Lemmas on the bounded k-smallest selection. -/

theorem lexLe_refl (a : WithTop ℚ × ℕ) : lexLe a a := Or.inr ⟨rfl, le_refl _⟩

theorem lexLe_fst {a b : WithTop ℚ × ℕ} (h : lexLe a b) : a.1 ≤ b.1 := by
  rcases h with h | ⟨h, -⟩
  · exact le_of_lt h
  · exact le_of_eq h

theorem lexLe_trans {a b c : WithTop ℚ × ℕ} (hab : lexLe a b) (hbc : lexLe b c) :
    lexLe a c := by
  rcases hab with h1 | ⟨h1, h1s⟩
  · exact Or.inl (lt_of_lt_of_le h1 (lexLe_fst hbc))
  · rcases hbc with h2 | ⟨h2, h2s⟩
    · exact Or.inl (lt_of_le_of_lt (le_of_eq h1) h2)
    · exact Or.inr ⟨h1.trans h2, h1s.trans h2s⟩

theorem insertHeapPair_perm (p : WithTop ℚ × ℕ) (l : List (WithTop ℚ × ℕ)) :
    List.Perm (insertHeapPair p l) (p :: l) := by
  induction l with
  | nil => exact List.Perm.refl _
  | cons q rest ih =>
    unfold insertHeapPair
    split_ifs with h
    · exact List.Perm.refl _
    · exact (ih.cons q).trans (List.Perm.swap p q rest)

theorem mem_insertHeapPair {q p : WithTop ℚ × ℕ} {l : List (WithTop ℚ × ℕ)} :
    q ∈ insertHeapPair p l ↔ q = p ∨ q ∈ l := by
  rw [(insertHeapPair_perm p l).mem_iff, List.mem_cons]

theorem insertHeapPair_length (p : WithTop ℚ × ℕ) (l : List (WithTop ℚ × ℕ)) :
    (insertHeapPair p l).length = l.length + 1 := by
  rw [(insertHeapPair_perm p l).length_eq, List.length_cons]

theorem insertHeapPair_pairwise_lex {p : WithTop ℚ × ℕ} {l : List (WithTop ℚ × ℕ)}
    (h : l.Pairwise lexLe) (hfresh : ∀ q ∈ l, q.1 = p.1 → q.2 ≤ p.2) :
    (insertHeapPair p l).Pairwise lexLe := by
  induction l with
  | nil => simp [insertHeapPair]
  | cons q rest ih =>
    rcases List.pairwise_cons.mp h with ⟨hq, hrest⟩
    unfold insertHeapPair
    split_ifs with hlt
    · refine List.pairwise_cons.mpr ⟨?_, h⟩
      intro r hr
      rcases List.mem_cons.mp hr with rfl | hr
      · exact Or.inl hlt
      · exact Or.inl (lt_of_lt_of_le hlt (lexLe_fst (hq r hr)))
    · refine List.pairwise_cons.mpr
        ⟨?_, ih hrest (fun r hr hr1 => hfresh r (List.mem_cons_of_mem q hr) hr1)⟩
      intro r hr
      rcases mem_insertHeapPair.mp hr with rfl | hr
      · rcases lt_or_eq_of_le (le_of_not_lt hlt) with hq1 | hq1
        · exact Or.inl hq1
        · exact Or.inr ⟨hq1, hfresh q (List.mem_cons_self q rest) hq1⟩
      · exact hq r hr

theorem realEntries_perm {l1 l2 : List (WithTop ℚ × ℕ)} (h : List.Perm l1 l2) :
    List.Perm (realEntries l1) (realEntries l2) := h.filter _

theorem realEntries_append (l1 l2 : List (WithTop ℚ × ℕ)) :
    realEntries (l1 ++ l2) = realEntries l1 ++ realEntries l2 := by
  unfold realEntries
  simp

theorem mem_realEntries {p : WithTop ℚ × ℕ} {l : List (WithTop ℚ × ℕ)} :
    p ∈ realEntries l ↔ p ∈ l ∧ p.1 ≠ ⊤ := by
  unfold realEntries
  rw [List.mem_filter]
  simp

/-- If the last element of a lex-sorted state holds a real distance, then
every entry does. -/
theorem realEntries_eq_self_of_last {st : List (WithTop ℚ × ℕ)} {lastp : WithTop ℚ × ℕ}
    (hne : st ≠ []) (hlast : st.getLast hne = lastp) (hs : st.Pairwise lexLe)
    (hl : lastp.1 ≠ ⊤) : realEntries st = st := by
  have hdec : st.dropLast ++ [lastp] = st := by
    rw [← hlast]
    exact List.dropLast_append_getLast hne
  unfold realEntries
  rw [List.filter_eq_self]
  intro p hp
  have hp1 : p.1 ≠ ⊤ := by
    rw [← hdec] at hp hs
    rcases List.mem_append.mp hp with hp | hp
    · have hrel := (List.pairwise_append.mp hs).2.2 p hp lastp (List.mem_singleton_self _)
      intro htop
      rcases hrel with h | ⟨h, -⟩
      · rw [htop] at h
        exact (not_top_lt h)
      · rw [htop] at h
        exact hl h.symm
    · rw [List.mem_singleton.mp hp]
      exact hl
  simpa using hp1

/-- Every entry of a lex-sorted state is at most its last entry. -/
theorem pairwise_lex_le_getLast {st : List (WithTop ℚ × ℕ)} (hne : st ≠ [])
    (hs : st.Pairwise lexLe) : ∀ p ∈ st, lexLe p (st.getLast hne) := by
  have hdec : st.dropLast ++ [st.getLast hne] = st := List.dropLast_append_getLast hne
  intro p hp
  rcases List.mem_append.mp (hdec.symm ▸ hp : p ∈ st.dropLast ++ [st.getLast hne]) with hp1 | hp1
  · have hs2 : (st.dropLast ++ [st.getLast hne]).Pairwise lexLe := hdec.symm ▸ hs
    exact (List.pairwise_append.mp hs2).2.2 p hp1 _ (List.mem_singleton_self _)
  · rw [List.mem_singleton.mp hp1]
    exact lexLe_refl _

/-- A filtered list of full length is the whole list. -/
theorem filter_eq_self_of_length {α : Type} (q : α → Bool) (l : List α)
    (h : (l.filter q).length = l.length) : l.filter q = l :=
  List.Sublist.eq_of_length (List.filter_sublist l) h

theorem heapInvLex_init (dq : ℕ → ℚ) (k : ℕ) : HeapInvLex dq k 0 (knnInit k) := by
  refine ⟨by simp [knnInit], ?_, ?_, ?_, ?_, ?_⟩
  · exact List.pairwise_replicate.mpr (Or.inr (lexLe_refl _))
  · intro p hp
    left
    rw [List.eq_of_mem_replicate hp]
  · have : realEntries (knnInit k) = [] := by
      unfold realEntries knnInit
      rw [List.filter_eq_nil_iff]
      intro p hp
      rw [List.eq_of_mem_replicate hp]
      simp
    rw [this]
    exact List.nodup_nil
  · have : realEntries (knnInit k) = [] := by
      unfold realEntries knnInit
      rw [List.filter_eq_nil_iff]
      intro p hp
      rw [List.eq_of_mem_replicate hp]
      simp
    rw [this]
    simp
  · intro j0 hj0
    omega

theorem heapInvLex_step (dq : ℕ → ℚ) (k j : ℕ) (hk : 0 < k)
    (st : List (WithTop ℚ × ℕ)) (h : HeapInvLex dq k j st) :
    HeapInvLex dq k (j + 1) (knnStep st (dq j) j) := by
  have hne : st ≠ [] := by
    intro h0
    rw [h0] at h
    have := h.len
    simp at this
    omega
  have hl : st.getLast? = some (st.getLast hne) := List.getLast?_eq_getLast st hne
  set lastp := st.getLast hne with hlastp
  have hdec : st.dropLast ++ [lastp] = st := List.dropLast_append_getLast hne
  have hlast_mem : lastp ∈ st := List.getLast_mem hne
  have hmax : ∀ p ∈ st, lexLe p lastp := pairwise_lex_le_getLast hne h.sorted
  have hstep : knnStep st (dq j) j =
      if (dq j : WithTop ℚ) < lastp.1 then
        insertHeapPair ((dq j : WithTop ℚ), j) st.dropLast
      else st := by
    unfold knnStep
    rw [hl]
  by_cases hcond : (dq j : WithTop ℚ) < lastp.1
  · -- insert case
    rw [hstep, if_pos hcond]
    have hdropsub : st.dropLast.Sublist st := List.dropLast_sublist st
    have hrealdrop : ∀ q ∈ st.dropLast, q.1 ≠ ⊤ → q = ((dq q.2 : WithTop ℚ), q.2) ∧ q.2 < j := by
      intro q hq hqtop
      rcases h.entries q (hdropsub.subset hq) with h1 | h1
      · exact absurd h1 hqtop
      · exact h1
    have hperm : List.Perm (realEntries (insertHeapPair ((dq j : WithTop ℚ), j) st.dropLast))
        (((dq j : WithTop ℚ), j) :: realEntries st.dropLast) := by
      have h1 := realEntries_perm (insertHeapPair_perm ((dq j : WithTop ℚ), j) st.dropLast)
      have h2 : realEntries (((dq j : WithTop ℚ), j) :: st.dropLast) =
          ((dq j : WithTop ℚ), j) :: realEntries st.dropLast := by
        unfold realEntries
        rw [List.filter_cons_of_pos (by simp)]
      rw [h2] at h1
      exact h1
    have hsplit : realEntries st = realEntries st.dropLast ++ realEntries [lastp] := by
      rw [← realEntries_append, hdec]
    refine ⟨?_, ?_, ?_, ?_, ?_, ?_⟩
    · rw [insertHeapPair_length, List.length_dropLast, h.len]
      omega
    · refine insertHeapPair_pairwise_lex (h.sorted.sublist hdropsub) ?_
      intro q hq hq1
      have hqtop : q.1 ≠ ⊤ := by
        rw [hq1]
        exact WithTop.coe_ne_top
      exact le_of_lt (hrealdrop q hq hqtop).2
    · intro p hp
      rcases mem_insertHeapPair.mp hp with rfl | hp
      · exact Or.inr ⟨rfl, Nat.lt_succ_self j⟩
      · rcases h.entries p (hdropsub.subset hp) with h1 | h1
        · exact Or.inl h1
        · exact Or.inr ⟨h1.1, Nat.lt_succ_of_lt h1.2⟩
    · rw [(hperm.map Prod.snd).nodup_iff]
      refine List.nodup_cons.mpr ⟨?_, ?_⟩
      · intro hmem
        rcases List.mem_map.mp hmem with ⟨q, hq, hq2⟩
        rcases mem_realEntries.mp hq with ⟨hqd, hqtop⟩
        have := (hrealdrop q hqd hqtop).2
        omega
      · have hsub : (realEntries st.dropLast).Sublist (realEntries st) :=
          hdropsub.filter _
        exact h.nodup_reals.sublist (hsub.map Prod.snd)
    · have hlen' : (realEntries (insertHeapPair ((dq j : WithTop ℚ), j) st.dropLast)).length =
          (realEntries st.dropLast).length + 1 := by
        rw [hperm.length_eq, List.length_cons]
      by_cases hpad : lastp.1 = ⊤
      · have hsingle : realEntries [lastp] = [] := by
          unfold realEntries
          simp [hpad]
        have hdl : (realEntries st.dropLast).length = min j k := by
          have := h.real_count
          rw [hsplit, hsingle, List.append_nil] at this
          exact this
        have hdlbound : (realEntries st.dropLast).length ≤ st.dropLast.length :=
          List.length_filter_le _ _
        rw [List.length_dropLast, h.len] at hdlbound
        have hjk : j < k := by omega
        rw [hlen', hdl]
        omega
      · have hreals : realEntries st = st :=
          realEntries_eq_self_of_last hne hlastp.symm h.sorted hpad
        have hkj : k ≤ j := by
          have := h.real_count
          rw [hreals, h.len] at this
          omega
        have hsingle : realEntries [lastp] = [lastp] := by
          unfold realEntries
          simp [hpad]
        have hdl : (realEntries st.dropLast).length + 1 = k := by
          have h2 := congrArg List.length hsplit
          rw [hreals, h.len, hsingle, List.length_append, List.length_singleton] at h2
          omega
        rw [hlen', hdl]
        omega
    · intro j0 hj0 hnotmem p hp
      rcases Nat.lt_succ_iff_lt_or_eq.mp hj0 with hj0' | rfl
      · by_cases hXst : ((dq j0 : WithTop ℚ), j0) ∈ st
        · have hXeq : ((dq j0 : WithTop ℚ), j0) = lastp := by
            rcases List.mem_append.mp (hdec.symm ▸ hXst :
                ((dq j0 : WithTop ℚ), j0) ∈ st.dropLast ++ [lastp]) with hx | hx
            · exact absurd (mem_insertHeapPair.mpr (Or.inr hx)) hnotmem
            · exact List.mem_singleton.mp hx
          rcases mem_insertHeapPair.mp hp with rfl | hp
          · rw [hXeq]
            exact Or.inl hcond
          · rw [hXeq]
            exact hmax p (hdropsub.subset hp)
        · have hold := h.dropped j0 hj0' hXst
          rcases mem_insertHeapPair.mp hp with rfl | hp
          · exact Or.inl (lt_of_lt_of_le hcond (lexLe_fst (hold lastp hlast_mem)))
          · exact hold p (hdropsub.subset hp)
      · exact absurd (mem_insertHeapPair.mpr (Or.inl rfl)) hnotmem
  · -- reject case
    rw [hstep, if_neg hcond]
    have hlastreal : lastp.1 ≠ ⊤ := by
      intro htop
      exact hcond (htop ▸ WithTop.coe_lt_top (dq j))
    have hreals : realEntries st = st :=
      realEntries_eq_self_of_last hne hlastp.symm h.sorted hlastreal
    have hkj : k ≤ j := by
      have := h.real_count
      rw [hreals, h.len] at this
      omega
    refine ⟨h.len, h.sorted, ?_, h.nodup_reals, ?_, ?_⟩
    · intro p hp
      rcases h.entries p hp with h1 | h1
      · exact Or.inl h1
      · exact Or.inr ⟨h1.1, Nat.lt_succ_of_lt h1.2⟩
    · rw [hreals, h.len]
      omega
    · intro j0 hj0 hnotmem p hp
      rcases Nat.lt_succ_iff_lt_or_eq.mp hj0 with hj0' | rfl
      · exact h.dropped j0 hj0' hnotmem p hp
      · have hlex_last : lexLe lastp ((dq j0 : WithTop ℚ), j0) := by
          rcases lt_or_eq_of_le (le_of_not_lt hcond) with h1 | h1
          · exact Or.inl h1
          · rcases h.entries lastp hlast_mem with h2 | h2
            · exact absurd h2 hlastreal
            · exact Or.inr ⟨h1, le_of_lt h2.2⟩
        exact lexLe_trans (hmax p hp) hlex_last

theorem heapInvLex_scan (dq : ℕ → ℚ) (k : ℕ) (hk : 0 < k) (m : ℕ) :
    HeapInvLex dq k m (bruteForceKNN dq m k) := by
  induction m with
  | zero => exact heapInvLex_init dq k
  | succ m ih =>
    have hrw : bruteForceKNN dq (m + 1) k = knnStep (bruteForceKNN dq m k) (dq m) m := by
      unfold bruteForceKNN knnScanPairs
      rw [List.range_succ, List.map_append, List.foldl_append]
      rfl
    rw [hrw]
    exact heapInvLex_step dq k m hk _ ih

/-- The brute-force scan selects exactly the k smallest candidates under
the distance, ties broken by the smaller index. -/
theorem bruteForceKNN_isSelection (dq : ℕ → ℚ) (m k : ℕ) (hk : 0 < k) (hkm : k ≤ m) :
    isBruteForceKNNSelection dq m k (knnIndices (bruteForceKNN dq m k)) := by
  have h := heapInvLex_scan dq k hk m
  set st := bruteForceKNN dq m k with hst
  have hreals : realEntries st = st := by
    apply filter_eq_self_of_length
    show (realEntries st).length = st.length
    rw [h.real_count, h.len]
    omega
  have hallreal : ∀ p ∈ st, p = ((dq p.2 : WithTop ℚ), p.2) ∧ p.2 < m := by
    intro p hp
    rcases h.entries p hp with h1 | h1
    · exfalso
      have hmem : p ∈ realEntries st := hreals.symm ▸ hp
      exact (mem_realEntries.mp hmem).2 h1
    · exact h1
  refine ⟨?_, ?_, ?_, ?_⟩
  · unfold knnIndices
    rw [List.length_map, h.len]
  · unfold knnIndices
    rw [← hreals]
    exact h.nodup_reals
  · intro s hs
    rcases List.mem_map.mp hs with ⟨p, hp, rfl⟩
    exact (hallreal p hp).2
  · intro s hs j0 hj0 hj0not
    rcases List.mem_map.mp hs with ⟨p, hp, rfl⟩
    have hpe := (hallreal p hp).1
    have hXnot : ((dq j0 : WithTop ℚ), j0) ∉ st := by
      intro hX
      exact hj0not (List.mem_map.mpr ⟨_, hX, rfl⟩)
    have hlex := h.dropped j0 hj0 hXnot p hp
    rw [hpe] at hlex
    rcases hlex with h1 | ⟨h1, h2⟩
    · exact Or.inl (WithTop.coe_lt_coe.mp h1)
    · right
      refine ⟨WithTop.coe_eq_coe.mp h1, ?_⟩
      have hne2 : p.2 ≠ j0 := by
        rintro rfl
        exact hj0not hs
      omega

/-- The oracle dEx is symmetric in its two points, like the
residual-correlation distance distances_funct it stands in for. -/
theorem dEx_symm (a b : ℕ) : dEx a b = dEx b a := by
  unfold dEx
  rw [Nat.min_comm, Nat.max_comm]

/-- Claim C1 is false as stated: on the cover tree built by CoverTree_kNN
from the symmetric oracle dEx with base 2 (the base of spec scenario S3),
the query for point 5 with k = 1 returns the set containing index 0, while
index 3 is the strictly closest earlier candidate, so the brute-force
k-nearest neighbor set is the set containing index 3. -/
theorem C1_coverTree_knn_counterexample :
    (∀ a b, dEx a b = dEx b a) ∧
    (CoverTree_kNN dEx 2 6 0).isSome = true ∧
    knnIndices (find_kNN_CoverTree (fun j => dEx 5 j) 2 1 5
        ((CoverTree_kNN dEx 2 6 0).getD ([], 0)).2
        ((CoverTree_kNN dEx 2 6 0).getD ([], 0)).1) = [0] ∧
    knnIndices (bruteForceKNN (fun j => dEx 5 j) 5 1) = [3] ∧
    (∀ j0, j0 < 5 → j0 ≠ 3 → dEx 5 3 < dEx 5 j0) ∧
    (0 : ℕ) ≠ 3 :=
  ⟨dEx_symm, by with_unfolding_all decide⟩

/-- Claim C4's prediction-mode threshold min(n, max(start_at + 500, k)) is
not the one the code uses: with start_at = 0, k = 1, n = 600 in prediction
mode, point i = 501 lies at or above the claimed threshold 500 and should
query the cover tree, but the dispatch of
find_nearest_neighbors_Vecchia_FSA_fast sends it to the brute-force
regime (the code offsets by first_i = k + 1 = 2, giving threshold 502). -/
theorem C4_regime_counterexample :
    regimeOf 600 1 0 true 501 = Regime.brute ∧
    min 600 (max (0 + 500) 1) ≤ 501 ∧
    brute_force_threshold 600 1 0 true = 502 := by
  decide

/-- Claim C8: when the requested number of neighbors exceeds n - 1 (the
default end_search_at is negative, so the candidate bound is n - 1), the
number is clamped to n - 1, the change is logged, and the search proceeds
exactly as it would with the clamped request. -/
theorem C8_clamp_num_neighbors (d : ℕ → ℕ → ℚ) (base : ℚ)
    (num_data num_neighbors : ℕ) (end_search_at : ℤ)
    (start_at num_data_obs : ℕ) (prediction cond_on_all : Bool)
    (hneg : end_search_at < 0) (hn : 1 ≤ num_data)
    (hk : (num_data : ℤ) - 1 < (num_neighbors : ℤ)) :
    clamp_num_neighbors num_data num_neighbors end_search_at = (num_data - 1, true) ∧
    find_nearest_neighbors_Vecchia_FSA_fast d base num_data num_neighbors end_search_at
        start_at num_data_obs prediction cond_on_all =
      find_nearest_neighbors_Vecchia_FSA_fast d base num_data (num_data - 1) end_search_at
        start_at num_data_obs prediction cond_on_all := by
  have hclamp : clamp_num_neighbors num_data num_neighbors end_search_at =
      (num_data - 1, true) := by
    unfold clamp_num_neighbors effective_end_search_at
    rw [if_pos hneg, if_pos (by omega)]
    have : ((num_data : ℤ) - 2 + 1).toNat = num_data - 1 := by omega
    rw [this]
  have hclamp2 : clamp_num_neighbors num_data (num_data - 1) end_search_at =
      (num_data - 1, false) := by
    unfold clamp_num_neighbors effective_end_search_at
    rw [if_pos hneg, if_neg (by omega)]
  refine ⟨hclamp, ?_⟩
  unfold find_nearest_neighbors_Vecchia_FSA_fast
  rw [hclamp, hclamp2]

/-- Witness for C8 at a concrete input. -/
theorem C8_clamp_num_neighbors_witness :
    clamp_num_neighbors 3 5 (-1) = (2, true) ∧
    find_nearest_neighbors_Vecchia_FSA_fast (fun _ _ => 1) 2 3 5 (-1) 0 3 false false =
      find_nearest_neighbors_Vecchia_FSA_fast (fun _ _ => 1) 2 3 2 (-1) 0 3 false false :=
  C8_clamp_num_neighbors (fun _ _ => 1) 2 3 5 (-1) 0 3 false false (by norm_num)
    (by norm_num) (by norm_num)

/-- Claim C4 (amended): for k lt i the dispatch uses the brute-force scan
over candidates 0..min(i, max_ind_nn)-1 below the threshold, which is
min(n, max(1000, k)) in training mode but min(n, max(first_i + 500, k)) in
prediction mode with first_i = start_at when start_at gt k and first_i =
k + 1 otherwise (not min(n, max(start_at + 500, k)) as claimed), and
queries the cover tree at or above the threshold. -/
theorem C4_regime_selection (d : ℕ → ℕ → ℚ) (base : ℚ)
    (num_data num_neighbors start_at num_data_obs : ℕ) (prediction cond_on_all : Bool)
    (i : ℕ) (hk : num_neighbors < i)
    (hnoclamp : (num_neighbors : ℤ) ≤ (num_data : ℤ) - 1) :
    (i < (if prediction then
        min num_data (max (first_i_search start_at num_neighbors + 500) num_neighbors)
      else min num_data (max 1000 num_neighbors)) →
      find_nearest_neighbors_Vecchia_FSA_fast d base num_data num_neighbors (-1)
          start_at num_data_obs prediction cond_on_all i =
        knnIndices (bruteForceKNN (fun j => d i j)
          (min i (max_ind_nn num_data num_data_obs cond_on_all)) num_neighbors)) ∧
    ((if prediction then
        min num_data (max (first_i_search start_at num_neighbors + 500) num_neighbors)
      else min num_data (max 1000 num_neighbors)) ≤ i →
      find_nearest_neighbors_Vecchia_FSA_fast d base num_data num_neighbors (-1)
          start_at num_data_obs prediction cond_on_all i =
        knnIndices (find_kNN_CoverTree (fun j => d i j) base num_neighbors i
          ((CoverTree_kNN d base
            (if prediction ∧ ¬cond_on_all then num_data_obs else num_data) 0).getD ([], 0)).2
          ((CoverTree_kNN d base
            (if prediction ∧ ¬cond_on_all then num_data_obs else num_data) 0).getD ([], 0)).1)) := by
  have he : effective_end_search_at num_data (-1) = (num_data : ℤ) - 2 := by
    unfold effective_end_search_at
    norm_num
  have hclamp : clamp_num_neighbors num_data num_neighbors (-1) = (num_neighbors, false) := by
    simp only [clamp_num_neighbors, he]
    rw [if_neg (by omega)]
  have hthr : brute_force_threshold num_data num_neighbors start_at prediction =
      (if prediction then
        min num_data (max (first_i_search start_at num_neighbors + 500) num_neighbors)
      else min num_data (max 1000 num_neighbors)) := by
    unfold brute_force_threshold
    rfl
  constructor
  · intro hlt
    unfold find_nearest_neighbors_Vecchia_FSA_fast
    rw [hclamp]
    have hreg : regimeOf num_data num_neighbors start_at prediction i = Regime.brute := by
      unfold regimeOf
      rw [if_neg (by omega), if_pos (by rw [hthr]; exact hlt)]
    rw [hreg]
  · intro hge
    unfold find_nearest_neighbors_Vecchia_FSA_fast
    rw [hclamp]
    have hreg : regimeOf num_data num_neighbors start_at prediction i = Regime.cover := by
      unfold regimeOf
      rw [if_neg (by omega), if_neg (by rw [hthr]; omega)]
    rw [hreg]

/-- Witness for C4 at a concrete input (training mode, brute-force side of
the dispatch). -/
theorem C4_regime_selection_witness :
    find_nearest_neighbors_Vecchia_FSA_fast (fun _ _ => 1) 2 5 1 (-1) 0 5 false false 3 =
      knnIndices (bruteForceKNN (fun j => (fun _ _ => (1 : ℚ)) 3 j)
        (min 3 (max_ind_nn 5 5 false)) 1) :=
  (C4_regime_selection (fun _ _ => 1) 2 5 1 0 5 false false 3 (by norm_num)
    (by norm_num)).1 (by norm_num)

/-! Lemmas on the cover-tree primitives. -/

theorem treeGet_cons (e : Int × List ℕ) (t : CoverTree) (key : Int) :
    treeGet (e :: t) key = if e.1 = key then e.2 else treeGet t key := by
  by_cases h : e.1 = key
  · unfold treeGet
    rw [List.find?_cons_of_pos _ (by simpa using h), if_pos h]
  · unfold treeGet
    rw [List.find?_cons_of_neg _ (by simpa using h), if_neg h]

theorem treeGet_nil (key : Int) : treeGet [] key = [] := rfl

theorem treeAppend_cons (e : Int × List ℕ) (t : CoverTree) (key : Int) (v : ℕ) :
    treeAppend (e :: t) key v =
      (if e.1 = key then (e.1, e.2 ++ [v]) else e) :: treeAppend t key v := by
  unfold treeAppend
  rw [List.map_cons]
  by_cases h : e.1 = key
  · rw [if_pos (by simpa using h), if_pos h]
  · rw [if_neg (by simpa using h), if_neg h]

theorem treeAppend_nil (key : Int) (v : ℕ) : treeAppend [] key v = [] := rfl

theorem treeKeys_treeAppend (t : CoverTree) (key : Int) (v : ℕ) :
    treeKeys (treeAppend t key v) = treeKeys t := by
  induction t with
  | nil => rfl
  | cons e rest ih =>
    rw [treeAppend_cons]
    unfold treeKeys at ih ⊢
    rw [List.map_cons, List.map_cons, ih]
    congr 1
    by_cases h : e.1 = key
    · rw [if_pos h]
    · rw [if_neg h]

theorem treeKeys_treeInsert_mem (t : CoverTree) (key : Int) (vals : List ℕ)
    (h : key ∈ treeKeys t) : treeInsert t key vals = t := by
  unfold treeInsert
  rw [if_pos (List.elem_iff.mpr h)]

theorem treeKeys_treeInsert_not_mem (t : CoverTree) (key : Int) (vals : List ℕ)
    (h : key ∉ treeKeys t) : treeInsert t key vals = t ++ [(key, vals)] := by
  unfold treeInsert
  rw [if_neg (fun hc => h (List.elem_iff.mp hc))]

theorem treeKeys_append (t1 t2 : CoverTree) :
    treeKeys (t1 ++ t2) = treeKeys t1 ++ treeKeys t2 := by
  unfold treeKeys
  rw [List.map_append]

theorem treeGet_append_not_mem (t : CoverTree) (e : Int × List ℕ) (key : Int)
    (h : key ≠ e.1) : treeGet (t ++ [e]) key = treeGet t key := by
  induction t with
  | nil =>
    rw [List.nil_append, treeGet_cons, treeGet_nil, if_neg (fun h2 => h h2.symm)]
  | cons f rest ih =>
    rw [List.cons_append, treeGet_cons, treeGet_cons, ih]

theorem treeGet_append_self (t : CoverTree) (key : Int) (vals : List ℕ)
    (h : key ∉ treeKeys t) : treeGet (t ++ [(key, vals)]) key = vals := by
  induction t with
  | nil =>
    rw [List.nil_append, treeGet_cons, if_pos rfl]
  | cons f rest ih =>
    have hf : f.1 ≠ key := by
      intro he
      exact h (he ▸ List.mem_cons_self f.1 (treeKeys rest))
    rw [List.cons_append, treeGet_cons, if_neg hf]
    exact ih (fun h2 => h (List.mem_cons_of_mem _ h2))

theorem treeGet_not_mem (t : CoverTree) (key : Int) (h : key ∉ treeKeys t) :
    treeGet t key = [] := by
  induction t with
  | nil => rfl
  | cons f rest ih =>
    have hf : f.1 ≠ key := by
      intro he
      exact h (he ▸ List.mem_cons_self f.1 (treeKeys rest))
    rw [treeGet_cons, if_neg hf]
    exact ih (fun h2 => h (List.mem_cons_of_mem _ h2))

theorem treeGet_treeAppend_ne (t : CoverTree) (key key2 : Int) (v : ℕ)
    (h : key2 ≠ key) : treeGet (treeAppend t key v) key2 = treeGet t key2 := by
  induction t with
  | nil => rfl
  | cons e rest ih =>
    rw [treeAppend_cons, treeGet_cons, treeGet_cons]
    by_cases he : e.1 = key
    · rw [if_pos he]
      have he2 : ((e.1, e.2 ++ [v]) : Int × List ℕ).1 ≠ key2 := by
        intro h2
        exact h (h2.symm.trans he)
      rw [if_neg he2, if_neg (fun h2 => h (h2.symm.trans he))]
      exact ih
    · rw [if_neg he]
      by_cases he2 : e.1 = key2
      · rw [if_pos he2, if_pos he2]
      · rw [if_neg he2, if_neg he2]
        exact ih

theorem treeGet_treeAppend_self (t : CoverTree) (key : Int) (v : ℕ)
    (hnd : (treeKeys t).Nodup) (hmem : key ∈ treeKeys t) :
    treeGet (treeAppend t key v) key = treeGet t key ++ [v] := by
  induction t with
  | nil => cases hmem
  | cons e rest ih =>
    rw [treeAppend_cons, treeGet_cons, treeGet_cons]
    by_cases he : e.1 = key
    · rw [if_pos he]
      have he2 : ((e.1, e.2 ++ [v]) : Int × List ℕ).1 = key := he
      rw [if_pos he2, if_pos he]
    · have he2 : ((e.1, e.2 ++ [v]) : Int × List ℕ).1 ≠ key := he
      rw [if_neg he2, if_neg he, if_neg he]
      have hmem2 : key ∈ treeKeys rest := by
        rcases List.mem_cons.mp hmem with h1 | h1
        · exact absurd h1.symm he
        · exact h1
      exact ih (List.Nodup.of_cons hnd) hmem2

/-! Lemmas for the cover-tree construction. -/

theorem pairwise_lt_nodup {l : List ℕ} (h : l.Pairwise (· < ·)) : l.Nodup :=
  h.imp (fun h2 => Nat.ne_of_lt h2)

theorem decide_not_coe (b : Bool) : decide (¬ b = true) = !b := by
  cases b <;> simp

theorem covered_eq_filter (f : ℕ → ℚ) (up : List ℕ) (R : ℚ) :
    (((up.zip (up.map f)).filter (fun p => decide (p.2 ≤ R))).map Prod.fst) =
      up.filter (fun x => decide (f x ≤ R)) := by
  induction up with
  | nil => rfl
  | cons x xs ih =>
    simp only [List.map_cons, List.zip_cons_cons, List.filter_cons]
    by_cases h : f x ≤ R
    · simp only [show ((x, f x) : ℕ × ℚ).2 = f x from rfl, decide_eq_true h, if_true,
        List.map_cons, ih]
    · simp only [show ((x, f x) : ℕ × ℚ).2 = f x from rfl, decide_eq_false h]
      simpa using ih

theorem filter_contains_of_sublist {s l : List ℕ} (hnd : l.Nodup) (hs : s.Sublist l) :
    l.filter (fun x => s.contains x) = s := by
  induction hs with
  | slnil => rfl
  | cons a hs ih =>
    rename_i s2 l2
    have hnotin : s2.contains a = false := by
      rw [← Bool.not_eq_true]
      intro hc
      exact (List.nodup_cons.mp hnd).1 (hs.subset (List.elem_iff.mp hc))
    rw [List.filter_cons, hnotin]
    simp only [Bool.false_eq_true, if_false]
    exact ih (List.nodup_cons.mp hnd).2
  | cons₂ a hs ih =>
    rename_i s2 l2
    rw [List.filter_cons]
    have hin : (a :: s2).contains a = true := by
      rw [List.elem_iff]
      exact List.mem_cons_self a s2
    rw [hin]
    simp only [if_true]
    congr 1
    have hcong : ∀ x ∈ l2, ((a :: s2).contains x) = (s2.contains x) := by
      intro x hx
      have hxa : x ≠ a := by
        intro he
        exact (List.nodup_cons.mp hnd).1 (he ▸ hx)
      rw [List.contains_cons, beq_eq_false_iff_ne.mpr hxa, Bool.false_or]
    rw [List.filter_congr hcong]
    exact ih (List.nodup_cons.mp hnd).2

theorem coverTreeGroupLoop_cons_eq (d : ℕ → ℕ → ℚ) (R_l : ℚ) (start key fuel sample : ℕ)
    (rest : List ℕ) (t : CoverTree) (hlt : ∀ x ∈ rest, sample < x) :
    coverTreeGroupLoop d R_l start key (fuel + 1) (sample :: rest) t =
      ((coverTreeGroupLoop d R_l start key fuel
          (rest.filter (fun j =>
            ¬ (rest.filter (fun j2 => d (sample + start) (j2 + start) ≤ R_l)).contains j))
          (treeAppend t ((key : ℤ) + start) (sample + start))).1,
        (sample, rest.filter (fun j2 => d (sample + start) (j2 + start) ≤ R_l)) ::
          (coverTreeGroupLoop d R_l start key fuel
            (rest.filter (fun j =>
              ¬ (rest.filter (fun j2 => d (sample + start) (j2 + start) ≤ R_l)).contains j))
            (treeAppend t ((key : ℤ) + start) (sample + start))).2) := by
  have hup : rest.filter (fun j => decide (sample < j)) = rest :=
    List.filter_eq_self.mpr (fun j hj => decide_eq_true (hlt j hj))
  simp only [coverTreeGroupLoop]
  rw [covered_eq_filter, hup]

theorem groupResult_cons (d : ℕ → ℕ → ℚ) (R_l : ℚ) (start key sample : ℕ)
    (rest : List ℕ) (t : CoverTree) (res : CoverTree × List (ℕ × List ℕ))
    (hlt : ∀ x ∈ rest, sample < x) (hrestp : rest.Pairwise (· < ·))
    (hnd : (treeKeys t).Nodup) (hmem : ((key : ℤ) + start) ∈ treeKeys t)
    (hres : GroupResult start key
      (rest.filter (fun j =>
        ¬ (rest.filter (fun j2 => d (sample + start) (j2 + start) ≤ R_l)).contains j))
      (treeAppend t ((key : ℤ) + start) (sample + start)) res) :
    GroupResult start key (sample :: rest) t
      (res.1, (sample, rest.filter (fun j2 => d (sample + start) (j2 + start) ≤ R_l)) ::
        res.2) := by
  have hrestnd : rest.Nodup := pairwise_lt_nodup hrestp
  have hcovsub : (rest.filter (fun j2 => decide (d (sample + start) (j2 + start) ≤ R_l))).Sublist
      rest := List.filter_sublist rest
  have hre : rest.filter (fun j => decide
        (¬ ((rest.filter (fun j2 => decide (d (sample + start) (j2 + start) ≤ R_l))).contains j
          = true))) =
      rest.filter (fun j =>
        !((rest.filter (fun j2 => decide (d (sample + start) (j2 + start) ≤ R_l))).contains j)) :=
    List.filter_congr (fun x _ => decide_not_coe _)
  have hpart : List.Perm
      (rest.filter (fun j2 => decide (d (sample + start) (j2 + start) ≤ R_l)) ++
        rest.filter (fun j => decide
          (¬ ((rest.filter (fun j2 => decide (d (sample + start) (j2 + start) ≤ R_l))).contains j
            = true)))) rest := by
    rw [hre]
    have h0 := List.filter_append_perm
      (fun j => (rest.filter (fun j2 => decide (d (sample + start) (j2 + start) ≤ R_l))).contains j)
      rest
    rwa [filter_contains_of_sublist hrestnd hcovsub] at h0
  have hmemrest1 : ∀ x, x ∈ rest.filter (fun j => decide
        (¬ ((rest.filter (fun j2 => decide (d (sample + start) (j2 + start) ≤ R_l))).contains j
          = true))) → x ∈ rest := fun x hx => List.mem_of_mem_filter hx
  have hmemsample : ∀ x ∈ res.2.map Prod.fst, sample < x := by
    intro x hx
    apply hlt
    apply hmemrest1
    exact hres.partition.subset (List.mem_append_left _ hx)
  refine ⟨?_, ?_, ?_, ?_, ?_, ?_⟩
  · exact hres.keys_eq.trans (treeKeys_treeAppend t _ _)
  · intro k2 hk2
    exact (hres.get_ne k2 hk2).trans (treeGet_treeAppend_ne t _ k2 _ hk2)
  · show treeGet res.1 ((key : ℤ) + start) = _
    rw [hres.get_self, treeGet_treeAppend_self t _ _ hnd hmem, List.map_cons, List.map_cons,
      List.append_assoc]
    rfl
  · exact List.pairwise_cons.mpr ⟨hmemsample, hres.samples_pairwise⟩
  · intro e he
    rcases List.mem_cons.mp he with h1 | h1
    · subst h1
      exact ⟨fun x hx => hlt x (List.mem_of_mem_filter hx), hrestp.filter _⟩
    · exact hres.cov_prop e h1
  · show List.Perm (((sample, _) :: res.2).map Prod.fst ++ _) _
    rw [List.map_cons, List.flatMap_cons, List.cons_append]
    refine List.Perm.cons sample ?_
    have hstep1 : List.Perm
        (res.2.map Prod.fst ++
          (rest.filter (fun j2 => decide (d (sample + start) (j2 + start) ≤ R_l)) ++
            res.2.flatMap Prod.snd))
        (rest.filter (fun j2 => decide (d (sample + start) (j2 + start) ≤ R_l)) ++
          (res.2.map Prod.fst ++ res.2.flatMap Prod.snd)) := by
      rw [← List.append_assoc, ← List.append_assoc]
      exact List.Perm.append_right _ List.perm_append_comm
    refine hstep1.trans ?_
    refine ((List.Perm.append_left _ hres.partition).trans hpart)

theorem coverTreeGroupLoop_spec (d : ℕ → ℕ → ℚ) (R_l : ℚ) (start key : ℕ) :
    ∀ (fuel : ℕ) (pts : List ℕ) (t : CoverTree),
      pts.length ≤ fuel → pts.Pairwise (· < ·) → (treeKeys t).Nodup →
      ((key : ℤ) + start) ∈ treeKeys t →
      GroupResult start key pts t (coverTreeGroupLoop d R_l start key fuel pts t)
  | 0, pts, t, hfuel, _, _, _ => by
    have hpts : pts = [] := List.eq_nil_of_length_eq_zero (Nat.le_zero.mp hfuel)
    subst hpts
    exact ⟨rfl, fun _ _ => rfl, (List.append_nil _).symm, List.Pairwise.nil,
      fun e he => absurd he (List.not_mem_nil e), List.Perm.nil⟩
  | fuel + 1, [], t, _, _, _, _ =>
    ⟨rfl, fun _ _ => rfl, (List.append_nil _).symm, List.Pairwise.nil,
      fun e he => absurd he (List.not_mem_nil e), List.Perm.nil⟩
  | fuel + 1, sample :: rest, t, hfuel, hsorted, hnd, hmem => by
    have hlt : ∀ x ∈ rest, sample < x := (List.pairwise_cons.mp hsorted).1
    have hrestp : rest.Pairwise (· < ·) := (List.pairwise_cons.mp hsorted).2
    rw [coverTreeGroupLoop_cons_eq d R_l start key fuel sample rest t hlt]
    refine groupResult_cons d R_l start key sample rest t _ hlt hrestp hnd hmem ?_
    refine coverTreeGroupLoop_spec d R_l start key fuel _ _ ?_ ?_ ?_ ?_
    · exact le_trans (List.length_filter_le _ rest) (Nat.succ_le_succ_iff.mp hfuel)
    · exact hrestp.filter _
    · rw [treeKeys_treeAppend]
      exact hnd
    · rw [treeKeys_treeAppend]
      exact hmem

theorem coverTreeGroupLoop_snd (d : ℕ → ℕ → ℚ) (R_l : ℚ) (start key : ℕ) :
    ∀ (fuel : ℕ) (pts : List ℕ) (t : CoverTree),
      (coverTreeGroupLoop d R_l start key fuel pts t).2 = groupEntries d R_l start fuel pts
  | 0, _, _ => rfl
  | _ + 1, [], _ => rfl
  | fuel + 1, sample :: rest, t => by
    simp only [coverTreeGroupLoop, groupEntries]
    exact congrArg (List.cons _) (coverTreeGroupLoop_snd d R_l start key fuel _ _)

theorem groupEntries_facts (d : ℕ → ℕ → ℚ) (R_l : ℚ) (start : ℕ) (pts : List ℕ)
    (hsorted : pts.Pairwise (· < ·)) :
    ((groupEntries d R_l start pts.length pts).map Prod.fst).Pairwise (· < ·) ∧
    (∀ e ∈ groupEntries d R_l start pts.length pts,
      (∀ x ∈ e.2, e.1 < x) ∧ e.2.Pairwise (· < ·)) ∧
    List.Perm ((groupEntries d R_l start pts.length pts).map Prod.fst ++
      (groupEntries d R_l start pts.length pts).flatMap Prod.snd) pts := by
  have h := coverTreeGroupLoop_spec d R_l start 0 pts.length pts [(((0 : ℕ) : ℤ) + start, [])]
    le_rfl hsorted (by simp [treeKeys]) (by simp [treeKeys])
  have hsnd := coverTreeGroupLoop_snd d R_l start 0 pts.length pts
    [(((0 : ℕ) : ℤ) + start, [])]
  exact ⟨hsnd ▸ h.samples_pairwise, hsnd ▸ h.cov_prop, hsnd ▸ h.partition⟩

theorem cast_add_start_inj (a b start : ℕ) (h : ((a : ℤ) + start) = ((b : ℤ) + start)) :
    a = b := by omega

theorem coverTreeLevel_spec (d : ℕ → ℕ → ℚ) (R_l : ℚ) (start : ℕ) :
    ∀ (gs : List CoverGroup) (t : CoverTree),
      (gs.map Prod.fst).Nodup →
      (∀ g ∈ gs, ((g.1 : ℤ) + start) ∉ treeKeys t) →
      (treeKeys t).Nodup →
      (∀ g ∈ gs, (∀ x ∈ g.2, g.1 < x) ∧ g.2.Pairwise (· < ·)) →
      LevelResult d R_l start gs t (coverTreeLevel d R_l start gs t)
  | [], t, _, _, _, _ =>
    ⟨(List.append_nil _).symm, fun _ _ => rfl, fun g hg => absurd hg (List.not_mem_nil g), rfl⟩
  | (key, pts) :: gs, t, hknd, hfresh, hnd, hgrp => by
    have hkey : ((key : ℤ) + start) ∉ treeKeys t :=
      hfresh (key, pts) (List.mem_cons_self _ _)
    have hkeytail : key ∉ gs.map Prod.fst := (List.nodup_cons.mp hknd).1
    have ht1 : treeInsert t ((key : ℤ) + start) [key + start] =
        t ++ [(((key : ℤ) + start), [key + start])] :=
      treeKeys_treeInsert_not_mem t _ _ hkey
    have hkeys1 : treeKeys (t ++ [(((key : ℤ) + start), [key + start])]) =
        treeKeys t ++ [((key : ℤ) + start)] := treeKeys_append t _
    have hnd1 : (treeKeys (t ++ [(((key : ℤ) + start), [key + start])])).Nodup := by
      rw [hkeys1]
      exact List.nodup_append.mpr ⟨hnd, List.nodup_singleton _,
        fun a ha hb => hkey ((List.mem_singleton.mp hb) ▸ ha)⟩
    have hmem1 : ((key : ℤ) + start) ∈
        treeKeys (t ++ [(((key : ℤ) + start), [key + start])]) := by
      rw [hkeys1]
      exact List.mem_append_right _ (List.mem_singleton.mpr rfl)
    have hres := coverTreeGroupLoop_spec d R_l start key pts.length pts
      (t ++ [(((key : ℤ) + start), [key + start])]) le_rfl
      (hgrp (key, pts) (List.mem_cons_self _ _)).2 hnd1 hmem1
    have hsnd := coverTreeGroupLoop_snd d R_l start key pts.length pts
      (t ++ [(((key : ℤ) + start), [key + start])])
    have hkeysres : treeKeys (coverTreeGroupLoop d R_l start key pts.length pts
        (t ++ [(((key : ℤ) + start), [key + start])])).1 =
        treeKeys t ++ [((key : ℤ) + start)] := hres.keys_eq.trans hkeys1
    have hfreshres : ∀ g ∈ gs, ((g.1 : ℤ) + start) ∉
        treeKeys (coverTreeGroupLoop d R_l start key pts.length pts
          (t ++ [(((key : ℤ) + start), [key + start])])).1 := by
      intro g hg hmem2
      rw [hkeysres] at hmem2
      rcases List.mem_append.mp hmem2 with h2 | h2
      · exact hfresh g (List.mem_cons_of_mem _ hg) h2
      · exact hkeytail ((cast_add_start_inj g.1 key start (List.mem_singleton.mp h2)) ▸
          List.mem_map_of_mem Prod.fst hg)
    have hndres : (treeKeys (coverTreeGroupLoop d R_l start key pts.length pts
        (t ++ [(((key : ℤ) + start), [key + start])])).1).Nodup := by
      rw [hkeysres]
      exact List.nodup_append.mpr ⟨hnd, List.nodup_singleton _,
        fun a ha hb => hkey ((List.mem_singleton.mp hb) ▸ ha)⟩
    have hih := coverTreeLevel_spec d R_l start gs
      (coverTreeGroupLoop d R_l start key pts.length pts
        (t ++ [(((key : ℤ) + start), [key + start])])).1
      (List.nodup_cons.mp hknd).2 hfreshres hndres
      (fun g hg => hgrp g (List.mem_cons_of_mem _ hg))
    simp only [coverTreeLevel, ht1]
    refine ⟨?_, ?_, ?_, ?_⟩
    · rw [hih.keys_eq, hkeysres, List.append_assoc, List.map_cons, List.singleton_append]
    · intro k2 h2
      rw [hih.get_old k2 (fun g hg => h2 g (List.mem_cons_of_mem _ hg)),
        hres.get_ne k2 (h2 (key, pts) (List.mem_cons_self _ _)),
        treeGet_append_not_mem t _ k2 (h2 (key, pts) (List.mem_cons_self _ _))]
    · intro g hg
      rcases List.mem_cons.mp hg with h2 | h2
      · subst h2
        rw [hih.get_old ((key : ℤ) + start) (fun g2 hg2 he =>
            hkeytail ((cast_add_start_inj key g2.1 start he) ▸
              List.mem_map_of_mem Prod.fst hg2)),
          hres.get_self, treeGet_append_self t _ _ hkey, hsnd, List.singleton_append]
        rfl
      · exact hih.get_new g h2
    · show (coverTreeGroupLoop d R_l start key pts.length pts _).2 ++ _ = _
      rw [hsnd, hih.entries_eq, List.flatMap_cons]

theorem perm_append_swap (a b c : List ℕ) : List.Perm (a ++ (b ++ c)) (b ++ (a ++ c)) := by
  rw [← List.append_assoc, ← List.append_assoc]
  exact List.Perm.append_right c List.perm_append_comm

theorem flatMap_append_perm (l : List CoverGroup) (f g : CoverGroup → List ℕ) :
    List.Perm (l.flatMap f ++ l.flatMap g) (l.flatMap (fun x => f x ++ g x)) := by
  induction l with
  | nil => exact List.Perm.nil
  | cons a tl ih =>
    rw [List.flatMap_cons, List.flatMap_cons, List.flatMap_cons, List.append_assoc,
      List.append_assoc]
    refine List.Perm.append_left (f a) ?_
    exact (perm_append_swap _ _ _).trans (List.Perm.append_left (g a) ih)

theorem find_of_flatMap_nodup (f : CoverGroup → List ℕ) (c : ℕ) :
    ∀ (l : List CoverGroup), ((l.flatMap f).Nodup) →
      ∀ g ∈ l, c ∈ f g → l.find? (fun g2 => (f g2).contains c) = some g
  | [], _, g, hg, _ => absurd hg (List.not_mem_nil g)
  | h :: tl, hnd, g, hg, hc => by
    have hnd2 := List.flatMap_cons h tl f ▸ hnd
    by_cases hch : c ∈ f h
    · have hgh : g = h := by
        rcases List.mem_cons.mp hg with h2 | h2
        · exact h2
        · exact absurd (List.mem_flatMap.mpr ⟨g, h2, hc⟩)
            (List.disjoint_of_nodup_append hnd2 hch)
      subst hgh
      have hpg : (fun g2 => (f g2).contains c) g = true := List.elem_iff.mpr hch
      exact List.find?_cons_of_pos tl hpg
    · have hgtl : g ∈ tl := by
        rcases List.mem_cons.mp hg with h2 | h2
        · exact absurd (h2 ▸ hc) hch
        · exact h2
      have hph : ¬ ((fun g2 => (f g2).contains c) h = true) :=
        fun h2 => hch (List.elem_iff.mp h2)
      exact (List.find?_cons_of_neg tl hph).trans
        (find_of_flatMap_nodup f c tl (List.Nodup.of_append_right hnd2) g hgtl hc)

theorem parUpd_eq_key (d : ℕ → ℕ → ℚ) (R_l : ℚ) (start : ℕ) (groups : List CoverGroup)
    (par : ℕ → ℕ) (c : ℕ) (g : CoverGroup) (hg : g ∈ groups)
    (hc : c ∈ groupSamples d R_l start g)
    (hnd : (groups.flatMap (fun g2 => groupSamples d R_l start g2)).Nodup) :
    parUpd d R_l start groups par c = g.1 := by
  unfold parUpd
  rw [find_of_flatMap_nodup (fun g2 => groupSamples d R_l start g2) c groups hnd g hg hc]

theorem parUpd_not_mem (d : ℕ → ℕ → ℚ) (R_l : ℚ) (start : ℕ) (groups : List CoverGroup)
    (par : ℕ → ℕ) (c : ℕ)
    (hc : c ∉ groups.flatMap (fun g => groupSamples d R_l start g)) :
    parUpd d R_l start groups par c = par c := by
  unfold parUpd
  rw [List.find?_eq_none.mpr
    (fun g hg h2 => hc (List.mem_flatMap.mpr ⟨g, hg, List.elem_iff.mp h2⟩))]

theorem lvUpd_mem (d : ℕ → ℕ → ℚ) (R_l : ℚ) (start : ℕ) (groups : List CoverGroup)
    (newlv : ℕ) (lv : ℕ → ℕ) (c : ℕ)
    (hc : c ∈ groups.flatMap (fun g => groupSamples d R_l start g)) :
    lvUpd d R_l start groups newlv lv c = newlv := by
  unfold lvUpd
  rw [if_pos (List.elem_iff.mpr hc)]

theorem lvUpd_not_mem (d : ℕ → ℕ → ℚ) (R_l : ℚ) (start : ℕ) (groups : List CoverGroup)
    (newlv : ℕ) (lv : ℕ → ℕ) (c : ℕ)
    (hc : c ∉ groups.flatMap (fun g => groupSamples d R_l start g)) :
    lvUpd d R_l start groups newlv lv c = lv c := by
  unfold lvUpd
  rw [if_neg (fun h2 => hc (List.elem_iff.mp h2))]

theorem sortEntriesByKey_perm (l : List (ℕ × List ℕ)) :
    List.Perm (sortEntriesByKey l) l :=
  List.perm_insertionSort _ l

theorem buildInv_step_of_level (d : ℕ → ℕ → ℚ) (R_l : ℚ) (n start level : ℕ)
    (t : CoverTree) (groups : List CoverGroup) (par lv : ℕ → ℕ)
    (out : CoverTree × List (ℕ × List ℕ))
    (hinv : BuildInv n start level t groups par lv)
    (hlev : LevelResult d R_l start groups t out) :
    BuildInv n start (level + 1) out.1 (sortEntriesByKey out.2)
      (parUpd d R_l start groups par) (lvUpd d R_l start groups (level + 1) lv) := by
  have hgf : ∀ g ∈ groups,
      ((groupEntries d R_l start g.2.length g.2).map Prod.fst).Pairwise (· < ·) ∧
      (∀ e ∈ groupEntries d R_l start g.2.length g.2,
        (∀ x ∈ e.2, e.1 < x) ∧ e.2.Pairwise (· < ·)) ∧
      List.Perm ((groupEntries d R_l start g.2.length g.2).map Prod.fst ++
        (groupEntries d R_l start g.2.length g.2).flatMap Prod.snd) g.2 :=
    fun g hg => groupEntries_facts d R_l start g.2 (hinv.grp_mem g hg).2
  have hSC : List.Perm
      (groups.flatMap (fun g => groupSamples d R_l start g) ++
        groups.flatMap (fun g => (groupEntries d R_l start g.2.length g.2).flatMap Prod.snd))
      (waitList groups) := by
    refine (flatMap_append_perm groups _ _).trans ?_
    refine List.Perm.bind_left groups ?_
    intro g hg
    show List.Perm (groupSamples d R_l start g ++
      (groupEntries d R_l start g.2.length g.2).flatMap Prod.snd) g.2
    simp only [groupSamples]
    exact (hgf g hg).2.2
  have hSCnd : (groups.flatMap (fun g => groupSamples d R_l start g) ++
      groups.flatMap
        (fun g => (groupEntries d R_l start g.2.length g.2).flatMap Prod.snd)).Nodup :=
    hSC.nodup_iff.mpr hinv.wait_nodup
  have hSnd : (groups.flatMap (fun g => groupSamples d R_l start g)).Nodup :=
    List.Nodup.of_append_left hSCnd
  have hCnd : (groups.flatMap
      (fun g => (groupEntries d R_l start g.2.length g.2).flatMap Prod.snd)).Nodup :=
    List.Nodup.of_append_right hSCnd
  have hSCdisj := List.disjoint_of_nodup_append hSCnd
  have hSsub : ∀ c ∈ groups.flatMap (fun g => groupSamples d R_l start g),
      c ∈ waitList groups := fun c hc => hSC.subset (List.mem_append_left _ hc)
  have hCsub : ∀ c ∈ groups.flatMap
      (fun g => (groupEntries d R_l start g.2.length g.2).flatMap Prod.snd),
      c ∈ waitList groups := fun c hc => hSC.subset (List.mem_append_right _ hc)
  have hpendperm : List.Perm (pendList (sortEntriesByKey out.2))
      (groups.flatMap (fun g => groupSamples d R_l start g)) := by
    show List.Perm ((sortEntriesByKey out.2).map Prod.fst) _
    refine (List.Perm.map Prod.fst (sortEntriesByKey_perm out.2)).trans ?_
    rw [hlev.entries_eq, List.map_flatMap]
    simp only [groupSamples]
    exact List.Perm.refl _
  have hwaitperm : List.Perm (waitList (sortEntriesByKey out.2))
      (groups.flatMap
        (fun g => (groupEntries d R_l start g.2.length g.2).flatMap Prod.snd)) := by
    show List.Perm ((sortEntriesByKey out.2).flatMap Prod.snd) _
    refine (List.Perm.flatMap_right Prod.snd (sortEntriesByKey_perm out.2)).trans ?_
    rw [hlev.entries_eq, List.bind_assoc]
  have hmemS : ∀ c, c ∈ groups.flatMap (fun g => groupSamples d R_l start g) →
      ∃ g ∈ groups, c ∈ groupSamples d R_l start g ∧ c ∈ g.2 := by
    intro c hc
    rcases List.mem_flatMap.mp hc with ⟨g, hg, hcg⟩
    refine ⟨g, hg, hcg, ?_⟩
    exact (hgf g hg).2.2.subset
      (List.mem_append_left _ (by simpa [groupSamples] using hcg))
  have hkeep : ∀ c, (isDone start t c ∨ c ∈ pendList groups) →
      c ∉ groups.flatMap (fun g => groupSamples d R_l start g) := by
    intro c hclass hc
    have hw := hSsub c hc
    rcases hclass with h1 | h1
    · exact hinv.wait_not_done c hw h1
    · exact hinv.pend_wait_disj c h1 hw
  have hpar_keep : ∀ c, (isDone start t c ∨ c ∈ pendList groups) →
      parUpd d R_l start groups par c = par c :=
    fun c h => parUpd_not_mem d R_l start groups par c (hkeep c h)
  have hlv_keep : ∀ c, (isDone start t c ∨ c ∈ pendList groups) →
      lvUpd d R_l start groups (level + 1) lv c = lv c :=
    fun c h => lvUpd_not_mem d R_l start groups (level + 1) lv c (hkeep c h)
  have hdone2 : ∀ c, isDone start out.1 c ↔ (isDone start t c ∨ c ∈ pendList groups) := by
    intro c
    unfold isDone
    rw [hlev.keys_eq, List.mem_append]
    constructor
    · rintro (h1 | h1)
      · exact Or.inl h1
      · rcases List.mem_map.mp h1 with ⟨g, hg, he⟩
        exact Or.inr ((cast_add_start_inj g.1 c start he) ▸ List.mem_map_of_mem Prod.fst hg)
    · rintro (h1 | h1)
      · exact Or.inl h1
      · rcases List.mem_map.mp h1 with ⟨g, hg, he⟩
        exact Or.inr (List.mem_map.mpr ⟨g, hg, by rw [he]⟩)
  have hSpos : ∀ c ∈ groups.flatMap (fun g => groupSamples d R_l start g), 1 ≤ c := by
    intro c hc
    rcases hmemS c hc with ⟨g, hg, _, hcg2⟩
    have := (hinv.grp_mem g hg).1 c hcg2
    omega
  refine ⟨?_, ?_, ?_, ?_, ?_, ?_, ?_, ?_, ?_, ?_, ?_, ?_, ?_, ?_, ?_, ?_, ?_, ?_⟩
  · rw [hlev.get_old (-1) (fun g hg he => by omega)]
    exact hinv.root_entry
  · rw [hlev.keys_eq]
    refine List.nodup_append.mpr ⟨hinv.keys_nodup, ?_, ?_⟩
    · have hmm : groups.map (fun g => ((g.1 : ℤ) + start)) =
          (groups.map Prod.fst).map (fun c : ℕ => ((c : ℤ) + (start : ℤ))) := by
        rw [List.map_map]
        rfl
      rw [hmm]
      exact List.Nodup.map (fun a b h => cast_add_start_inj a b start h) hinv.pend_nodup
    · intro a ha hb
      rcases List.mem_map.mp hb with ⟨g, hg, he⟩
      refine hinv.pend_not_done g.1 (List.mem_map_of_mem Prod.fst hg) ?_
      show ((g.1 : ℤ) + start) ∈ treeKeys t
      rw [he]
      exact ha
  · intro key hkey
    rw [hlev.keys_eq] at hkey
    rcases List.mem_append.mp hkey with h1 | h1
    · exact hinv.key_char key h1
    · rcases List.mem_map.mp h1 with ⟨g, hg, he⟩
      exact Or.inr ⟨g.1, hinv.pend_lt g.1 (List.mem_map_of_mem Prod.fst hg), he.symm⟩
  · exact hpendperm.nodup_iff.mpr hSnd
  · exact hwaitperm.nodup_iff.mpr hCnd
  · intro c hp hw
    exact hSCdisj (hpendperm.subset hp) (hwaitperm.subset hw)
  · intro c hp hdone
    have hcS := hpendperm.subset hp
    rcases (hdone2 c).mp hdone with h1 | h1
    · exact hinv.wait_not_done c (hSsub c hcS) h1
    · exact hinv.pend_wait_disj c h1 (hSsub c hcS)
  · intro c hw hdone
    have hw2 := hCsub c (hwaitperm.subset hw)
    rcases (hdone2 c).mp hdone with h1 | h1
    · exact hinv.wait_not_done c hw2 h1
    · exact hinv.pend_wait_disj c h1 hw2
  · intro c hcn
    rcases hinv.class_total c hcn with h1 | h1 | h1
    · exact Or.inl ((hdone2 c).mpr (Or.inl h1))
    · exact Or.inl ((hdone2 c).mpr (Or.inr h1))
    · rcases List.mem_flatMap.mp h1 with ⟨g, hg, hcg⟩
      have hsplit := (hgf g hg).2.2.symm.subset hcg
      rcases List.mem_append.mp hsplit with h2 | h2
      · refine Or.inr (Or.inl (hpendperm.symm.subset ?_))
        exact List.mem_flatMap.mpr ⟨g, hg, by simpa [groupSamples] using h2⟩
      · refine Or.inr (Or.inr (hwaitperm.symm.subset ?_))
        exact List.mem_flatMap.mpr ⟨g, hg, h2⟩
  · intro c hp
    exact hinv.wait_lt c (hSsub c (hpendperm.subset hp))
  · intro c hw
    exact hinv.wait_lt c (hCsub c (hwaitperm.subset hw))
  · intro g hg
    have hg2 : g ∈ out.2 := (sortEntriesByKey_perm out.2).subset hg
    rw [hlev.entries_eq] at hg2
    rcases List.mem_flatMap.mp hg2 with ⟨g2, hg2b, hge⟩
    exact (hgf g2 hg2b).2.1 g hge
  · intro c hcn hdone
    rcases (hdone2 c).mp hdone with h1 | h1
    · rcases hinv.entry_spec c hcn h1 with ⟨ts, hget, hpw, hiff⟩
      have hne : ∀ g ∈ groups, ((c : ℤ) + start) ≠ ((g.1 : ℤ) + start) := by
        intro g hg he
        exact hinv.pend_not_done g.1 (List.mem_map_of_mem Prod.fst hg)
          ((cast_add_start_inj c g.1 start he) ▸ h1)
      refine ⟨ts, by rw [hlev.get_old ((c : ℤ) + start) hne, hget], hpw, ?_⟩
      intro x
      constructor
      · intro hx
        rcases (hiff x).mp hx with ⟨c2, hc2n, hc2pos, hc2par, hc2x, hc2class⟩
        exact ⟨c2, hc2n, hc2pos, (hpar_keep c2 hc2class).trans hc2par, hc2x,
          Or.inl ((hdone2 c2).mpr hc2class)⟩
      · rintro ⟨c2, hc2n, hc2pos, hc2par, hc2x, hc2class⟩
        rcases hc2class with h2 | h2
        · have h3 := (hdone2 c2).mp h2
          rw [hpar_keep c2 h3] at hc2par
          exact (hiff x).mpr ⟨c2, hc2n, hc2pos, hc2par, hc2x, h3⟩
        · have hc2S := hpendperm.subset h2
          rcases hmemS c2 hc2S with ⟨g2, hg2, hc2g2, _⟩
          rw [parUpd_eq_key d R_l start groups par c2 g2 hg2 hc2g2 hSnd] at hc2par
          exact absurd h1
            (hc2par ▸ hinv.pend_not_done g2.1 (List.mem_map_of_mem Prod.fst hg2))
    · rcases List.mem_map.mp h1 with ⟨g, hg, hge⟩
      have hgetnew : treeGet out.1 ((c : ℤ) + start) =
          (c + start) :: (groupSamples d R_l start g).map (· + start) := by
        have h3 := hlev.get_new g hg
        rw [hge] at h3
        exact h3
      refine ⟨(groupSamples d R_l start g).map (· + start), hgetnew, ?_, ?_⟩
      · refine List.Pairwise.map _ (fun a b h => Nat.add_lt_add_right h start) ?_
        show (groupSamples d R_l start g).Pairwise (· < ·)
        simp only [groupSamples]
        exact (hgf g hg).1
      · intro x
        constructor
        · intro hx
          rcases List.mem_map.mp hx with ⟨s, hs, hsx⟩
          have hsS : s ∈ groups.flatMap (fun g2 => groupSamples d R_l start g2) :=
            List.mem_flatMap.mpr ⟨g, hg, hs⟩
          have hsg2 : s ∈ g.2 := (hgf g hg).2.2.subset
            (List.mem_append_left _ (by simpa [groupSamples] using hs))
          refine ⟨s, hinv.wait_lt s (List.mem_flatMap.mpr ⟨g, hg, hsg2⟩), ?_, ?_,
            hsx.symm, Or.inr (hpendperm.symm.subset hsS)⟩
          · have := (hinv.grp_mem g hg).1 s hsg2
            omega
          · rw [parUpd_eq_key d R_l start groups par s g hg hs hSnd, hge]
        · rintro ⟨c2, hc2n, hc2pos, hc2par, hc2x, hc2class⟩
          rcases hc2class with h2 | h2
          · have h3 := (hdone2 c2).mp h2
            rw [hpar_keep c2 h3] at hc2par
            have h4 := (hinv.par_dom c2 hc2n hc2pos h3).2.1
            rw [hc2par] at h4
            exact absurd h4 (hinv.pend_not_done c h1)
          · have hc2S := hpendperm.subset h2
            rcases hmemS c2 hc2S with ⟨g2, hg2, hc2g2, _⟩
            rw [parUpd_eq_key d R_l start groups par c2 g2 hg2 hc2g2 hSnd] at hc2par
            have hgg : g2 = g :=
              List.inj_on_of_nodup_map hinv.pend_nodup hg2 hg (hc2par.trans hge.symm)
            rw [hc2x]
            exact List.mem_map_of_mem _ (hgg ▸ hc2g2)
  · intro c hcn hcpos hclass
    rcases hclass with h2 | h2
    · have h3 := (hdone2 c).mp h2
      have h4 := hinv.par_dom c hcn hcpos h3
      rw [hpar_keep c h3]
      refine ⟨h4.1, (hdone2 (par c)).mpr (Or.inl h4.2.1), ?_⟩
      rw [hlv_keep c h3, hlv_keep (par c) (Or.inl h4.2.1), h4.2.2]
    · have hcS := hpendperm.subset h2
      rcases hmemS c hcS with ⟨g, hg, hcg, hcg2⟩
      rw [parUpd_eq_key d R_l start groups par c g hg hcg hSnd]
      have hgpend : g.1 ∈ pendList groups := List.mem_map_of_mem Prod.fst hg
      refine ⟨(hinv.grp_mem g hg).1 c hcg2, (hdone2 g.1).mpr (Or.inr hgpend), ?_⟩
      rw [lvUpd_mem d R_l start groups (level + 1) lv c hcS,
        hlv_keep g.1 (Or.inr hgpend), hinv.lv_pend g.1 hgpend]
  · rcases hinv.root_class with h1 | h1
    · exact Or.inl ((hdone2 0).mpr (Or.inl h1))
    · exact Or.inl ((hdone2 0).mpr (Or.inr h1))
  · have h0 : (0 : ℕ) ∉ groups.flatMap (fun g => groupSamples d R_l start g) :=
      fun hc => absurd (hSpos 0 hc) (by omega)
    rw [lvUpd_not_mem d R_l start groups (level + 1) lv 0 h0]
    exact hinv.lv_zero
  · intro c hp
    exact lvUpd_mem d R_l start groups (level + 1) lv c (hpendperm.subset hp)
  · intro c hcn hdone
    rcases (hdone2 c).mp hdone with h1 | h1
    · rw [hlv_keep c (Or.inl h1)]
      exact Nat.lt_succ_of_lt (hinv.lv_done c hcn h1)
    · rw [hlv_keep c (Or.inr h1), hinv.lv_pend c h1]
      exact Nat.lt_succ_self level

theorem buildInv_init (n start : ℕ) (hn : 1 ≤ n) :
    BuildInv n start 0 [(-1, [start])] [(0, List.range' 1 (n - 1))]
      (fun c => c) (fun _ => 0) := by
  have hnotdone : ∀ c : ℕ, ¬ isDone start [((-1 : ℤ), [start])] c := by
    intro c hc
    unfold isDone at hc
    have := List.mem_singleton.mp hc
    omega
  have hwaitmem : ∀ c, c ∈ waitList [((0 : ℕ), List.range' 1 (n - 1))] →
      1 ≤ c ∧ c < n := by
    intro c hc
    have hc2 : c ∈ List.range' 1 (n - 1) := by
      simpa [waitList] using hc
    have := List.mem_range'_1.mp hc2
    omega
  refine ⟨?_, ?_, ?_, ?_, ?_, ?_, ?_, ?_, ?_, ?_, ?_, ?_, ?_, ?_, ?_, ?_, ?_, ?_⟩
  · rw [show ([((-1 : ℤ), [start])] : CoverTree) = ((-1 : ℤ), [start]) :: [] from rfl,
      treeGet_cons, if_pos rfl]
  · simp [treeKeys]
  · intro key hkey
    simp only [treeKeys, List.map_cons, List.map_nil] at hkey
    exact Or.inl (List.mem_singleton.mp hkey)
  · simp [pendList]
  · show (List.range' 1 (n - 1) ++ []).Nodup
    rw [List.append_nil]
    exact pairwise_lt_nodup (List.pairwise_lt_range' 1 (n - 1))
  · intro c hp hw
    have h0 : c = 0 := by simpa [pendList] using hp
    have := (hwaitmem c hw).1
    omega
  · intro c _ hd
    exact hnotdone c hd
  · intro c _ hd
    exact hnotdone c hd
  · intro c hc
    by_cases h0 : c = 0
    · refine Or.inr (Or.inl ?_)
      simp [pendList, h0]
    · refine Or.inr (Or.inr ?_)
      show c ∈ List.range' 1 (n - 1) ++ []
      rw [List.append_nil]
      exact List.mem_range'_1.mpr (by omega)
  · intro c hp
    have h0 : c = 0 := by simpa [pendList] using hp
    omega
  · intro c hw
    exact (hwaitmem c hw).2
  · intro g hg
    have hg2 : g = ((0 : ℕ), List.range' 1 (n - 1)) := List.mem_singleton.mp hg
    subst hg2
    exact ⟨fun x hx => (List.mem_range'_1.mp hx).1, List.pairwise_lt_range' 1 (n - 1)⟩
  · intro c _ hd
    exact absurd hd (hnotdone c)
  · intro c _ hcpos hclass
    rcases hclass with h1 | h1
    · exact absurd h1 (hnotdone c)
    · have h0 : c = 0 := by simpa [pendList] using h1
      omega
  · refine Or.inr ?_
    simp [pendList]
  · rfl
  · intro c _
    rfl
  · intro c _ hd
    exact absurd hd (hnotdone c)

theorem level_measure (d : ℕ → ℕ → ℚ) (R_l : ℚ) (start : ℕ)
    (groups : List CoverGroup) (t : CoverTree) (out : CoverTree × List (ℕ × List ℕ))
    (hgrp : ∀ g ∈ groups, (∀ x ∈ g.2, g.1 < x) ∧ g.2.Pairwise (· < ·))
    (hlev : LevelResult d R_l start groups t out) :
    (pendList (sortEntriesByKey out.2)).length +
      (waitList (sortEntriesByKey out.2)).length = (waitList groups).length := by
  have hSC : List.Perm
      (groups.flatMap (fun g => groupSamples d R_l start g) ++
        groups.flatMap (fun g => (groupEntries d R_l start g.2.length g.2).flatMap Prod.snd))
      (waitList groups) := by
    refine (flatMap_append_perm groups _ _).trans ?_
    refine List.Perm.flatMap_left groups ?_
    intro g hg
    show List.Perm (groupSamples d R_l start g ++
      (groupEntries d R_l start g.2.length g.2).flatMap Prod.snd) g.2
    simp only [groupSamples]
    exact (groupEntries_facts d R_l start g.2 (hgrp g hg).2).2.2
  have hpendperm : List.Perm (pendList (sortEntriesByKey out.2))
      (groups.flatMap (fun g => groupSamples d R_l start g)) := by
    show List.Perm ((sortEntriesByKey out.2).map Prod.fst) _
    refine (List.Perm.map Prod.fst (sortEntriesByKey_perm out.2)).trans ?_
    rw [hlev.entries_eq, List.map_flatMap]
    simp only [groupSamples]
    exact List.Perm.refl _
  have hwaitperm : List.Perm (waitList (sortEntriesByKey out.2))
      (groups.flatMap
        (fun g => (groupEntries d R_l start g.2.length g.2).flatMap Prod.snd)) := by
    show List.Perm ((sortEntriesByKey out.2).flatMap Prod.snd) _
    refine (List.Perm.flatMap_right Prod.snd (sortEntriesByKey_perm out.2)).trans ?_
    rw [hlev.entries_eq, List.flatMap_assoc]
  rw [hpendperm.length_eq, hwaitperm.length_eq, ← List.length_append, hSC.length_eq]

theorem root_key_mem (t : CoverTree) (start : ℕ) (h : treeGet t (-1) = [start]) :
    (-1 : ℤ) ∈ treeKeys t := by
  by_contra hc
  rw [treeGet_not_mem t (-1) hc] at h
  exact absurd h.symm (List.cons_ne_nil start [])

theorem keys_perm_of_facts (n start : ℕ) (t : CoverTree)
    (hroot : treeGet t (-1) = [start])
    (hnd : (treeKeys t).Nodup)
    (hchar : ∀ key ∈ treeKeys t, key = -1 ∨ ∃ c, c < n ∧ key = ((c : ℤ) + start))
    (hmem : ∀ c, c < n → ((c : ℤ) + start) ∈ treeKeys t) :
    List.Perm (treeKeys t)
      ((-1 : ℤ) :: (List.range n).map (fun c : ℕ => ((c : ℤ) + (start : ℤ)))) := by
  have hsub1 : treeKeys t ⊆
      (-1 : ℤ) :: (List.range n).map (fun c : ℕ => ((c : ℤ) + (start : ℤ))) := by
    intro k hk
    rcases hchar k hk with h1 | ⟨c, hc, he⟩
    · rw [h1]
      exact List.mem_cons_self _ _
    · exact List.mem_cons_of_mem _ (List.mem_map.mpr ⟨c, List.mem_range.mpr hc, he.symm⟩)
  have hsub2 : ((-1 : ℤ) :: (List.range n).map (fun c : ℕ => ((c : ℤ) + (start : ℤ)))) ⊆
      treeKeys t := by
    intro k hk
    rcases List.mem_cons.mp hk with h1 | h1
    · rw [h1]
      exact root_key_mem t start hroot
    · rcases List.mem_map.mp h1 with ⟨c, hc, he⟩
      rw [← he]
      exact hmem c (List.mem_range.mp hc)
  have hnd2 : ((-1 : ℤ) ::
      (List.range n).map (fun c : ℕ => ((c : ℤ) + (start : ℤ)))).Nodup := by
    refine List.nodup_cons.mpr ⟨?_, ?_⟩
    · intro hmem2
      rcases List.mem_map.mp hmem2 with ⟨c, _, he⟩
      omega
    · exact List.Nodup.map (fun a b h => cast_add_start_inj a b start h) (List.nodup_range n)
  exact (List.subperm_of_subset hnd hsub1).antisymm (List.subperm_of_subset hnd2 hsub2)

theorem keys_short_of_pend_ne (n start level : ℕ) (t : CoverTree)
    (groups : List CoverGroup) (par lv : ℕ → ℕ)
    (hinv : BuildInv n start level t groups par lv) (c0 : ℕ) (hc0 : c0 ∈ pendList groups) :
    (treeKeys t).length ≤ n := by
  have hc0n : c0 < n := hinv.pend_lt c0 hc0
  have hc0nd : ¬ isDone start t c0 := hinv.pend_not_done c0 hc0
  have hsub : treeKeys t ⊆
      (-1 : ℤ) :: ((List.range n).erase c0).map (fun c : ℕ => ((c : ℤ) + (start : ℤ))) := by
    intro k hk
    rcases hinv.key_char k hk with h1 | ⟨c, hc, he⟩
    · rw [h1]
      exact List.mem_cons_self _ _
    · refine List.mem_cons_of_mem _ (List.mem_map.mpr ⟨c, ?_, he.symm⟩)
      refine (List.Nodup.mem_erase_iff (List.nodup_range n)).mpr ⟨?_, List.mem_range.mpr hc⟩
      intro hceq
      subst hceq
      refine hc0nd ?_
      show ((c : ℤ) + start) ∈ treeKeys t
      rw [← he]
      exact hk
  have hlen := (List.subperm_of_subset hinv.keys_nodup hsub).length_le
  rw [List.length_cons, List.length_map,
    List.length_erase_of_mem (List.mem_range.mpr hc0n), List.length_range] at hlen
  omega

theorem coverTreeLoop_spec (d : ℕ → ℕ → ℚ) (base : ℚ) (n start : ℕ) (hn : 1 ≤ n) :
    ∀ (fuel level : ℕ) (t : CoverTree) (groups : List CoverGroup) (par lv : ℕ → ℕ),
      BuildInv n start level t groups par lv →
      (pendList groups).length + 2 * (waitList groups).length < fuel →
      ∃ t2 levels par2 lv2,
        coverTreeLoop d base n start fuel level t groups = some (t2, levels) ∧
        FinalTreeFacts n start levels t2 par2 lv2
  | 0, _, _, _, _, _, _, hfuel => absurd hfuel (by omega)
  | fuel + 1, level, t, groups, par, lv, hinv, hfuel => by
    simp only [coverTreeLoop]
    by_cases hchk : t.length - 1 = n
    · rw [if_pos hchk]
      have hpend_nil : pendList groups = [] := by
        by_contra hne
        rcases List.exists_mem_of_ne_nil _ hne with ⟨c0, hc0⟩
        have hlen := keys_short_of_pend_ne n start level t groups par lv hinv c0 hc0
        have hkl : (treeKeys t).length = t.length := List.length_map t Prod.fst
        omega
      have hgroups : groups = [] := List.map_eq_nil_iff.mp hpend_nil
      subst hgroups
      have halldone : ∀ c, c < n → isDone start t c := by
        intro c hc
        rcases hinv.class_total c hc with h1 | h1 | h1
        · exact h1
        · exact absurd h1 (List.not_mem_nil c)
        · exact absurd h1 (List.not_mem_nil c)
      refine ⟨t, level, par, lv, rfl, ?_⟩
      refine ⟨hinv.root_entry, hinv.keys_nodup, hinv.key_char,
        (fun c hc => halldone c hc), ?_, ?_, hinv.lv_zero, ?_⟩
      · intro c hc
        rcases hinv.entry_spec c hc (halldone c hc) with ⟨ts, hget, hpw, hiff⟩
        refine ⟨ts, hget, hpw, fun x => ?_⟩
        constructor
        · intro hx
          rcases (hiff x).mp hx with ⟨c2, h1, h2, h3, h4, _⟩
          exact ⟨c2, h1, h2, h3, h4⟩
        · rintro ⟨c2, h1, h2, h3, h4⟩
          exact (hiff x).mpr ⟨c2, h1, h2, h3, h4, Or.inl (halldone c2 h1)⟩
      · intro c hc hcpos
        have h := hinv.par_dom c hc hcpos (Or.inl (halldone c hc))
        exact ⟨h.1, h.2.2⟩
      · intro c hc
        exact Nat.succ_le_of_lt (hinv.lv_done c hc (halldone c hc))
    · rw [if_neg hchk]
      have hfreshg : ∀ g ∈ groups, ((g.1 : ℤ) + start) ∉ treeKeys t :=
        fun g hg => hinv.pend_not_done g.1 (List.mem_map_of_mem Prod.fst hg)
      have hlev := coverTreeLevel_spec d (1 / base ^ (level + 1)) start groups t
        hinv.pend_nodup hfreshg hinv.keys_nodup hinv.grp_mem
      have hinv2 := buildInv_step_of_level d (1 / base ^ (level + 1)) n start level t groups
        par lv _ hinv hlev
      have hmeas := level_measure d (1 / base ^ (level + 1)) start groups t _
        hinv.grp_mem hlev
      have hpend_ne : pendList groups ≠ [] := by
        intro hnil
        have hgroups : groups = [] := List.map_eq_nil_iff.mp hnil
        subst hgroups
        have halldone : ∀ c, c < n → isDone start t c := by
          intro c hc
          rcases hinv.class_total c hc with h1 | h1 | h1
          · exact h1
          · exact absurd h1 (List.not_mem_nil c)
          · exact absurd h1 (List.not_mem_nil c)
        have hperm := keys_perm_of_facts n start t hinv.root_entry hinv.keys_nodup
          hinv.key_char (fun c hc => halldone c hc)
        have hlen := hperm.length_eq
        rw [List.length_cons, List.length_map, List.length_range] at hlen
        have hkl : (treeKeys t).length = t.length := List.length_map t Prod.fst
        omega
      have hm1 : 1 ≤ (pendList groups).length := List.length_pos.mpr hpend_ne
      exact coverTreeLoop_spec d base n start hn fuel (level + 1)
        (coverTreeLevel d (1 / base ^ (level + 1)) start groups t).1
        (sortEntriesByKey (coverTreeLevel d (1 / base ^ (level + 1)) start groups t).2)
        (parUpd d (1 / base ^ (level + 1)) start groups par)
        (lvUpd d (1 / base ^ (level + 1)) start groups (level + 1) lv)
        hinv2 (by omega)

theorem CoverTree_kNN_spec (d : ℕ → ℕ → ℚ) (base : ℚ) (n start : ℕ) (hn : 1 ≤ n) :
    ∃ t levels par lv, CoverTree_kNN d base n start = some (t, levels) ∧
      FinalTreeFacts n start levels t par lv := by
  have hinit := buildInv_init n start hn
  have hfuel : (pendList [((0 : ℕ), List.range' 1 (n - 1))]).length +
      2 * (waitList [((0 : ℕ), List.range' 1 (n - 1))]).length < 2 * n + 2 := by
    simp [pendList, waitList]
    omega
  rcases coverTreeLoop_spec d base n start hn (2 * n + 2) 0 [(-1, [start])]
    [(0, List.range' 1 (n - 1))] (fun c => c) (fun _ => 0) hinit hfuel with
    ⟨t2, levels, p2, l2, heq, hf⟩
  exact ⟨t2, levels, p2, l2, heq, hf⟩

/-- Claim C6: for every candidate-set size n with at least one point and
every distance oracle, the construction loop of CoverTree_kNN reaches its
stop condition within the modelled fuel bound (the loop terminates), and
the finished tree contains every candidate point exactly once as a key
(offset by the segment start), next to the root marker -1. -/
theorem C6_coverTree_terminates_each_point_once (d : ℕ → ℕ → ℚ) (base : ℚ)
    (n start : ℕ) (hn : 1 ≤ n) :
    ∃ t levels, CoverTree_kNN d base n start = some (t, levels) ∧
      List.Perm (treeKeys t)
        ((-1 : ℤ) :: (List.range n).map (fun c : ℕ => ((c : ℤ) + (start : ℤ)))) := by
  rcases CoverTree_kNN_spec d base n start hn with ⟨t, levels, p2, l2, heq, hf⟩
  exact ⟨t, levels, heq,
    keys_perm_of_facts n start t hf.root_entry hf.keys_nodup hf.key_char hf.key_mem⟩

/-- Witness for C6 at a concrete input: three points, constant oracle. -/
theorem C6_coverTree_terminates_each_point_once_witness :
    (1 ≤ 3) ∧ ∃ t levels, CoverTree_kNN (fun _ _ => (1 : ℚ)) 2 3 0 = some (t, levels) ∧
      List.Perm (treeKeys t)
        ((-1 : ℤ) :: (List.range 3).map (fun c : ℕ => ((c : ℤ) + ((0 : ℕ) : ℤ)))) :=
  ⟨by decide, C6_coverTree_terminates_each_point_once (fun _ _ => 1) 2 3 0 (by decide)⟩

theorem heapInvSet_init (dq : ℕ → ℚ) (k : ℕ) : HeapInvSet dq k [] (knnInit k) := by
  refine ⟨by simp [knnInit], ?_, ?_, ?_, ?_, ?_⟩
  · exact List.pairwise_replicate.mpr (Or.inr (lexLe_refl _))
  · intro p hp
    left
    rw [List.eq_of_mem_replicate hp]
  · have : realEntries (knnInit k) = [] := by
      unfold realEntries knnInit
      rw [List.filter_eq_nil_iff]
      intro p hp
      rw [List.eq_of_mem_replicate hp]
      simp
    rw [this]
    exact List.nodup_nil
  · have : realEntries (knnInit k) = [] := by
      unfold realEntries knnInit
      rw [List.filter_eq_nil_iff]
      intro p hp
      rw [List.eq_of_mem_replicate hp]
      simp
    rw [this]
    simp
  · intro j0 hj0
    exact absurd hj0 (List.not_mem_nil j0)

theorem heapInvSet_step (dq : ℕ → ℚ) (k : ℕ) (P : List ℕ) (j : ℕ) (hk : 0 < k)
    (hjP : j ∉ P) (hfresh : ∀ q ∈ P, dq q ≠ dq j)
    (st : List (WithTop ℚ × ℕ)) (h : HeapInvSet dq k P st) :
    HeapInvSet dq k (P ++ [j]) (knnStep st (dq j) j) := by
  have hne : st ≠ [] := by
    intro h0
    rw [h0] at h
    have := h.len
    simp at this
    omega
  have hl : st.getLast? = some (st.getLast hne) := List.getLast?_eq_getLast st hne
  set lastp := st.getLast hne with hlastp
  have hdec : st.dropLast ++ [lastp] = st := List.dropLast_append_getLast hne
  have hlast_mem : lastp ∈ st := List.getLast_mem hne
  have hmax : ∀ p ∈ st, lexLe p lastp := pairwise_lex_le_getLast hne h.sorted
  have hstep : knnStep st (dq j) j =
      if (dq j : WithTop ℚ) < lastp.1 then
        insertHeapPair ((dq j : WithTop ℚ), j) st.dropLast
      else st := by
    unfold knnStep
    rw [hl]
  by_cases hcond : (dq j : WithTop ℚ) < lastp.1
  · rw [hstep, if_pos hcond]
    have hdropsub : st.dropLast.Sublist st := List.dropLast_sublist st
    have hrealdrop : ∀ q ∈ st.dropLast, q.1 ≠ ⊤ →
        q = ((dq q.2 : WithTop ℚ), q.2) ∧ q.2 ∈ P := by
      intro q hq hqtop
      rcases h.entries q (hdropsub.subset hq) with h1 | h1
      · exact absurd h1 hqtop
      · exact h1
    have hperm : List.Perm (realEntries (insertHeapPair ((dq j : WithTop ℚ), j) st.dropLast))
        (((dq j : WithTop ℚ), j) :: realEntries st.dropLast) := by
      have h1 := realEntries_perm (insertHeapPair_perm ((dq j : WithTop ℚ), j) st.dropLast)
      have h2 : realEntries (((dq j : WithTop ℚ), j) :: st.dropLast) =
          ((dq j : WithTop ℚ), j) :: realEntries st.dropLast := by
        unfold realEntries
        rw [List.filter_cons_of_pos (by simp)]
      rw [h2] at h1
      exact h1
    have hsplit : realEntries st = realEntries st.dropLast ++ realEntries [lastp] := by
      rw [← realEntries_append, hdec]
    refine ⟨?_, ?_, ?_, ?_, ?_, ?_⟩
    · rw [insertHeapPair_length, List.length_dropLast, h.len]
      omega
    · refine insertHeapPair_pairwise_lex (h.sorted.sublist hdropsub) ?_
      intro q hq hq1
      exfalso
      have hqtop : q.1 ≠ ⊤ := by
        rw [hq1]
        exact WithTop.coe_ne_top
      have h5 := hrealdrop q hq hqtop
      have h7 : q.1 = ((dq q.2 : ℚ) : WithTop ℚ) := congrArg Prod.fst h5.1
      have h8 : q.1 = ((dq j : ℚ) : WithTop ℚ) := hq1
      exact hfresh q.2 h5.2 (WithTop.coe_eq_coe.mp (h7.symm.trans h8))
    · intro p hp
      rcases mem_insertHeapPair.mp hp with rfl | hp
      · exact Or.inr ⟨rfl, List.mem_append_right _ (List.mem_singleton.mpr rfl)⟩
      · rcases h.entries p (hdropsub.subset hp) with h1 | h1
        · exact Or.inl h1
        · exact Or.inr ⟨h1.1, List.mem_append_left _ h1.2⟩
    · rw [(hperm.map Prod.snd).nodup_iff]
      refine List.nodup_cons.mpr ⟨?_, ?_⟩
      · intro hmem
        rcases List.mem_map.mp hmem with ⟨q, hq, hq2⟩
        rcases mem_realEntries.mp hq with ⟨hqd, hqtop⟩
        have hq3 : q.2 = j := hq2
        have hq4 := (hrealdrop q hqd hqtop).2
        rw [hq3] at hq4
        exact hjP hq4
      · have hsub : (realEntries st.dropLast).Sublist (realEntries st) :=
          hdropsub.filter _
        exact h.nodup_reals.sublist (hsub.map Prod.snd)
    · have hlen2 : (realEntries (insertHeapPair ((dq j : WithTop ℚ), j) st.dropLast)).length =
          (realEntries st.dropLast).length + 1 := by
        rw [hperm.length_eq, List.length_cons]
      rw [List.length_append, List.length_singleton]
      by_cases hpad : lastp.1 = ⊤
      · have hsingle : realEntries [lastp] = [] := by
          unfold realEntries
          simp [hpad]
        have hdl : (realEntries st.dropLast).length = min P.length k := by
          have := h.real_count
          rw [hsplit, hsingle, List.append_nil] at this
          exact this
        have hdlbound : (realEntries st.dropLast).length ≤ st.dropLast.length :=
          List.length_filter_le _ _
        rw [List.length_dropLast, h.len] at hdlbound
        rw [hlen2, hdl]
        omega
      · have hreals : realEntries st = st :=
          realEntries_eq_self_of_last hne hlastp.symm h.sorted hpad
        have hkP : k ≤ P.length := by
          have := h.real_count
          rw [hreals, h.len] at this
          omega
        have hsingle : realEntries [lastp] = [lastp] := by
          unfold realEntries
          simp [hpad]
        have hdl : (realEntries st.dropLast).length + 1 = k := by
          have h2 := congrArg List.length hsplit
          rw [hreals, h.len, hsingle, List.length_append, List.length_singleton] at h2
          omega
        rw [hlen2, hdl]
        omega
    · intro j0 hj0 hnotmem p hp
      rcases List.mem_append.mp hj0 with hj0p | hj0j
      · by_cases hXst : ((dq j0 : WithTop ℚ), j0) ∈ st
        · have hXeq : ((dq j0 : WithTop ℚ), j0) = lastp := by
            rcases List.mem_append.mp (hdec.symm ▸ hXst :
                ((dq j0 : WithTop ℚ), j0) ∈ st.dropLast ++ [lastp]) with hx | hx
            · exact absurd (mem_insertHeapPair.mpr (Or.inr hx)) hnotmem
            · exact List.mem_singleton.mp hx
          rcases mem_insertHeapPair.mp hp with rfl | hp
          · rw [hXeq]
            exact Or.inl hcond
          · rw [hXeq]
            exact hmax p (hdropsub.subset hp)
        · have hold := h.dropped j0 hj0p hXst
          rcases mem_insertHeapPair.mp hp with rfl | hp
          · exact Or.inl (lt_of_lt_of_le hcond (lexLe_fst (hold lastp hlast_mem)))
          · exact hold p (hdropsub.subset hp)
      · rw [List.mem_singleton.mp hj0j] at hnotmem
        exact absurd (mem_insertHeapPair.mpr (Or.inl rfl)) hnotmem
  · rw [hstep, if_neg hcond]
    have hlastreal : lastp.1 ≠ ⊤ := by
      intro htop
      exact hcond (htop ▸ WithTop.coe_lt_top (dq j))
    have hreals : realEntries st = st :=
      realEntries_eq_self_of_last hne hlastp.symm h.sorted hlastreal
    have hkP : k ≤ P.length := by
      have := h.real_count
      rw [hreals, h.len] at this
      omega
    refine ⟨h.len, h.sorted, ?_, h.nodup_reals, ?_, ?_⟩
    · intro p hp
      rcases h.entries p hp with h1 | h1
      · exact Or.inl h1
      · exact Or.inr ⟨h1.1, List.mem_append_left _ h1.2⟩
    · rw [hreals, h.len, List.length_append, List.length_singleton]
      omega
    · intro j0 hj0 hnotmem p hp
      rcases List.mem_append.mp hj0 with hj0p | hj0j
      · exact h.dropped j0 hj0p hnotmem p hp
      · rw [List.mem_singleton.mp hj0j]
        have hlex_last : lexLe lastp ((dq j : WithTop ℚ), j) := by
          rcases lt_or_eq_of_le (le_of_not_lt hcond) with h1 | h1
          · exact Or.inl h1
          · exfalso
            rcases h.entries lastp hlast_mem with h2 | h2
            · exact hlastreal h2
            · have h7 : lastp.1 = ((dq lastp.2 : ℚ) : WithTop ℚ) := congrArg Prod.fst h2.1
              have h8 : lastp.1 = ((dq j : ℚ) : WithTop ℚ) := h1
              exact hfresh lastp.2 h2.2 (WithTop.coe_eq_coe.mp (h7.symm.trans h8))
        exact lexLe_trans (hmax p hp) hlex_last

theorem heapInvSet_scan (dq : ℕ → ℚ) (k : ℕ) (hk : 0 < k) (Q : List ℕ)
    (hnd : Q.Nodup) (hinj : ∀ a ∈ Q, ∀ b ∈ Q, dq a = dq b → a = b) :
    HeapInvSet dq k Q (knnScanPairs k (Q.map (fun j => (dq j, j)))) := by
  induction Q using List.reverseRecOn with
  | nil => exact heapInvSet_init dq k
  | append_singleton P j ih =>
    have hrw : knnScanPairs k ((P ++ [j]).map (fun j2 => (dq j2, j2))) =
        knnStep (knnScanPairs k (P.map (fun j2 => (dq j2, j2)))) (dq j) j := by
      unfold knnScanPairs
      rw [List.map_append, List.foldl_append]
      rfl
    rw [hrw]
    have hPnd : P.Nodup := (List.nodup_append.mp hnd).1
    have hjP : j ∉ P := by
      intro hj
      exact (List.nodup_append.mp hnd).2.2 hj (List.mem_singleton.mpr rfl)
    refine heapInvSet_step dq k P j hk hjP ?_ _ (ih hPnd ?_)
    · intro q hq he
      exact hjP ((hinj q (List.mem_append_left _ hq) j
        (List.mem_append_right _ (List.mem_singleton.mpr rfl)) he) ▸ hq)
    · intro a ha b hb he
      exact hinj a (List.mem_append_left _ ha) b (List.mem_append_left _ hb) he

theorem scanQ_isSelection (dq : ℕ → ℚ) (i k : ℕ) (hk : 0 < k) (Q : List ℕ)
    (hnd : Q.Nodup) (hinj : ∀ a ∈ Q, ∀ b ∈ Q, dq a = dq b → a = b)
    (hmemQ : ∀ c, c ∈ Q ↔ c < i) (hki : k ≤ Q.length) :
    isBruteForceKNNSelection dq i k
      (knnIndices (knnScanPairs k (Q.map (fun j => (dq j, j))))) := by
  have h := heapInvSet_scan dq k hk Q hnd hinj
  set st := knnScanPairs k (Q.map (fun j => (dq j, j))) with hst
  have hreals : realEntries st = st := by
    apply filter_eq_self_of_length
    show (realEntries st).length = st.length
    rw [h.real_count, h.len]
    omega
  have hallreal : ∀ p ∈ st, p = ((dq p.2 : WithTop ℚ), p.2) ∧ p.2 ∈ Q := by
    intro p hp
    rcases h.entries p hp with h1 | h1
    · exfalso
      have hmem : p ∈ realEntries st := hreals.symm ▸ hp
      exact (mem_realEntries.mp hmem).2 h1
    · exact h1
  refine ⟨?_, ?_, ?_, ?_⟩
  · unfold knnIndices
    rw [List.length_map, h.len]
  · unfold knnIndices
    rw [← hreals]
    exact h.nodup_reals
  · intro s hs
    rcases List.mem_map.mp hs with ⟨p, hp, rfl⟩
    exact (hmemQ p.2).mp (hallreal p hp).2
  · intro s hs j0 hj0 hj0not
    rcases List.mem_map.mp hs with ⟨p, hp, rfl⟩
    have hpe := (hallreal p hp).1
    have hXnot : ((dq j0 : WithTop ℚ), j0) ∉ st := by
      intro hX
      exact hj0not (List.mem_map.mpr ⟨_, hX, rfl⟩)
    have hlex := h.dropped j0 ((hmemQ j0).mpr hj0) hXnot p hp
    rw [hpe] at hlex
    rcases hlex with h1 | ⟨h1, h2⟩
    · exact Or.inl (WithTop.coe_lt_coe.mp h1)
    · right
      refine ⟨WithTop.coe_eq_coe.mp h1, ?_⟩
      have hne2 : p.2 ≠ j0 := by
        rintro rfl
        exact hj0not hs
      omega

theorem selection_subset (dq : ℕ → ℚ) (i k : ℕ) (S T : List ℕ)
    (hS : isBruteForceKNNSelection dq i k S) (hT : isBruteForceKNNSelection dq i k T) :
    S ⊆ T := by
  intro s hs
  by_contra hsT
  have hTS : ¬ (∀ t ∈ T, t ∈ S) := by
    intro hsub
    have hsp : T.Subperm S := List.subperm_of_subset hT.2.1 hsub
    have hperm : List.Perm T S :=
      hsp.perm_of_length_le (le_of_eq (hS.1.trans hT.1.symm))
    exact hsT (hperm.symm.subset hs)
  push_neg at hTS
  rcases hTS with ⟨t, ht, htS⟩
  have h1 := hS.2.2.2 s hs t (hT.2.2.1 t ht) htS
  have h2 := hT.2.2.2 t ht s (hS.2.2.1 s hs) hsT
  rcases h1 with h1 | ⟨h1a, h1b⟩ <;> rcases h2 with h2 | ⟨h2a, h2b⟩
  · exact absurd (h1.trans h2) (lt_irrefl _)
  · rw [h2a] at h1
    exact absurd h1 (lt_irrefl _)
  · rw [h1a] at h2
    exact absurd h2 (lt_irrefl _)
  · omega

theorem selection_unique (dq : ℕ → ℚ) (i k : ℕ) (S T : List ℕ)
    (hS : isBruteForceKNNSelection dq i k S) (hT : isBruteForceKNNSelection dq i k T) :
    List.Perm S T :=
  (List.subperm_of_subset hS.2.1 (selection_subset dq i k S T hS hT)).antisymm
    (List.subperm_of_subset hT.2.1 (selection_subset dq i k T S hT hS))

theorem takeWhile_eq_filter_of_sorted (i : ℕ) :
    ∀ (l : List ℕ), l.Pairwise (· < ·) →
      l.takeWhile (fun x => decide (x < i)) = l.filter (fun x => decide (x < i))
  | [], _ => rfl
  | x :: xs, h => by
    rcases List.pairwise_cons.mp h with ⟨hx, hxs⟩
    rw [List.takeWhile_cons, List.filter_cons]
    by_cases hxi : x < i
    · rw [if_pos (show decide (x < i) = true from decide_eq_true hxi),
        if_pos (show decide (x < i) = true from decide_eq_true hxi),
        takeWhile_eq_filter_of_sorted i xs hxs]
    · rw [if_neg (show ¬ (decide (x < i) = true) from by simpa using hxi),
        if_neg (show ¬ (decide (x < i) = true) from by simpa using hxi)]
      have hnil : xs.filter (fun x2 => decide (x2 < i)) = [] := by
        rw [List.filter_eq_nil_iff]
        intro a ha
        simp only [decide_eq_true_eq]
        have := hx a ha
        omega
      rw [hnil]

theorem visibleChildren_mem (n levels : ℕ) (t : CoverTree) (par lv : ℕ → ℕ)
    (hft : FinalTreeFacts n 0 levels t par lv) (i j : ℕ) (hj : j < n) (hji : j < i) :
    ∀ x, x ∈ visibleChildren t i j ↔ (x < i ∧ 1 ≤ x ∧ x < n ∧ par x = j) := by
  rcases hft.entry_spec j hj with ⟨ts, hget, hpw, hiff⟩
  have hkey : (Int.ofNat j) = ((j : ℤ) + ((0 : ℕ) : ℤ)) := by simp
  have hget2 : treeGet t (Int.ofNat j) = (j + 0) :: ts := by
    rw [hkey]
    exact hget
  intro x
  unfold visibleChildren
  rw [hget2]
  have hj0 : j + 0 = j := Nat.add_zero j
  have htw : ((j + 0) :: ts).takeWhile (fun jj => decide (jj < i)) =
      (j + 0) :: ts.takeWhile (fun jj => decide (jj < i)) :=
    List.takeWhile_cons_of_pos (decide_eq_true (hj0 ▸ hji))
  rw [htw, takeWhile_eq_filter_of_sorted i ts hpw]
  rw [List.filter_cons_of_neg (by simp [hj0])]
  constructor
  · intro hx
    rcases List.mem_filter.mp hx with ⟨hx1, hx2⟩
    rcases List.mem_filter.mp hx1 with ⟨hx3, hx4⟩
    rcases (hiff x).mp hx3 with ⟨c2, hc2n, hc2pos, hc2par, hc2x⟩
    have hxc2 : x = c2 := by omega
    subst hxc2
    exact ⟨by simpa using hx4, hc2pos, hc2n, hc2par⟩
  · intro ⟨hx1, hx2, hx3, hx4⟩
    refine List.mem_filter.mpr ⟨List.mem_filter.mpr ⟨?_, by simpa using hx1⟩, ?_⟩
    · exact (hiff x).mpr ⟨x, hx3, hx2, hx4, (Nat.add_zero x).symm⟩
    · simp only [decide_eq_true_eq]
      intro he
      have hpj := (hft.par_dom x hx3 hx2).1
      omega

theorem visibleChildren_nodup (n levels : ℕ) (t : CoverTree) (par lv : ℕ → ℕ)
    (hft : FinalTreeFacts n 0 levels t par lv) (i j : ℕ) (hj : j < n) :
    (visibleChildren t i j).Nodup := by
  rcases hft.entry_spec j hj with ⟨ts, hget, hpw, hiff⟩
  have hkey : (Int.ofNat j) = ((j : ℤ) + ((0 : ℕ) : ℤ)) := by simp
  have hget2 : treeGet t (Int.ofNat j) = (j + 0) :: ts := by
    rw [hkey]
    exact hget
  unfold visibleChildren
  rw [hget2]
  have hnd : ((j + 0) :: ts).Nodup := by
    refine List.nodup_cons.mpr ⟨?_, pairwise_lt_nodup hpw⟩
    intro hmem
    rcases (hiff (j + 0)).mp hmem with ⟨c2, hc2n, hc2pos, hc2par, hc2x⟩
    have hc2j : c2 = j := by omega
    subst hc2j
    have := (hft.par_dom c2 hc2n hc2pos).1
    omega
  exact ((List.takeWhile_sublist _).nodup hnd).filter _

theorem flatMap_nodup_of_disjoint (f : ℕ → List ℕ) :
    ∀ (D : List ℕ), D.Nodup → (∀ j ∈ D, (f j).Nodup) →
      (∀ j1 ∈ D, ∀ j2 ∈ D, ∀ x, x ∈ f j1 → x ∈ f j2 → j1 = j2) →
      (D.flatMap f).Nodup
  | [], _, _, _ => List.nodup_nil
  | j :: D, hnd, hf, hdisj => by
    rw [List.flatMap_cons]
    refine List.nodup_append.mpr ⟨hf j (List.mem_cons_self _ _), ?_, ?_⟩
    · exact flatMap_nodup_of_disjoint f D (List.nodup_cons.mp hnd).2
        (fun j2 hj2 => hf j2 (List.mem_cons_of_mem _ hj2))
        (fun j1 hj1 j2 hj2 x h1 h2 =>
          hdisj j1 (List.mem_cons_of_mem _ hj1) j2 (List.mem_cons_of_mem _ hj2) x h1 h2)
    · intro x hx hx2
      rcases List.mem_flatMap.mp hx2 with ⟨j2, hj2, hxj2⟩
      have := hdisj j (List.mem_cons_self _ _) j2 (List.mem_cons_of_mem _ hj2) x hx hxj2
      exact (List.nodup_cons.mp hnd).1 (this ▸ hj2)

theorem newChildren_perm (n levels : ℕ) (t : CoverTree) (par lv : ℕ → ℕ)
    (hft : FinalTreeFacts n 0 levels t par lv) (i : ℕ) (hi : i ≤ n) (m : ℕ) (hm : 1 ≤ m)
    (D : List ℕ)
    (hD : List.Perm D ((List.range i).filter (fun c => decide (1 ≤ c ∧ lv c = m)))) :
    List.Perm (D.flatMap (fun j => visibleChildren t i j))
      ((List.range i).filter (fun c => decide (1 ≤ c ∧ lv c = m + 1))) := by
  have hDmem : ∀ j ∈ D, j < i ∧ 1 ≤ j ∧ lv j = m := by
    intro j hj
    have := List.mem_filter.mp (hD.subset hj)
    rcases this with ⟨h1, h2⟩
    rcases decide_eq_true_eq.mp h2 with ⟨h3, h4⟩
    exact ⟨List.mem_range.mp h1, h3, h4⟩
  have hDnd : D.Nodup := hD.nodup_iff.mpr ((List.nodup_range i).filter _)
  have hsub1 : ∀ x ∈ D.flatMap (fun j => visibleChildren t i j),
      x ∈ (List.range i).filter (fun c => decide (1 ≤ c ∧ lv c = m + 1)) := by
    intro x hx
    rcases List.mem_flatMap.mp hx with ⟨j, hj, hxj⟩
    rcases hDmem j hj with ⟨hji, hj1, hjlv⟩
    have hjn : j < n := by omega
    rcases (visibleChildren_mem n levels t par lv hft i j hjn hji x).mp hxj with
      ⟨hx1, hx2, hx3, hx4⟩
    refine List.mem_filter.mpr ⟨List.mem_range.mpr hx1, ?_⟩
    refine decide_eq_true_eq.mpr ⟨hx2, ?_⟩
    have := (hft.par_dom x hx3 hx2).2
    rw [hx4, hjlv] at this
    exact this
  have hsub2 : ∀ x ∈ (List.range i).filter (fun c => decide (1 ≤ c ∧ lv c = m + 1)),
      x ∈ D.flatMap (fun j => visibleChildren t i j) := by
    intro x hx
    rcases List.mem_filter.mp hx with ⟨h1, h2⟩
    rcases decide_eq_true_eq.mp h2 with ⟨h3, h4⟩
    have hxi : x < i := List.mem_range.mp h1
    have hxn : x < n := by omega
    have hpd := hft.par_dom x hxn h3
    have hparlv : lv (par x) = m := by omega
    have hpar1 : 1 ≤ par x := by
      rcases Nat.eq_zero_or_pos (par x) with h5 | h5
      · rw [h5, hft.lv_zero] at hparlv
        omega
      · exact h5
    have hparD : par x ∈ D := by
      refine hD.symm.subset (List.mem_filter.mpr ⟨List.mem_range.mpr (by omega), ?_⟩)
      exact decide_eq_true_eq.mpr ⟨hpar1, hparlv⟩
    refine List.mem_flatMap.mpr ⟨par x, hparD, ?_⟩
    have hparn : par x < n := by omega
    have hpari : par x < i := by omega
    exact (visibleChildren_mem n levels t par lv hft i (par x) hparn hpari x).mpr
      ⟨hxi, h3, hxn, rfl⟩
  have hndflat : (D.flatMap (fun j => visibleChildren t i j)).Nodup := by
    refine flatMap_nodup_of_disjoint _ D hDnd ?_ ?_
    · intro j hj
      have hjn : j < n := by
        have := hDmem j hj
        omega
      exact visibleChildren_nodup n levels t par lv hft i j hjn
    · intro j1 hj1 j2 hj2 x hx1 hx2
      rcases hDmem j1 hj1 with ⟨h1a, _, _⟩
      rcases hDmem j2 hj2 with ⟨h2a, _, _⟩
      have hp1 := ((visibleChildren_mem n levels t par lv hft i j1 (by omega) h1a x).mp
        hx1).2.2.2
      have hp2 := ((visibleChildren_mem n levels t par lv hft i j2 (by omega) h2a x).mp
        hx2).2.2.2
      omega
  exact (List.subperm_of_subset hndflat hsub1).antisymm
    (List.subperm_of_subset ((List.nodup_range i).filter _) hsub2)

theorem filter_lv_split (lv : ℕ → ℕ) (i m : ℕ) :
    List.Perm ((List.range i).filter (fun c => decide (1 ≤ c ∧ lv c ≤ m + 1)))
      ((List.range i).filter (fun c => decide (1 ≤ c ∧ lv c ≤ m)) ++
        (List.range i).filter (fun c => decide (1 ≤ c ∧ lv c = m + 1))) := by
  have h0 := (List.filter_append_perm (fun c => decide (lv c ≤ m))
    ((List.range i).filter (fun c => decide (1 ≤ c ∧ lv c ≤ m + 1)))).symm
  refine h0.trans ?_
  have h1 : ((List.range i).filter (fun c => decide (1 ≤ c ∧ lv c ≤ m + 1))).filter
      (fun c => decide (lv c ≤ m)) =
      (List.range i).filter (fun c => decide (1 ≤ c ∧ lv c ≤ m)) := by
    rw [List.filter_filter]
    refine List.filter_congr ?_
    intro c _
    refine Bool.eq_iff_iff.mpr ?_
    simp only [Bool.and_eq_true, decide_eq_true_eq]
    omega
  have h2 : ((List.range i).filter (fun c => decide (1 ≤ c ∧ lv c ≤ m + 1))).filter
      (fun c => !(decide (lv c ≤ m))) =
      (List.range i).filter (fun c => decide (1 ≤ c ∧ lv c = m + 1)) := by
    rw [List.filter_filter]
    refine List.filter_congr ?_
    intro c _
    refine Bool.eq_iff_iff.mpr ?_
    simp only [Bool.and_eq_true, Bool.not_eq_true', decide_eq_true_eq,
      decide_eq_false_iff_not]
    omega
  rw [h1, h2]

theorem q_complete_of_lv_bound (i M : ℕ) (lv : ℕ → ℕ) (hi1 : 1 ≤ i)
    (hlv1 : ∀ c, c < i → 1 ≤ c → 1 ≤ lv c)
    (hM : ∀ c, c < i → 1 ≤ c → lv c ≤ M) :
    List.Perm (0 :: (List.range i).filter (fun c => decide (1 ≤ c ∧ lv c ≤ M)))
      (List.range i) := by
  have hnd : ((0 : ℕ) :: (List.range i).filter
      (fun c => decide (1 ≤ c ∧ lv c ≤ M))).Nodup := by
    refine List.nodup_cons.mpr ⟨?_, (List.nodup_range i).filter _⟩
    intro hmem
    rcases decide_eq_true_eq.mp (List.mem_filter.mp hmem).2 with ⟨h1, _⟩
    omega
  have hsub1 : ((0 : ℕ) :: (List.range i).filter
      (fun c => decide (1 ≤ c ∧ lv c ≤ M))) ⊆ List.range i := by
    intro c hc
    rcases List.mem_cons.mp hc with h1 | h1
    · rw [h1]
      exact List.mem_range.mpr (by omega)
    · exact (List.mem_filter.mp h1).1
  have hsub2 : List.range i ⊆ (0 : ℕ) :: (List.range i).filter
      (fun c => decide (1 ≤ c ∧ lv c ≤ M)) := by
    intro c hc
    have hci := List.mem_range.mp hc
    rcases Nat.eq_zero_or_pos c with h1 | h1
    · rw [h1]
      exact List.mem_cons_self _ _
    · refine List.mem_cons_of_mem _ (List.mem_filter.mpr ⟨hc, ?_⟩)
      exact decide_eq_true_eq.mpr ⟨h1, hM c hci h1⟩
  exact (List.subperm_of_subset hnd hsub1).antisymm
    (List.subperm_of_subset (List.nodup_range i) hsub2)

theorem lv_bound_of_level_empty (n levels : ℕ) (t : CoverTree) (par lv : ℕ → ℕ)
    (hft : FinalTreeFacts n 0 levels t par lv) (i : ℕ) (hi : i ≤ n) (m : ℕ) (hm : 1 ≤ m)
    (hempty : (List.range i).filter (fun c => decide (1 ≤ c ∧ lv c = m)) = []) :
    ∀ c, c < i → 1 ≤ c → lv c ≤ m - 1 := by
  have hne : ∀ M : ℕ, ∀ c, c < i → 1 ≤ c → lv c ≠ m + M := by
    intro M
    induction M with
    | zero =>
      intro c hci hc1 hlvc
      have hmem : c ∈ (List.range i).filter (fun c => decide (1 ≤ c ∧ lv c = m)) :=
        List.mem_filter.mpr ⟨List.mem_range.mpr hci,
          decide_eq_true_eq.mpr ⟨hc1, by omega⟩⟩
      rw [hempty] at hmem
      exact List.not_mem_nil c hmem
    | succ M ih =>
      intro c hci hc1 hlvc
      have hcn : c < n := by omega
      have hpd := hft.par_dom c hcn hc1
      have hparlv : lv (par c) = m + M := by omega
      have hpar1 : 1 ≤ par c := by
        rcases Nat.eq_zero_or_pos (par c) with h1 | h1
        · rw [h1, hft.lv_zero] at hparlv
          omega
        · exact h1
      exact ih (par c) (by omega) hpar1 hparlv
  intro c hci hc1
  by_contra hgt
  exact hne (lv c - m) c hci hc1 (by omega)

theorem findKNNLevel_no_prune_spec (dq : ℕ → ℚ) (base : ℚ) (k i levels root : ℕ)
    (tree : CoverTree) (ii : ℕ) (st : KNNQueryState) (h2 : 2 ≤ ii)
    (hτ : 1 ≤ levelThreshold dq base k i levels root tree ii st) :
    findKNNLevel dq base k i levels root tree ii st =
      (⟨st.Q ++ st.diff_rev.flatMap (fun j => visibleChildren tree i j),
        st.Q_dist ++ (st.diff_rev.flatMap (fun j => visibleChildren tree i j)).map dq,
        if (st.diff_rev.flatMap (fun j => visibleChildren tree i j)).length = 0 ∨
            ii = levels - 1 then ([] : List ℕ)
          else st.diff_rev.flatMap (fun j => visibleChildren tree i j),
        (st.Q ++ st.diff_rev.flatMap (fun j => visibleChildren tree i j)).length⟩,
      decide ((st.diff_rev.flatMap (fun j => visibleChildren tree i j)).length = 0 ∨
        ii = levels - 1)) := by
  have h1 : ¬ (ii = 1) := by omega
  simp only [levelThreshold, if_neg h1, List.nil_append] at hτ
  simp only [findKNNLevel, if_neg h1, List.nil_append]
  rw [if_pos hτ]

theorem findKNNLevel_first_spec (dq : ℕ → ℚ) (base : ℚ) (k i levels root : ℕ)
    (tree : CoverTree) (st : KNNQueryState) :
    findKNNLevel dq base k i levels root tree 1 st =
      (⟨(st.Q ++ [root]) ++ st.diff_rev.flatMap (fun j => visibleChildren tree i j),
        st.Q_dist ++
          (([root] ++ st.diff_rev.flatMap (fun j => visibleChildren tree i j)).map dq),
        if ([root] ++ st.diff_rev.flatMap (fun j => visibleChildren tree i j)).length = 0 ∨
            1 = levels - 1 then ([] : List ℕ)
          else ([root] ++ st.diff_rev.flatMap (fun j => visibleChildren tree i j)).drop 1,
        ((st.Q ++ [root]) ++ st.diff_rev.flatMap (fun j => visibleChildren tree i j)).length⟩,
      decide
        (([root] ++ st.diff_rev.flatMap (fun j => visibleChildren tree i j)).length = 0 ∨
          1 = levels - 1)) := by
  simp only [findKNNLevel, reduceIte]
  rw [if_neg (by omega : ¬ (1 : ℕ) < 1), if_pos (le_refl (1 : ℚ))]

theorem findKNNLoop_complete (dq : ℕ → ℚ) (base : ℚ) (k i levels root n : ℕ)
    (tree : CoverTree) (par lv : ℕ → ℕ)
    (hft : FinalTreeFacts n 0 levels tree par lv) (hi : i ≤ n) (hi1 : 1 ≤ i) :
    ∀ (fuel ii : ℕ) (st : KNNQueryState),
      2 ≤ ii → ii + fuel = levels → ii ≤ levels - 1 →
      noPruneLoop dq base k i levels root tree fuel ii st = true →
      List.Perm st.Q
        (0 :: (List.range i).filter (fun c => decide (1 ≤ c ∧ lv c ≤ ii - 1))) →
      st.Q_dist = st.Q.map dq →
      List.Perm st.diff_rev
        ((List.range i).filter (fun c => decide (1 ≤ c ∧ lv c = ii - 1))) →
      List.Perm (findKNNLoop dq base k i levels root tree fuel ii st).Q (List.range i) ∧
      (findKNNLoop dq base k i levels root tree fuel ii st).Q_dist =
        (findKNNLoop dq base k i levels root tree fuel ii st).Q.map dq ∧
      (findKNNLoop dq base k i levels root tree fuel ii st).Q_before_size =
        (findKNNLoop dq base k i levels root tree fuel ii st).Q.length
  | 0, ii, st, h2, hsum, hle, _, _, _, _ => absurd hsum (by omega)
  | fuel + 1, ii, st, h2, hsum, hle, hnp, hQ, hQd, hdr => by
    simp only [noPruneLoop, Bool.and_eq_true, decide_eq_true_eq] at hnp
    obtain ⟨hτ, hnp2⟩ := hnp
    have hres := findKNNLevel_no_prune_spec dq base k i levels root tree ii st h2 hτ
    have hm1 : 1 ≤ ii - 1 := by omega
    have hnew0 := newChildren_perm n levels tree par lv hft i hi (ii - 1) hm1
      st.diff_rev hdr
    have hii : (ii - 1) + 1 = ii := by omega
    rw [hii] at hnew0
    have hlv1 : ∀ c, c < i → 1 ≤ c → 1 ≤ lv c := by
      intro c hci hc1
      have := (hft.par_dom c (by omega) hc1).2
      omega
    have hQ1 : List.Perm (st.Q ++ st.diff_rev.flatMap (fun j => visibleChildren tree i j))
        (0 :: (List.range i).filter (fun c => decide (1 ≤ c ∧ lv c ≤ ii))) := by
      have hsplit := filter_lv_split lv i (ii - 1)
      rw [hii] at hsplit
      refine (hQ.append hnew0).trans ?_
      rw [List.cons_append]
      exact List.Perm.cons 0 hsplit.symm
    simp only [findKNNLoop]
    rw [hres]
    by_cases hstop : ((st.diff_rev.flatMap (fun j => visibleChildren tree i j)).length = 0 ∨
        ii = levels - 1)
    · rw [if_pos (decide_eq_true hstop)]
      have hbound : ∀ c, c < i → 1 ≤ c → lv c ≤ ii := by
        rcases hstop with hempt | hlast
        · have h5 : st.diff_rev.flatMap (fun j => visibleChildren tree i j) = [] :=
            List.length_eq_zero.mp hempt
          rw [h5] at hnew0
          have hemp2 : (List.range i).filter (fun c => decide (1 ≤ c ∧ lv c = ii)) = [] :=
            hnew0.symm.eq_nil
          have := lv_bound_of_level_empty n levels tree par lv hft i hi ii (by omega) hemp2
          intro c hci hc1
          have := this c hci hc1
          omega
        · intro c hci hc1
          have := hft.lv_le c (by omega)
          omega
      refine ⟨?_, ?_, rfl⟩
      · exact hQ1.trans (q_complete_of_lv_bound i ii lv hi1 hlv1 hbound)
      · show st.Q_dist ++ _ = _
        rw [hQd, List.map_append]
    · rw [if_neg (fun h5 => hstop (of_decide_eq_true h5))]
      rw [hres] at hnp2
      rw [if_neg (fun h5 => hstop (of_decide_eq_true h5))] at hnp2
      push_neg at hstop
      refine findKNNLoop_complete dq base k i levels root n tree par lv hft hi hi1
        fuel (ii + 1) _ (by omega) (by omega) (by omega) hnp2 ?_ ?_ ?_
      · show List.Perm (st.Q ++ st.diff_rev.flatMap (fun j => visibleChildren tree i j)) _
        have hii2 : ii + 1 - 1 = ii := by omega
        rw [hii2]
        exact hQ1
      · show st.Q_dist ++ _ = _
        rw [hQd, List.map_append]
      · show List.Perm
          (if (st.diff_rev.flatMap (fun j => visibleChildren tree i j)).length = 0 ∨
              ii = levels - 1 then ([] : List ℕ)
            else st.diff_rev.flatMap (fun j => visibleChildren tree i j)) _
        rw [if_neg (fun h5 => ?_)]
        · have hii2 : ii + 1 - 1 = ii := by omega
          rw [hii2]
          exact hnew0
        · rcases h5 with h5 | h5
          · exact hstop.1 h5
          · exact hstop.2 h5

theorem map_zip_self (f : ℕ → ℚ) : ∀ (l : List ℕ),
    (l.map f).zip l = l.map (fun x => (f x, x))
  | [] => rfl
  | x :: xs => by
    rw [List.map_cons, List.zip_cons_cons, List.map_cons, map_zip_self f xs]

theorem root_children_perm (n levels i : ℕ) (tree : CoverTree) (par lv : ℕ → ℕ)
    (hft : FinalTreeFacts n 0 levels tree par lv) (hi : i ≤ n) (hi1 : 1 ≤ i) :
    List.Perm (([0] : List ℕ).flatMap (fun j => visibleChildren tree i j))
      ((List.range i).filter (fun c => decide (1 ≤ c ∧ lv c = 1))) := by
  have h0n : 0 < n := by omega
  have hfm : ([0] : List ℕ).flatMap (fun j => visibleChildren tree i j) =
      visibleChildren tree i 0 := by
    rw [List.flatMap_cons]
    simp
  rw [hfm]
  have hvm := visibleChildren_mem n levels tree par lv hft i 0 h0n hi1
  have hsub1 : visibleChildren tree i 0 ⊆
      (List.range i).filter (fun c => decide (1 ≤ c ∧ lv c = 1)) := by
    intro x hx
    rcases (hvm x).mp hx with ⟨h1, h2, h3, h4⟩
    refine List.mem_filter.mpr ⟨List.mem_range.mpr h1, decide_eq_true_eq.mpr ⟨h2, ?_⟩⟩
    have := (hft.par_dom x h3 h2).2
    rw [h4, hft.lv_zero] at this
    exact this
  have hsub2 : (List.range i).filter (fun c => decide (1 ≤ c ∧ lv c = 1)) ⊆
      visibleChildren tree i 0 := by
    intro x hx
    rcases List.mem_filter.mp hx with ⟨h1, h2⟩
    rcases decide_eq_true_eq.mp h2 with ⟨h3, h4⟩
    have hxi := List.mem_range.mp h1
    have hxn : x < n := by omega
    have hpd := hft.par_dom x hxn h3
    have hpar0 : par x = 0 := by
      rcases Nat.eq_zero_or_pos (par x) with h5 | h5
      · exact h5
      · exfalso
        have hparn : par x < n := by omega
        have := (hft.par_dom (par x) hparn h5).2
        omega
    exact (hvm x).mpr ⟨hxi, h3, hxn, hpar0⟩
  exact (List.subperm_of_subset
      (visibleChildren_nodup n levels tree par lv hft i 0 h0n) hsub1).antisymm
    (List.subperm_of_subset ((List.nodup_range i).filter _) hsub2)

theorem filter_lv_one_eq (i : ℕ) (n : ℕ) (levels : ℕ) (tree : CoverTree)
    (par lv : ℕ → ℕ) (hft : FinalTreeFacts n 0 levels tree par lv) (hi : i ≤ n) :
    (List.range i).filter (fun c => decide (1 ≤ c ∧ lv c = 1)) =
      (List.range i).filter (fun c => decide (1 ≤ c ∧ lv c ≤ 1)) := by
  refine List.filter_congr ?_
  intro c hc
  have hci := List.mem_range.mp hc
  refine Bool.eq_iff_iff.mpr ?_
  simp only [decide_eq_true_eq]
  constructor
  · intro ⟨h1, h2⟩
    exact ⟨h1, by omega⟩
  · intro ⟨h1, h2⟩
    refine ⟨h1, ?_⟩
    have hcn : c < n := by omega
    have := (hft.par_dom c hcn h1).2
    omega

theorem findKNNFinalState_complete (dq : ℕ → ℚ) (base : ℚ) (k i levels n : ℕ)
    (tree : CoverTree) (par lv : ℕ → ℕ)
    (hft : FinalTreeFacts n 0 levels tree par lv) (hi : i ≤ n) (hi1 : 1 ≤ i)
    (hlev2 : 2 ≤ levels)
    (hnp : noPruneQuery dq base k i levels tree = true) :
    List.Perm (findKNNFinalState dq base k i levels tree).Q (List.range i) ∧
    (findKNNFinalState dq base k i levels tree).Q_dist =
      (findKNNFinalState dq base k i levels tree).Q.map dq ∧
    (findKNNFinalState dq base k i levels tree).Q_before_size =
      (findKNNFinalState dq base k i levels tree).Q.length := by
  have hroot : (treeGet tree (-1)).headD 0 = 0 := by
    rw [hft.root_entry]
    rfl
  have hlv1 : ∀ c, c < i → 1 ≤ c → 1 ≤ lv c := by
    intro c hci hc1
    have := (hft.par_dom c (by omega) hc1).2
    omega
  have hl : levels - 1 = (levels - 2) + 1 := by omega
  unfold findKNNFinalState noPruneQuery at *
  rw [hroot] at hnp ⊢
  rw [hl] at hnp ⊢
  simp only [findKNNLoop]
  simp only [noPruneLoop, Bool.and_eq_true, decide_eq_true_eq] at hnp
  obtain ⟨hτ1, hnp2⟩ := hnp
  have hres := findKNNLevel_first_spec dq base k i levels 0 tree ⟨[], [], [0], 1⟩
  rw [hres]
  rw [hres] at hnp2
  have hnew1 := root_children_perm n levels i tree par lv hft hi hi1
  have hlen1 : (([0] ++
      (([0] : List ℕ).flatMap (fun j => visibleChildren tree i j))).length = 0) = False := by
    simp
  by_cases hstop : (1 = levels - 1)
  · have hcond : (([0] ++ (([0] : List ℕ).flatMap
        (fun j => visibleChildren tree i j))).length = 0 ∨ 1 = levels - 1) :=
      Or.inr hstop
    rw [if_pos (decide_eq_true hcond)]
    refine ⟨?_, by simp, rfl⟩
    show List.Perm (([] ++ [0]) ++ ([0] : List ℕ).flatMap (fun j => visibleChildren tree i j)) _
    have hbound : ∀ c, c < i → 1 ≤ c → lv c ≤ 1 := by
      intro c hci hc1
      have := hft.lv_le c (by omega)
      omega
    have hq := q_complete_of_lv_bound i 1 lv hi1 hlv1 hbound
    rw [List.nil_append]
    refine List.Perm.trans ?_ hq
    show List.Perm ((0 : ℕ) :: ([0] : List ℕ).flatMap (fun j => visibleChildren tree i j)) _
    refine List.Perm.cons 0 ?_
    rw [← filter_lv_one_eq i n levels tree par lv hft hi]
    exact hnew1
  · have hcond : ¬ (([0] ++ (([0] : List ℕ).flatMap
        (fun j => visibleChildren tree i j))).length = 0 ∨ 1 = levels - 1) := by
      intro h5
      rcases h5 with h5 | h5
      · simp at h5
      · exact hstop h5
    rw [if_neg (fun h5 => hcond (of_decide_eq_true h5))]
    rw [if_neg (fun h5 => hcond (of_decide_eq_true h5))] at hnp2
    refine findKNNLoop_complete dq base k i levels 0 n tree par lv hft hi hi1
      (levels - 2) 2 _ (by omega) (by omega) (by omega) hnp2 ?_ ?_ ?_
    · show List.Perm (([] ++ [0]) ++ ([0] : List ℕ).flatMap (fun j => visibleChildren tree i j)) _
      rw [List.nil_append]
      show List.Perm ((0 : ℕ) :: ([0] : List ℕ).flatMap (fun j => visibleChildren tree i j)) _
      refine List.Perm.cons 0 ?_
      rw [show (2 : ℕ) - 1 = 1 from rfl, ← filter_lv_one_eq i n levels tree par lv hft hi]
      exact hnew1
    · show ([] : List ℚ) ++ _ = _
      simp
    · show List.Perm
          (if (([0] ++ (([0] : List ℕ).flatMap
              (fun j => visibleChildren tree i j))).length = 0 ∨ 1 = levels - 1) then
            ([] : List ℕ)
          else ([0] ++ (([0] : List ℕ).flatMap
              (fun j => visibleChildren tree i j))).drop 1)
          ((List.range i).filter (fun c => decide (1 ≤ c ∧ lv c = 2 - 1)))
      rw [if_neg hcond, show (2 : ℕ) - 1 = 1 from rfl]
      exact hnew1

/-- Claim C1, amended: when no pruning occurs during the level traversal
(the threshold reaches the maximal distance 1 at every executed level) and
the query distances of the candidates below i are pairwise distinct, the
k-neighbor set returned by find_kNN_CoverTree on the tree built by
CoverTree_kNN equals the brute-force k-nearest-neighbor set over the
candidates 0..i-1.  (The unamended claim is refuted by
C1_coverTree_knn_counterexample: with pruning the sets can differ.) -/
theorem C1_coverTree_knn_no_prune_exact (d : ℕ → ℕ → ℚ) (dq : ℕ → ℚ) (base : ℚ)
    (n k i levels : ℕ) (tree : CoverTree)
    (htree : CoverTree_kNN d base n 0 = some (tree, levels))
    (hn2 : 2 ≤ n) (hk : 0 < k) (hki : k ≤ i) (hin : i ≤ n)
    (hinj : ∀ a, a < i → ∀ b, b < i → dq a = dq b → a = b)
    (hnp : noPruneQuery dq base k i levels tree = true) :
    List.Perm (knnIndices (find_kNN_CoverTree dq base k i levels tree))
      (knnIndices (bruteForceKNN dq i k)) := by
  rcases CoverTree_kNN_spec d base n 0 (by omega) with ⟨t2, l2, par, lv, heq2, hft⟩
  have h6 : (t2, l2) = (tree, levels) := Option.some.inj (heq2.symm.trans htree)
  have h7 : tree = t2 := (congrArg Prod.fst h6).symm
  have h8 : levels = l2 := (congrArg Prod.snd h6).symm
  subst h7
  subst h8
  have hi1 : 1 ≤ i := by omega
  have hlev2 : 2 ≤ levels := by
    have hpd := hft.par_dom 1 (by omega) le_rfl
    have hp0 : par 1 = 0 := by omega
    have hlv1 : lv 1 = 1 := by
      have := hpd.2
      rw [hp0, hft.lv_zero] at this
      omega
    have := hft.lv_le 1 (by omega)
    omega
  rcases findKNNFinalState_complete dq base k i levels n tree par lv hft hin hi1
    hlev2 hnp with ⟨hQperm, hQdist, hQbs⟩
  have hQlen : (findKNNFinalState dq base k i levels tree).Q.length = i := by
    rw [hQperm.length_eq, List.length_range]
  have hbranch : find_kNN_CoverTree dq base k i levels tree =
      knnScanPairs k ((findKNNFinalState dq base k i levels tree).Q_dist.zip
        (findKNNFinalState dq base k i levels tree).Q) := by
    unfold find_kNN_CoverTree
    rw [if_pos (by rw [hQbs, hQlen]; exact hki)]
  rw [hbranch, hQdist, map_zip_self]
  have hnd : (findKNNFinalState dq base k i levels tree).Q.Nodup :=
    hQperm.nodup_iff.mpr (List.nodup_range i)
  have hmemQ : ∀ c, c ∈ (findKNNFinalState dq base k i levels tree).Q ↔ c < i := by
    intro c
    rw [hQperm.mem_iff, List.mem_range]
  have hsel1 := scanQ_isSelection dq i k hk (findKNNFinalState dq base k i levels tree).Q
    hnd (fun a ha b hb he => hinj a ((hmemQ a).mp ha) b ((hmemQ b).mp hb) he)
    hmemQ (by rw [hQlen]; exact hki)
  have hsel2 := bruteForceKNN_isSelection dq i k hk hki
  exact selection_unique dq i k _ _ hsel1 hsel2

/-- Witness for the amended C1 at a concrete input: three points, constant
tree oracle, query distances 0, 1 below the query point 2.  The tree is the
one CoverTree_kNN computes, no pruning occurs, and both searches return the
same single neighbor. -/
theorem C1_coverTree_knn_no_prune_exact_witness :
    CoverTree_kNN (fun _ _ => (1 : ℚ)) 2 3 0 =
      some ([((-1 : ℤ), [0]), (0, [0, 1, 2]), (1, [1]), (2, [2])], 2) ∧
    noPruneQuery (fun j => (j : ℚ)) 2 1 2 2
      [((-1 : ℤ), [0]), (0, [0, 1, 2]), (1, [1]), (2, [2])] = true ∧
    List.Perm (knnIndices (find_kNN_CoverTree (fun j => (j : ℚ)) 2 1 2 2
      [((-1 : ℤ), [0]), (0, [0, 1, 2]), (1, [1]), (2, [2])]))
      (knnIndices (bruteForceKNN (fun j => (j : ℚ)) 2 1)) :=
  ⟨by with_unfolding_all decide, by with_unfolding_all decide,
    C1_coverTree_knn_no_prune_exact (fun _ _ => 1) (fun j => (j : ℚ)) 2 3 1 2 2
      [((-1 : ℤ), [0]), (0, [0, 1, 2]), (1, [1]), (2, [2])]
      (by with_unfolding_all decide) (by decide) (by decide) (by decide) (by decide)
      (by decide)
      (by with_unfolding_all decide)⟩

theorem fstLe_refl (a : WithTop ℚ × ℕ) : fstLe a a := le_refl _

theorem insertHeapPair_pairwise_fst {p : WithTop ℚ × ℕ} :
    ∀ {l : List (WithTop ℚ × ℕ)}, l.Pairwise fstLe → (insertHeapPair p l).Pairwise fstLe
  | [], _ => by simp [insertHeapPair, List.pairwise_singleton]
  | q :: rest, h => by
    rcases List.pairwise_cons.mp h with ⟨hq, hrest⟩
    unfold insertHeapPair
    split_ifs with hlt
    · refine List.pairwise_cons.mpr ⟨?_, h⟩
      intro r hr
      rcases List.mem_cons.mp hr with rfl | hr
      · exact le_of_lt hlt
      · exact le_trans (le_of_lt hlt) (hq r hr)
    · refine List.pairwise_cons.mpr ⟨?_, insertHeapPair_pairwise_fst hrest⟩
      intro r hr
      rcases mem_insertHeapPair.mp hr with rfl | hr
      · exact le_of_not_lt hlt
      · exact hq r hr

theorem pairwise_fst_le_getLast {st : List (WithTop ℚ × ℕ)} (hne : st ≠ [])
    (hs : st.Pairwise fstLe) : ∀ p ∈ st, fstLe p (st.getLast hne) := by
  have hdec : st.dropLast ++ [st.getLast hne] = st := List.dropLast_append_getLast hne
  intro p hp
  rcases List.mem_append.mp (hdec.symm ▸ hp : p ∈ st.dropLast ++ [st.getLast hne]) with
    hp1 | hp1
  · have hs2 : (st.dropLast ++ [st.getLast hne]).Pairwise fstLe := hdec.symm ▸ hs
    exact (List.pairwise_append.mp hs2).2.2 p hp1 _ (List.mem_singleton_self _)
  · rw [List.mem_singleton.mp hp1]
    exact fstLe_refl _

theorem realEntries_eq_self_of_last_fst {st : List (WithTop ℚ × ℕ)}
    {lastp : WithTop ℚ × ℕ} (hne : st ≠ []) (hlast : st.getLast hne = lastp)
    (hs : st.Pairwise fstLe) (hl : lastp.1 ≠ ⊤) : realEntries st = st := by
  unfold realEntries
  rw [List.filter_eq_self]
  intro p hp
  have hle : p.1 ≤ lastp.1 := hlast ▸ pairwise_fst_le_getLast hne hs p hp
  simp only [decide_eq_true_eq]
  intro htop
  rw [htop] at hle
  exact hl (top_le_iff.mp hle)

theorem heapInvWeak_init (dq : ℕ → ℚ) (k : ℕ) : HeapInvWeak dq k [] (knnInit k) := by
  refine ⟨by simp [knnInit], ?_, ?_, ?_, ?_⟩
  · exact List.pairwise_replicate.mpr (Or.inr (fstLe_refl _))
  · intro p hp
    left
    rw [List.eq_of_mem_replicate hp]
  · have : realEntries (knnInit k) = [] := by
      unfold realEntries knnInit
      rw [List.filter_eq_nil_iff]
      intro p hp
      rw [List.eq_of_mem_replicate hp]
      simp
    rw [this]
    exact List.nodup_nil
  · have : realEntries (knnInit k) = [] := by
      unfold realEntries knnInit
      rw [List.filter_eq_nil_iff]
      intro p hp
      rw [List.eq_of_mem_replicate hp]
      simp
    rw [this]
    simp

theorem heapInvWeak_step (dq : ℕ → ℚ) (k : ℕ) (P : List ℕ) (j : ℕ) (hk : 0 < k)
    (hjP : j ∉ P) (st : List (WithTop ℚ × ℕ)) (h : HeapInvWeak dq k P st) :
    HeapInvWeak dq k (P ++ [j]) (knnStep st (dq j) j) := by
  have hne : st ≠ [] := by
    intro h0
    rw [h0] at h
    have := h.len
    simp at this
    omega
  have hl : st.getLast? = some (st.getLast hne) := List.getLast?_eq_getLast st hne
  set lastp := st.getLast hne with hlastp
  have hdec : st.dropLast ++ [lastp] = st := List.dropLast_append_getLast hne
  have hstep : knnStep st (dq j) j =
      if (dq j : WithTop ℚ) < lastp.1 then
        insertHeapPair ((dq j : WithTop ℚ), j) st.dropLast
      else st := by
    unfold knnStep
    rw [hl]
  by_cases hcond : (dq j : WithTop ℚ) < lastp.1
  · rw [hstep, if_pos hcond]
    have hdropsub : st.dropLast.Sublist st := List.dropLast_sublist st
    have hrealdrop : ∀ q ∈ st.dropLast, q.1 ≠ ⊤ →
        q = ((dq q.2 : WithTop ℚ), q.2) ∧ q.2 ∈ P := by
      intro q hq hqtop
      rcases h.entries q (hdropsub.subset hq) with h1 | h1
      · exact absurd h1 hqtop
      · exact h1
    have hperm : List.Perm (realEntries (insertHeapPair ((dq j : WithTop ℚ), j) st.dropLast))
        (((dq j : WithTop ℚ), j) :: realEntries st.dropLast) := by
      have h1 := realEntries_perm (insertHeapPair_perm ((dq j : WithTop ℚ), j) st.dropLast)
      have h2 : realEntries (((dq j : WithTop ℚ), j) :: st.dropLast) =
          ((dq j : WithTop ℚ), j) :: realEntries st.dropLast := by
        unfold realEntries
        rw [List.filter_cons_of_pos (by simp)]
      rw [h2] at h1
      exact h1
    have hsplit : realEntries st = realEntries st.dropLast ++ realEntries [lastp] := by
      rw [← realEntries_append, hdec]
    refine ⟨?_, ?_, ?_, ?_, ?_⟩
    · rw [insertHeapPair_length, List.length_dropLast, h.len]
      omega
    · exact insertHeapPair_pairwise_fst (h.sorted.sublist hdropsub)
    · intro p hp
      rcases mem_insertHeapPair.mp hp with rfl | hp
      · exact Or.inr ⟨rfl, List.mem_append_right _ (List.mem_singleton.mpr rfl)⟩
      · rcases h.entries p (hdropsub.subset hp) with h1 | h1
        · exact Or.inl h1
        · exact Or.inr ⟨h1.1, List.mem_append_left _ h1.2⟩
    · rw [(hperm.map Prod.snd).nodup_iff]
      refine List.nodup_cons.mpr ⟨?_, ?_⟩
      · intro hmem
        rcases List.mem_map.mp hmem with ⟨q, hq, hq2⟩
        rcases mem_realEntries.mp hq with ⟨hqd, hqtop⟩
        have hq3 : q.2 = j := hq2
        have hq4 := (hrealdrop q hqd hqtop).2
        rw [hq3] at hq4
        exact hjP hq4
      · have hsub : (realEntries st.dropLast).Sublist (realEntries st) :=
          hdropsub.filter _
        exact h.nodup_reals.sublist (hsub.map Prod.snd)
    · have hlen2 : (realEntries (insertHeapPair ((dq j : WithTop ℚ), j) st.dropLast)).length =
          (realEntries st.dropLast).length + 1 := by
        rw [hperm.length_eq, List.length_cons]
      rw [List.length_append, List.length_singleton]
      by_cases hpad : lastp.1 = ⊤
      · have hsingle : realEntries [lastp] = [] := by
          unfold realEntries
          simp [hpad]
        have hdl : (realEntries st.dropLast).length = min P.length k := by
          have := h.real_count
          rw [hsplit, hsingle, List.append_nil] at this
          exact this
        have hdlbound : (realEntries st.dropLast).length ≤ st.dropLast.length :=
          List.length_filter_le _ _
        rw [List.length_dropLast, h.len] at hdlbound
        rw [hlen2, hdl]
        omega
      · have hreals : realEntries st = st :=
          realEntries_eq_self_of_last_fst hne hlastp.symm h.sorted hpad
        have hkP : k ≤ P.length := by
          have := h.real_count
          rw [hreals, h.len] at this
          omega
        have hsingle : realEntries [lastp] = [lastp] := by
          unfold realEntries
          simp [hpad]
        have hdl : (realEntries st.dropLast).length + 1 = k := by
          have h2 := congrArg List.length hsplit
          rw [hreals, h.len, hsingle, List.length_append, List.length_singleton] at h2
          omega
        rw [hlen2, hdl]
        omega
  · rw [hstep, if_neg hcond]
    have hlastreal : lastp.1 ≠ ⊤ := by
      intro htop
      exact hcond (htop ▸ WithTop.coe_lt_top (dq j))
    have hreals : realEntries st = st :=
      realEntries_eq_self_of_last_fst hne hlastp.symm h.sorted hlastreal
    have hkP : k ≤ P.length := by
      have := h.real_count
      rw [hreals, h.len] at this
      omega
    refine ⟨h.len, h.sorted, ?_, h.nodup_reals, ?_⟩
    · intro p hp
      rcases h.entries p hp with h1 | h1
      · exact Or.inl h1
      · exact Or.inr ⟨h1.1, List.mem_append_left _ h1.2⟩
    · rw [hreals, h.len, List.length_append, List.length_singleton]
      omega

theorem heapInvWeak_scan (dq : ℕ → ℚ) (k : ℕ) (hk : 0 < k) (Q : List ℕ)
    (hnd : Q.Nodup) :
    HeapInvWeak dq k Q (knnScanPairs k (Q.map (fun j => (dq j, j)))) := by
  induction Q using List.reverseRecOn with
  | nil => exact heapInvWeak_init dq k
  | append_singleton P j ih =>
    have hrw : knnScanPairs k ((P ++ [j]).map (fun j2 => (dq j2, j2))) =
        knnStep (knnScanPairs k (P.map (fun j2 => (dq j2, j2)))) (dq j) j := by
      unfold knnScanPairs
      rw [List.map_append, List.foldl_append]
      rfl
    rw [hrw]
    have hPnd : P.Nodup := (List.nodup_append.mp hnd).1
    have hjP : j ∉ P := by
      intro hj
      exact (List.nodup_append.mp hnd).2.2 hj (List.mem_singleton.mpr rfl)
    exact heapInvWeak_step dq k P j hk hjP _ (ih hPnd)

theorem scanQ_weak_facts (dq : ℕ → ℚ) (i k : ℕ) (hk : 0 < k) (Q : List ℕ)
    (hnd : Q.Nodup) (hmemQ : ∀ c ∈ Q, c < i) (hki : k ≤ Q.length) :
    (knnIndices (knnScanPairs k (Q.map (fun j => (dq j, j))))).length = k ∧
    (knnIndices (knnScanPairs k (Q.map (fun j => (dq j, j))))).Nodup ∧
    (∀ s ∈ knnIndices (knnScanPairs k (Q.map (fun j => (dq j, j)))), s < i) := by
  have h := heapInvWeak_scan dq k hk Q hnd
  set st := knnScanPairs k (Q.map (fun j => (dq j, j))) with hst
  have hreals : realEntries st = st := by
    apply filter_eq_self_of_length
    show (realEntries st).length = st.length
    rw [h.real_count, h.len]
    omega
  refine ⟨?_, ?_, ?_⟩
  · unfold knnIndices
    rw [List.length_map, h.len]
  · unfold knnIndices
    rw [← hreals]
    exact h.nodup_reals
  · intro s hs
    rcases List.mem_map.mp hs with ⟨p, hp, rfl⟩
    rcases h.entries p hp with h1 | h1
    · exfalso
      have hmem : p ∈ realEntries st := hreals.symm ▸ hp
      exact (mem_realEntries.mp hmem).2 h1
    · exact hmemQ p.2 h1.2

theorem zip_map_self2 (f : ℕ → ℚ) : ∀ (l : List ℕ),
    l.zip (l.map f) = l.map (fun x => (x, f x))
  | [] => rfl
  | x :: xs => by
    rw [List.map_cons, List.zip_cons_cons, zip_map_self2 f xs, List.map_cons]

theorem enum_filter_map_sublist (Z : List (ℕ × ℚ)) (pred : ℕ × (ℕ × ℚ) → Bool) :
    ((Z.enum.filter pred).map (fun p => p.2.1)).Sublist (Z.map Prod.fst) := by
  have h1 : (Z.enum.filter pred).Sublist Z.enum := List.filter_sublist _
  have h2 := h1.map Prod.snd
  rw [List.enum_map_snd] at h2
  have h3 := h2.map Prod.fst
  rw [List.map_map] at h3
  exact h3

theorem findKNNLevel_prune_spec (dq : ℕ → ℚ) (base : ℚ) (k i levels root : ℕ)
    (tree : CoverTree) (ii : ℕ) (st : KNNQueryState) (h2 : 2 ≤ ii)
    (hτ : ¬ 1 ≤ levelThreshold dq base k i levels root tree ii st) :
    findKNNLevel dq base k i levels root tree ii st =
      (⟨((((st.Q ++ st.diff_rev.flatMap (fun j => visibleChildren tree i j)).zip
            (st.Q_dist ++
              (st.diff_rev.flatMap (fun j => visibleChildren tree i j)).map dq)).enum).filter
            (fun p => p.2.2 ≤ levelThreshold dq base k i levels root tree ii st)).map
          (fun p => p.2.1),
        ((((st.Q ++ st.diff_rev.flatMap (fun j => visibleChildren tree i j)).zip
            (st.Q_dist ++
              (st.diff_rev.flatMap (fun j => visibleChildren tree i j)).map dq)).enum).filter
            (fun p => p.2.2 ≤ levelThreshold dq base k i levels root tree ii st)).map
          (fun p => p.2.2),
        (((((st.Q ++ st.diff_rev.flatMap (fun j => visibleChildren tree i j)).zip
            (st.Q_dist ++
              (st.diff_rev.flatMap (fun j => visibleChildren tree i j)).map dq)).enum).filter
            (fun p => p.2.2 ≤ levelThreshold dq base k i levels root tree ii st)).filter
            (fun p => st.Q_before_size ≤ p.1)).map (fun p => p.2.1),
        (((((st.Q ++ st.diff_rev.flatMap (fun j => visibleChildren tree i j)).zip
            (st.Q_dist ++
              (st.diff_rev.flatMap (fun j => visibleChildren tree i j)).map dq)).enum).filter
            (fun p => p.2.2 ≤ levelThreshold dq base k i levels root tree ii st)).map
          (fun p => p.2.1)).length⟩,
      decide ((st.diff_rev.flatMap (fun j => visibleChildren tree i j)).length = 0 ∨
        ii = levels - 1)) := by
  have h1 : ¬ (ii = 1) := by omega
  simp only [levelThreshold, if_neg h1, List.nil_append] at hτ ⊢
  simp only [findKNNLevel, if_neg h1, List.nil_append]
  rw [if_neg hτ]

theorem newChildren_facts (n levels i : ℕ) (tree : CoverTree) (par lv : ℕ → ℕ)
    (hft : FinalTreeFacts n 0 levels tree par lv) (hi : i ≤ n) (m : ℕ)
    (D : List ℕ) (hDnd : D.Nodup) (hDmem : ∀ c ∈ D, c < i ∧ 1 ≤ c ∧ lv c = m) :
    (D.flatMap (fun j => visibleChildren tree i j)).Nodup ∧
    (∀ c ∈ D.flatMap (fun j => visibleChildren tree i j),
      c < i ∧ 1 ≤ c ∧ lv c = m + 1) := by
  constructor
  · refine flatMap_nodup_of_disjoint _ D hDnd ?_ ?_
    · intro j hj
      have := hDmem j hj
      exact visibleChildren_nodup n levels tree par lv hft i j (by omega)
    · intro j1 hj1 j2 hj2 x hx1 hx2
      rcases hDmem j1 hj1 with ⟨h1a, _, _⟩
      rcases hDmem j2 hj2 with ⟨h2a, _, _⟩
      have hp1 := ((visibleChildren_mem n levels tree par lv hft i j1 (by omega) h1a x).mp
        hx1).2.2.2
      have hp2 := ((visibleChildren_mem n levels tree par lv hft i j2 (by omega) h2a x).mp
        hx2).2.2.2
      omega
  · intro c hc
    rcases List.mem_flatMap.mp hc with ⟨j, hj, hcj⟩
    rcases hDmem j hj with ⟨hji, hj1, hjlv⟩
    rcases (visibleChildren_mem n levels tree par lv hft i j (by omega) hji c).mp hcj with
      ⟨hc1, hc2, hc3, hc4⟩
    refine ⟨hc1, hc2, ?_⟩
    have := (hft.par_dom c hc3 hc2).2
    rw [hc4, hjlv] at this
    omega

theorem findKNNLoop_wf (dq : ℕ → ℚ) (base : ℚ) (k i levels root n : ℕ)
    (tree : CoverTree) (par lv : ℕ → ℕ)
    (hft : FinalTreeFacts n 0 levels tree par lv) (hi : i ≤ n) :
    ∀ (fuel ii : ℕ) (st : KNNQueryState),
      2 ≤ ii →
      st.Q.Nodup →
      (∀ c ∈ st.Q, c < i ∧ lv c ≤ ii - 1) →
      st.Q_dist = st.Q.map dq →
      st.Q_before_size = st.Q.length →
      st.diff_rev.Nodup →
      (∀ c ∈ st.diff_rev, c < i ∧ 1 ≤ c ∧ lv c = ii - 1) →
      (findKNNLoop dq base k i levels root tree fuel ii st).Q.Nodup ∧
      (∀ c ∈ (findKNNLoop dq base k i levels root tree fuel ii st).Q, c < i) ∧
      (findKNNLoop dq base k i levels root tree fuel ii st).Q_dist =
        (findKNNLoop dq base k i levels root tree fuel ii st).Q.map dq ∧
      (findKNNLoop dq base k i levels root tree fuel ii st).Q_before_size =
        (findKNNLoop dq base k i levels root tree fuel ii st).Q.length
  | 0, ii, st, _, hQnd, hQmem, hQd, hQbs, _, _ =>
    ⟨hQnd, fun c hc => (hQmem c hc).1, hQd, hQbs⟩
  | fuel + 1, ii, st, h2, hQnd, hQmem, hQd, hQbs, hDnd, hDmem => by
    have hEfacts := newChildren_facts n levels i tree par lv hft hi (ii - 1)
      st.diff_rev hDnd hDmem
    have hii : (ii - 1) + 1 = ii := by omega
    rw [hii] at hEfacts
    obtain ⟨hEnd, hEmem⟩ := hEfacts
    have hEfresh : ∀ c ∈ st.diff_rev.flatMap (fun j => visibleChildren tree i j),
        c ∉ st.Q := by
      intro c hc hcq
      have h3 := (hEmem c hc).2.2
      have h4 := (hQmem c hcq).2
      omega
    have hQ1nd : (st.Q ++ st.diff_rev.flatMap (fun j => visibleChildren tree i j)).Nodup :=
      List.nodup_append.mpr ⟨hQnd, hEnd, fun a ha hb => hEfresh a hb ha⟩
    have hQ1mem : ∀ c ∈ st.Q ++ st.diff_rev.flatMap (fun j => visibleChildren tree i j),
        c < i ∧ lv c ≤ ii := by
      intro c hc
      rcases List.mem_append.mp hc with h3 | h3
      · have := hQmem c h3
        omega
      · have := hEmem c h3
        omega
    simp only [findKNNLoop]
    by_cases hτ : 1 ≤ levelThreshold dq base k i levels root tree ii st
    · rw [findKNNLevel_no_prune_spec dq base k i levels root tree ii st h2 hτ]
      by_cases hstop :
          ((st.diff_rev.flatMap (fun j => visibleChildren tree i j)).length = 0 ∨
            ii = levels - 1)
      · rw [if_pos (decide_eq_true hstop)]
        refine ⟨hQ1nd, fun c hc => (hQ1mem c hc).1, ?_, rfl⟩
        show st.Q_dist ++ _ = _
        rw [hQd, List.map_append]
      · rw [if_neg (fun h5 => hstop (of_decide_eq_true h5))]
        refine findKNNLoop_wf dq base k i levels root n tree par lv hft hi fuel (ii + 1)
          _ (by omega) hQ1nd ?_ ?_ rfl ?_ ?_
        · intro c hc
          have := hQ1mem c hc
          omega
        · show st.Q_dist ++ _ = _
          rw [hQd, List.map_append]
        · show (if _ then ([] : List ℕ) else _).Nodup
          rw [if_neg hstop]
          exact hEnd
        · intro c hc
          rw [if_neg hstop] at hc
          have := hEmem c hc
          omega
    · rw [findKNNLevel_prune_spec dq base k i levels root tree ii st h2 hτ]
      have hZeq : st.Q_dist ++
          (st.diff_rev.flatMap (fun j => visibleChildren tree i j)).map dq =
          (st.Q ++ st.diff_rev.flatMap (fun j => visibleChildren tree i j)).map dq := by
        rw [hQd, List.map_append]
      have hZ2 : (st.Q ++ st.diff_rev.flatMap (fun j => visibleChildren tree i j)).zip
          (st.Q_dist ++ (st.diff_rev.flatMap (fun j => visibleChildren tree i j)).map dq) =
          (st.Q ++ st.diff_rev.flatMap (fun j => visibleChildren tree i j)).map
            (fun x => (x, dq x)) := by
        rw [hZeq, zip_map_self2]
      have hZfst : ((st.Q ++ st.diff_rev.flatMap (fun j => visibleChildren tree i j)).zip
          (st.Q_dist ++
            (st.diff_rev.flatMap (fun j => visibleChildren tree i j)).map dq)).map
          Prod.fst = st.Q ++ st.diff_rev.flatMap (fun j => visibleChildren tree i j) :=
        List.map_fst_zip _ _ (le_of_eq (by rw [hZeq, List.length_map]))
      have hkeptsnd : ∀ pr ∈ (((st.Q ++
          st.diff_rev.flatMap (fun j => visibleChildren tree i j)).zip
            (st.Q_dist ++
              (st.diff_rev.flatMap (fun j => visibleChildren tree i j)).map dq)).enum).filter
            (fun p => p.2.2 ≤ levelThreshold dq base k i levels root tree ii st),
          pr.2.2 = dq pr.2.1 := by
        intro pr hpr
        have hpz := List.mem_of_mem_filter hpr
        have hmem2 := List.getElem?_mem (List.mem_enum_iff_getElem?.mp hpz)
        rw [hZ2] at hmem2
        rcases List.mem_map.mp hmem2 with ⟨x, _, he⟩
        rw [← he]
      have hQ2sub : (((((st.Q ++
          st.diff_rev.flatMap (fun j => visibleChildren tree i j)).zip
            (st.Q_dist ++
              (st.diff_rev.flatMap (fun j => visibleChildren tree i j)).map dq)).enum).filter
            (fun p => p.2.2 ≤ levelThreshold dq base k i levels root tree ii st)).map
          (fun p => p.2.1)).Sublist
          (st.Q ++ st.diff_rev.flatMap (fun j => visibleChildren tree i j)) := by
        have h9 := enum_filter_map_sublist
          ((st.Q ++ st.diff_rev.flatMap (fun j => visibleChildren tree i j)).zip
            (st.Q_dist ++
              (st.diff_rev.flatMap (fun j => visibleChildren tree i j)).map dq))
          (fun p => decide (p.2.2 ≤ levelThreshold dq base k i levels root tree ii st))
        rw [hZfst] at h9
        exact h9
      have hQ2nd := hQ2sub.nodup hQ1nd
      have hQ2mem : ∀ c ∈ ((((st.Q ++
          st.diff_rev.flatMap (fun j => visibleChildren tree i j)).zip
            (st.Q_dist ++
              (st.diff_rev.flatMap (fun j => visibleChildren tree i j)).map dq)).enum).filter
            (fun p => p.2.2 ≤ levelThreshold dq base k i levels root tree ii st)).map
          (fun p => p.2.1), c < i ∧ lv c ≤ ii :=
        fun c hc => hQ1mem c (hQ2sub.subset hc)
      have hQd2 : (((((st.Q ++
          st.diff_rev.flatMap (fun j => visibleChildren tree i j)).zip
            (st.Q_dist ++
              (st.diff_rev.flatMap (fun j => visibleChildren tree i j)).map dq)).enum).filter
            (fun p => p.2.2 ≤ levelThreshold dq base k i levels root tree ii st)).map
          (fun p => p.2.2)) = (((((st.Q ++
          st.diff_rev.flatMap (fun j => visibleChildren tree i j)).zip
            (st.Q_dist ++
              (st.diff_rev.flatMap (fun j => visibleChildren tree i j)).map dq)).enum).filter
            (fun p => p.2.2 ≤ levelThreshold dq base k i levels root tree ii st)).map
          (fun p => p.2.1)).map dq := by
        rw [List.map_map]
        exact List.map_congr_left hkeptsnd
      by_cases hstop :
          ((st.diff_rev.flatMap (fun j => visibleChildren tree i j)).length = 0 ∨
            ii = levels - 1)
      · rw [if_pos (decide_eq_true hstop)]
        exact ⟨hQ2nd, fun c hc => (hQ2mem c hc).1, hQd2, rfl⟩
      · rw [if_neg (fun h5 => hstop (of_decide_eq_true h5))]
        have hdrsub : ((((((st.Q ++
            st.diff_rev.flatMap (fun j => visibleChildren tree i j)).zip
              (st.Q_dist ++
                (st.diff_rev.flatMap (fun j => visibleChildren tree i j)).map dq)).enum).filter
              (fun p => p.2.2 ≤ levelThreshold dq base k i levels root tree ii st)).filter
              (fun p => st.Q_before_size ≤ p.1)).map (fun p => p.2.1)).Sublist
            (st.Q ++ st.diff_rev.flatMap (fun j => visibleChildren tree i j)) := by
          rw [List.filter_filter]
          have h9 := enum_filter_map_sublist
            ((st.Q ++ st.diff_rev.flatMap (fun j => visibleChildren tree i j)).zip
              (st.Q_dist ++
                (st.diff_rev.flatMap (fun j => visibleChildren tree i j)).map dq))
            (fun p => decide (st.Q_before_size ≤ p.1) &&
              decide (p.2.2 ≤ levelThreshold dq base k i levels root tree ii st))
          rw [hZfst] at h9
          exact h9
        have hdrmem : ∀ c ∈ ((((((st.Q ++
            st.diff_rev.flatMap (fun j => visibleChildren tree i j)).zip
              (st.Q_dist ++
                (st.diff_rev.flatMap (fun j => visibleChildren tree i j)).map dq)).enum).filter
              (fun p => p.2.2 ≤ levelThreshold dq base k i levels root tree ii st)).filter
              (fun p => st.Q_before_size ≤ p.1)).map (fun p => p.2.1)),
            c < i ∧ 1 ≤ c ∧ lv c = ii := by
          intro c hc
          rcases List.mem_map.mp hc with ⟨pr, hpr, he⟩
          have hpos : st.Q_before_size ≤ pr.1 :=
            of_decide_eq_true (List.mem_filter.mp hpr).2
          have hpk := List.mem_of_mem_filter hpr
          have hpz := List.mem_of_mem_filter hpk
          have hget := List.mem_enum_iff_getElem?.mp hpz
          have hsplitz : (st.Q ++ st.diff_rev.flatMap (fun j => visibleChildren tree i j)).zip
              (st.Q_dist ++
                (st.diff_rev.flatMap (fun j => visibleChildren tree i j)).map dq) =
              st.Q.zip st.Q_dist ++
                (st.diff_rev.flatMap (fun j => visibleChildren tree i j)).zip
                  ((st.diff_rev.flatMap (fun j => visibleChildren tree i j)).map dq) :=
            List.zip_append (by rw [hQd, List.length_map])
          rw [hsplitz] at hget
          have hlenA : (st.Q.zip st.Q_dist).length = st.Q.length := by
            rw [List.length_zip, hQd, List.length_map]
            omega
          rw [List.getElem?_append_right (by rw [hlenA]; omega)] at hget
          have hmem2 := List.getElem?_mem hget
          rw [zip_map_self2] at hmem2
          rcases List.mem_map.mp hmem2 with ⟨x, hx, he2⟩
          have he3 : pr.2.1 = x := by
            rw [← he2]
          rw [← he, he3]
          exact hEmem x hx
        refine findKNNLoop_wf dq base k i levels root n tree par lv hft hi fuel (ii + 1)
          _ (by omega) hQ2nd ?_ hQd2 rfl (hdrsub.nodup hQ1nd) ?_
        · intro c hc
          have := hQ2mem c hc
          omega
        · intro c hc
          have := hdrmem c hc
          omega

theorem findKNNFinalState_wf (dq : ℕ → ℚ) (base : ℚ) (k i levels n : ℕ)
    (tree : CoverTree) (par lv : ℕ → ℕ)
    (hft : FinalTreeFacts n 0 levels tree par lv) (hi : i ≤ n) (hi1 : 1 ≤ i)
    (hlev2 : 2 ≤ levels) :
    (findKNNFinalState dq base k i levels tree).Q.Nodup ∧
    (∀ c ∈ (findKNNFinalState dq base k i levels tree).Q, c < i) ∧
    (findKNNFinalState dq base k i levels tree).Q_dist =
      (findKNNFinalState dq base k i levels tree).Q.map dq ∧
    (findKNNFinalState dq base k i levels tree).Q_before_size =
      (findKNNFinalState dq base k i levels tree).Q.length := by
  have hroot : (treeGet tree (-1)).headD 0 = 0 := by
    rw [hft.root_entry]
    rfl
  have hl : levels - 1 = (levels - 2) + 1 := by omega
  unfold findKNNFinalState
  rw [hroot, hl]
  simp only [findKNNLoop]
  rw [findKNNLevel_first_spec dq base k i levels 0 tree ⟨[], [], [0], 1⟩]
  have hfm : (([0] : List ℕ)).flatMap (fun j => visibleChildren tree i j) =
      visibleChildren tree i 0 := by
    rw [List.flatMap_cons]
    simp
  have hvm := visibleChildren_mem n levels tree par lv hft i 0 (by omega) hi1
  have hnewmem : ∀ c ∈ ([0] : List ℕ).flatMap (fun j => visibleChildren tree i j),
      c < i ∧ 1 ≤ c ∧ lv c = 1 := by
    intro c hc
    rw [hfm] at hc
    rcases (hvm c).mp hc with ⟨h1, h2, h3, h4⟩
    refine ⟨h1, h2, ?_⟩
    have := (hft.par_dom c h3 h2).2
    rw [h4, hft.lv_zero] at this
    omega
  have hnewnd : (([0] : List ℕ).flatMap (fun j => visibleChildren tree i j)).Nodup := by
    rw [hfm]
    exact visibleChildren_nodup n levels tree par lv hft i 0 (by omega)
  have hQ1nd : ((([] : List ℕ) ++ [0]) ++
      ([0] : List ℕ).flatMap (fun j => visibleChildren tree i j)).Nodup := by
    rw [List.nil_append]
    refine List.nodup_append.mpr ⟨List.nodup_singleton 0, hnewnd, ?_⟩
    intro a ha hb
    rw [List.mem_singleton.mp ha] at hb
    have := (hnewmem 0 hb).2.1
    omega
  have hQ1mem : ∀ c ∈ (([] : List ℕ) ++ [0]) ++
      ([0] : List ℕ).flatMap (fun j => visibleChildren tree i j), c < i ∧ lv c ≤ 1 := by
    intro c hc
    rw [List.nil_append] at hc
    rcases List.mem_append.mp hc with h3 | h3
    · rw [List.mem_singleton.mp h3]
      rw [hft.lv_zero]
      omega
    · have := hnewmem c h3
      omega
  by_cases hstop : ((([0] ++ (([0] : List ℕ).flatMap
      (fun j => visibleChildren tree i j))).length = 0) ∨ 1 = levels - 1)
  · rw [if_pos (decide_eq_true hstop)]
    refine ⟨hQ1nd, fun c hc => (hQ1mem c hc).1, ?_, rfl⟩
    show ([] : List ℚ) ++ _ = _
    simp
  · rw [if_neg (fun h5 => hstop (of_decide_eq_true h5))]
    refine findKNNLoop_wf dq base k i levels 0 n tree par lv hft hi (levels - 2) 2 _
      (by omega) hQ1nd hQ1mem ?_ rfl ?_ ?_
    · show ([] : List ℚ) ++ _ = _
      simp
    · show (if _ then ([] : List ℕ) else
        ([0] ++ (([0] : List ℕ).flatMap (fun j => visibleChildren tree i j))).drop 1).Nodup
      rw [if_neg hstop]
      exact hnewnd
    · intro c hc
      show c < i ∧ 1 ≤ c ∧ lv c = 2 - 1
      rw [if_neg hstop] at hc
      exact hnewmem c hc

theorem clamp_no_clamp (n k : ℕ) (hk : k < n) :
    clamp_num_neighbors n k (-1) = (k, false) := by
  unfold clamp_num_neighbors effective_end_search_at
  rw [if_pos (by omega : (-1 : ℤ) < 0), if_neg (by omega : ¬ ((k : ℤ) > (n : ℤ) - 2 + 1))]

theorem FSA_fast_initSmall (d : ℕ → ℕ → ℚ) (base : ℚ)
    (num_data num_neighbors_in : ℕ) (end_search_at : ℤ) (start_at num_data_obs : ℕ)
    (prediction cond_on_all : Bool) (i : ℕ)
    (h : regimeOf num_data (clamp_num_neighbors num_data num_neighbors_in end_search_at).1
      start_at prediction i = Regime.initSmall) :
    find_nearest_neighbors_Vecchia_FSA_fast d base num_data num_neighbors_in end_search_at
      start_at num_data_obs prediction cond_on_all i = List.range i := by
  simp only [find_nearest_neighbors_Vecchia_FSA_fast, h]

theorem FSA_fast_brute (d : ℕ → ℕ → ℚ) (base : ℚ)
    (num_data num_neighbors_in : ℕ) (end_search_at : ℤ) (start_at num_data_obs : ℕ)
    (prediction cond_on_all : Bool) (i : ℕ)
    (h : regimeOf num_data (clamp_num_neighbors num_data num_neighbors_in end_search_at).1
      start_at prediction i = Regime.brute) :
    find_nearest_neighbors_Vecchia_FSA_fast d base num_data num_neighbors_in end_search_at
      start_at num_data_obs prediction cond_on_all i =
      knnIndices (bruteForceKNN (fun j => d i j)
        (min i (max_ind_nn num_data num_data_obs cond_on_all))
        (clamp_num_neighbors num_data num_neighbors_in end_search_at).1) := by
  simp only [find_nearest_neighbors_Vecchia_FSA_fast, h]

theorem FSA_fast_cover (d : ℕ → ℕ → ℚ) (base : ℚ)
    (num_data num_neighbors_in : ℕ) (end_search_at : ℤ) (start_at num_data_obs : ℕ)
    (prediction cond_on_all : Bool) (i : ℕ)
    (h : regimeOf num_data (clamp_num_neighbors num_data num_neighbors_in end_search_at).1
      start_at prediction i = Regime.cover) :
    find_nearest_neighbors_Vecchia_FSA_fast d base num_data num_neighbors_in end_search_at
      start_at num_data_obs prediction cond_on_all i =
      knnIndices (find_kNN_CoverTree (fun j => d i j) base
        (clamp_num_neighbors num_data num_neighbors_in end_search_at).1 i
        ((CoverTree_kNN d base
          (if prediction ∧ ¬cond_on_all then num_data_obs else num_data) 0).getD
            ([], 0)).2
        ((CoverTree_kNN d base
          (if prediction ∧ ¬cond_on_all then num_data_obs else num_data) 0).getD
            ([], 0)).1) := by
  simp only [find_nearest_neighbors_Vecchia_FSA_fast, h]

theorem find_kNN_facts (dq : ℕ → ℚ) (base : ℚ) (k i levels n : ℕ)
    (tree : CoverTree) (par lv : ℕ → ℕ)
    (hft : FinalTreeFacts n 0 levels tree par lv) (hi : i ≤ n) (hk : 0 < k)
    (hki : k ≤ i) (hlev2 : 2 ≤ levels) :
    (knnIndices (find_kNN_CoverTree dq base k i levels tree)).length = k ∧
    (knnIndices (find_kNN_CoverTree dq base k i levels tree)).Nodup ∧
    (∀ s ∈ knnIndices (find_kNN_CoverTree dq base k i levels tree), s < i) := by
  obtain ⟨hnd, hmem, hdist, hbs⟩ :=
    findKNNFinalState_wf dq base k i levels n tree par lv hft hi (by omega) hlev2
  unfold find_kNN_CoverTree
  by_cases hb : k ≤ (findKNNFinalState dq base k i levels tree).Q_before_size
  · rw [if_pos hb]
    rw [hdist, map_zip_self]
    refine scanQ_weak_facts dq i k hk _ hnd hmem ?_
    rw [hbs] at hb
    exact hb
  · rw [if_neg hb]
    have hsel := bruteForceKNN_isSelection dq i k hk hki
    exact ⟨hsel.1, hsel.2.1, hsel.2.2.1⟩

theorem neighbors_facts_training (d : ℕ → ℕ → ℚ) (base : ℚ) (n k : ℕ)
    (hk : 0 < k) (hkn : k < n) (i : ℕ) (hin : i < n) :
    (find_nearest_neighbors_Vecchia_FSA_fast d base n k (-1) 0 n false false i).length =
      min k i ∧
    (find_nearest_neighbors_Vecchia_FSA_fast d base n k (-1) 0 n false false i).Nodup ∧
    (∀ j ∈ find_nearest_neighbors_Vecchia_FSA_fast d base n k (-1) 0 n false false i,
      j < i) := by
  have hclamp : clamp_num_neighbors n k (-1) = (k, false) := clamp_no_clamp n k hkn
  have hc1 : (clamp_num_neighbors n k (-1)).1 = k := by rw [hclamp]
  have hmaxind : max_ind_nn n n false = n := rfl
  by_cases h6 : i ≤ k
  · have hreg : regimeOf n (clamp_num_neighbors n k (-1)).1 0 false i =
        Regime.initSmall := by
      rw [hc1]
      unfold regimeOf
      rw [if_pos h6]
    rw [FSA_fast_initSmall d base n k (-1) 0 n false false i hreg]
    exact ⟨by rw [List.length_range]; omega, List.nodup_range i,
      fun j hj => List.mem_range.mp hj⟩
  · by_cases h7 : i < brute_force_threshold n k 0 false
    · have hreg : regimeOf n (clamp_num_neighbors n k (-1)).1 0 false i =
          Regime.brute := by
        rw [hc1]
        unfold regimeOf
        rw [if_neg h6, if_pos h7]
      rw [FSA_fast_brute d base n k (-1) 0 n false false i hreg]
      rw [hc1, hmaxind, min_eq_left (le_of_lt hin)]
      have hsel := bruteForceKNN_isSelection (fun j => d i j) i k hk (by omega)
      exact ⟨by rw [hsel.1]; omega, hsel.2.1, hsel.2.2.1⟩
    · have hreg : regimeOf n (clamp_num_neighbors n k (-1)).1 0 false i =
          Regime.cover := by
        rw [hc1]
        unfold regimeOf
        rw [if_neg h6, if_neg h7]
      rw [FSA_fast_cover d base n k (-1) 0 n false false i hreg]
      rcases CoverTree_kNN_spec d base n 0 (by omega) with ⟨t2, l2, par, lv, heq2, hft⟩
      have htn : (if false ∧ ¬false then n else n) = n := rfl
      rw [hc1, htn, heq2]
      simp only [Option.getD_some]
      have hlev2 : 2 ≤ l2 := by
        have hpd := hft.par_dom 1 (by omega) le_rfl
        have hp0 : par 1 = 0 := by omega
        have hlv1 : lv 1 = 1 := by
          have := hpd.2
          rw [hp0, hft.lv_zero] at this
          omega
        have := hft.lv_le 1 (by omega)
        omega
      have hfacts := find_kNN_facts (fun j => d i j) base k i l2 n t2 par lv hft
        (by omega) hk (by omega) hlev2
      exact ⟨by rw [hfacts.1]; omega, hfacts.2.1, hfacts.2.2⟩

theorem setFromTriplets_append (ts1 ts2 : List (ℕ × ℕ × ℚ)) (i j : ℕ) :
    setFromTriplets (ts1 ++ ts2) i j = setFromTriplets ts1 i j + setFromTriplets ts2 i j := by
  unfold setFromTriplets
  rw [List.filter_append, List.map_append, List.sum_append]

theorem setFromTriplets_zero_of_rows (ts : List (ℕ × ℕ × ℚ)) (i j : ℕ)
    (h : ∀ t ∈ ts, t.1 ≠ i) : setFromTriplets ts i j = 0 := by
  unfold setFromTriplets
  have hfil : ts.filter (fun t => decide (t.1 = i ∧ t.2.1 = j)) = [] := by
    rw [List.filter_eq_nil_iff]
    intro t ht
    simp only [decide_eq_true_eq]
    intro ⟨h1, _⟩
    exact h t ht h1
  rw [hfil]
  rfl

theorem setFromTriplets_flatMap_row (F : ℕ → List (ℕ × ℕ × ℚ))
    (hrow : ∀ i2, ∀ t ∈ F i2, t.1 = i2) (i j : ℕ) :
    ∀ (L : List ℕ), L.Nodup → i ∈ L →
      setFromTriplets (L.flatMap F) i j = setFromTriplets (F i) i j
  | [], _, hmem => absurd hmem (List.not_mem_nil i)
  | a :: L2, hnd, hmem => by
    rw [List.flatMap_cons, setFromTriplets_append]
    by_cases ha : a = i
    · subst ha
      have hzero : setFromTriplets (L2.flatMap F) a j = 0 := by
        refine setFromTriplets_zero_of_rows _ a j ?_
        intro t ht he
        rcases List.mem_flatMap.mp ht with ⟨i2, hi2, hti2⟩
        rw [hrow i2 t hti2] at he
        exact (List.nodup_cons.mp hnd).1 (he ▸ hi2)
      rw [hzero, add_zero]
    · have hmem2 : i ∈ L2 := by
        rcases List.mem_cons.mp hmem with h1 | h1
        · exact absurd h1.symm ha
        · exact h1
      have hzero : setFromTriplets (F a) i j = 0 := by
        refine setFromTriplets_zero_of_rows _ i j ?_
        intro t ht he
        exact ha ((hrow a t ht).symm.trans he)
      rw [hzero, zero_add]
      exact setFromTriplets_flatMap_row F hrow i j L2 (List.nodup_cons.mp hnd).2 hmem2

theorem setFromTriplets_row_val (N : ℕ → List ℕ) (i j : ℕ) :
    setFromTriplets ((N i).map (fun j2 => (i, j2, (0 : ℚ))) ++ [(i, i, 1)]) i j =
      if j = i then 1 else 0 := by
  rw [setFromTriplets_append]
  have hzeros : setFromTriplets ((N i).map (fun j2 => (i, j2, (0 : ℚ)))) i j = 0 := by
    unfold setFromTriplets
    refine List.sum_eq_zero ?_
    intro x hx
    rcases List.mem_map.mp hx with ⟨t, ht, he⟩
    have ht2 := List.mem_of_mem_filter ht
    rcases List.mem_map.mp ht2 with ⟨j2, _, he2⟩
    rw [← he, ← he2]
  rw [hzeros, zero_add]
  unfold setFromTriplets
  by_cases hj : j = i
  · subst hj
    rw [List.filter_cons_of_pos (by simp)]
    simp
  · rw [List.filter_cons_of_neg
        (by simp only [decide_eq_true_eq]; intro h5; exact hj h5.2.symm), if_neg hj]
    rfl

theorem initTriplets_val (N : ℕ → List ℕ) (n i j : ℕ) (hin : i < n) :
    setFromTriplets (initTriplets N n) i j = if j = i then 1 else 0 := by
  unfold initTriplets
  rw [setFromTriplets_flatMap_row
    (fun i2 => (N i2).map (fun j2 => (i2, j2, (0 : ℚ))) ++ [(i2, i2, 1)]) ?_ i j
    (List.range n) (List.nodup_range n) (List.mem_range.mpr hin)]
  · exact setFromTriplets_row_val N i j
  · intro i2 t ht
    rcases List.mem_append.mp ht with h1 | h1
    · rcases List.mem_map.mp h1 with ⟨j2, _, he⟩
      rw [← he]
    · rw [List.mem_singleton.mp h1]

theorem applyWrites_no_match (i j : ℕ) :
    ∀ (ws : List (ℕ × ℕ × ℚ)) (B : ℕ → ℕ → ℚ),
      (∀ w ∈ ws, ¬ (i = w.1 ∧ j = w.2.1)) → applyWrites B ws i j = B i j
  | [], B, _ => rfl
  | w :: ws, B, h => by
    show applyWrites _ ws i j = B i j
    rw [applyWrites_no_match i j ws _ (fun w2 hw2 => h w2 (List.mem_cons_of_mem _ hw2))]
    exact if_neg (h w (List.mem_cons_self _ _))

theorem vecchiaWrites_match (N : ℕ → List ℕ) (A : ℕ → ℕ → ℚ) (n i j : ℕ)
    (h : ∃ w ∈ vecchiaWrites N A n, i = w.1 ∧ j = w.2.1) : j ∈ N i := by
  rcases h with ⟨w, hw, h1, h2⟩
  unfold vecchiaWrites at hw
  rcases List.mem_flatMap.mp hw with ⟨i2, _, hwi2⟩
  by_cases hz : i2 = 0
  · rw [if_pos hz] at hwi2
    exact absurd hwi2 (List.not_mem_nil w)
  · rw [if_neg hz] at hwi2
    rcases List.mem_map.mp hwi2 with ⟨inn, hinn, he⟩
    have hinn2 : inn < (N i2).length := List.mem_range.mp hinn
    have hw1 : w.1 = i2 := by rw [← he]
    have hw2 : w.2.1 = (N i2).getD inn 0 := by rw [← he]
    have hi2 : i2 = i := hw1 ▸ h1.symm
    subst hi2
    rw [h2, hw2, List.getD_eq_getElem (N i2) 0 hinn2]
    exact List.getElem_mem hinn2

theorem B_final_props (N : ℕ → List ℕ) (A : ℕ → ℕ → ℚ) (n i : ℕ) (hin : i < n)
    (hNlt : ∀ j ∈ N i, j < i) :
    B_final N A n i i = 1 ∧ (∀ j, j ≠ i → B_final N A n i j ≠ 0 → j ∈ N i) := by
  constructor
  · unfold B_final
    rw [applyWrites_no_match i i (vecchiaWrites N A n) _ ?_]
    · rw [initTriplets_val N n i i hin, if_pos rfl]
    · intro w hw ⟨h1, h2⟩
      have : i ∈ N i := vecchiaWrites_match N A n i i ⟨w, hw, h1, h2⟩
      have := hNlt i this
      omega
  · intro j hji hBne
    by_contra hjN
    refine hBne ?_
    unfold B_final
    rw [applyWrites_no_match i j (vecchiaWrites N A n) _ ?_]
    · rw [initTriplets_val N n i j, if_neg hji]
      exact hin
    · intro w hw ⟨h1, h2⟩
      exact hjN (vecchiaWrites_match N A n i j ⟨w, hw, h1, h2⟩)

/-- Claim C3: with the factor built from the triplet initialization of
CreateREComponentsVecchia followed by the per-point coeffRef writes of
CalcCovFactorVecchia over the neighbor lists produced by
find_nearest_neighbors_Vecchia_FSA_fast in the training configuration,
every point i has B[i,i] = 1, every nonzero off-diagonal entry B[i,j] sits
on a neighbor j of i, and the neighbor set of i has exactly min(k, i)
elements (no duplicates), all with index smaller than i. -/
theorem C3_factor_construction (d : ℕ → ℕ → ℚ) (A : ℕ → ℕ → ℚ) (base : ℚ) (n k : ℕ)
    (hk : 0 < k) (hkn : k < n) (i : ℕ) (hin : i < n) :
    B_final (find_nearest_neighbors_Vecchia_FSA_fast d base n k (-1) 0 n false false)
      A n i i = 1 ∧
    (∀ j, j ≠ i →
      B_final (find_nearest_neighbors_Vecchia_FSA_fast d base n k (-1) 0 n false false)
        A n i j ≠ 0 →
      j ∈ find_nearest_neighbors_Vecchia_FSA_fast d base n k (-1) 0 n false false i) ∧
    (find_nearest_neighbors_Vecchia_FSA_fast d base n k (-1) 0 n false false i).length =
      min k i ∧
    (find_nearest_neighbors_Vecchia_FSA_fast d base n k (-1) 0 n false false i).Nodup ∧
    (∀ j ∈ find_nearest_neighbors_Vecchia_FSA_fast d base n k (-1) 0 n false false i,
      j < i) := by
  have hN := neighbors_facts_training d base n k hk hkn i hin
  have hB := B_final_props
    (find_nearest_neighbors_Vecchia_FSA_fast d base n k (-1) 0 n false false) A n i hin
    hN.2.2
  exact ⟨hB.1, hB.2, hN.1, hN.2.1, hN.2.2⟩

/-- Witness for C3 at a concrete input: three points, constant oracles,
point 2 in the brute-force regime. -/
theorem C3_factor_construction_witness :
    ((0 : ℕ) < 1 ∧ (1 : ℕ) < 3 ∧ (2 : ℕ) < 3) ∧
    (B_final (find_nearest_neighbors_Vecchia_FSA_fast (fun _ _ => (1 : ℚ)) 2 3 1 (-1) 0 3
        false false) (fun _ _ => (1 : ℚ)) 3 2 2 = 1 ∧
      (∀ j, j ≠ 2 →
        B_final (find_nearest_neighbors_Vecchia_FSA_fast (fun _ _ => (1 : ℚ)) 2 3 1 (-1) 0 3
          false false) (fun _ _ => (1 : ℚ)) 3 2 j ≠ 0 →
        j ∈ find_nearest_neighbors_Vecchia_FSA_fast (fun _ _ => (1 : ℚ)) 2 3 1 (-1) 0 3
          false false 2) ∧
      (find_nearest_neighbors_Vecchia_FSA_fast (fun _ _ => (1 : ℚ)) 2 3 1 (-1) 0 3
        false false 2).length = min 1 2 ∧
      (find_nearest_neighbors_Vecchia_FSA_fast (fun _ _ => (1 : ℚ)) 2 3 1 (-1) 0 3
        false false 2).Nodup ∧
      (∀ j ∈ find_nearest_neighbors_Vecchia_FSA_fast (fun _ _ => (1 : ℚ)) 2 3 1 (-1) 0 3
        false false 2, j < 2)) :=
  ⟨by decide,
    C3_factor_construction (fun _ _ => 1) (fun _ _ => 1) 2 3 1 (by decide) (by decide) 2
      (by decide)⟩
